import Mathlib

/-!
Group configuration of deepx_core.

A verification development for `src/common/group_config.cc`.

The C++ `int` is a 32-bit two's complement integer.  Fields of type `int` are
modelled as `Int`; every place where the source computes in a machine type
reduces explicitly (`wrapInt32`, `toUInt64`, `mulUInt64`).  The output
parameters `items` and `max_group_id` are passed in and returned explicitly;
a null `max_group_id` pointer is `none`.
-/

set_option autoImplicit false

namespace deepx_core

/-! ## Machine integers -/

/-- Value of `std::numeric_limits<int>::max()`. -/
def INT_MAX : Int := 2147483647

/-- Value of `std::numeric_limits<int>::min()`. -/
def INT_MIN : Int := -2147483648

/-- The integer is representable in a C++ `int`. -/
def isInt32 (x : Int) : Prop := INT_MIN ≤ x ∧ x ≤ INT_MAX

instance (x : Int) : Decidable (isInt32 x) := by
  unfold isInt32; exact inferInstance

/-- Two's complement reduction of an integer to the range of `int`. -/
def wrapInt32 (x : Int) : Int := (x + 2147483648) % 4294967296 - 2147483648

/-- The conversion `(uint64_t)x`: reduction modulo `2^64`. -/
def toUInt64 (x : Int) : Nat := (x % 18446744073709551616).toNat

/-- Multiplication of two `uint64_t` values. -/
def mulUInt64 (a b : Nat) : Nat := (a * b) % 18446744073709551616

/-! ## Data model -/

/-- The struct `GroupConfigItem`: three `int` fields. -/
structure GroupConfigItem where
  group_id : Int
  embedding_row : Int
  embedding_col : Int
deriving DecidableEq, Repr

/-- The function `CheckGroupConfigItem` (group_config.cc, lines 17-40).  `MAX_GROUP_ID` is
declared in a header that is not part of the sources at hand and is taken as a
parameter. -/
def CheckGroupConfigItem (MAX_GROUP_ID : Int) (item : GroupConfigItem) : Bool :=
  if item.group_id < 0 ∨ item.group_id > MAX_GROUP_ID then false
  else if item.embedding_row ≤ 0 then false
  else if item.embedding_col ≤ 0 then false
  else if mulUInt64 (toUInt64 item.embedding_row) (toUInt64 item.embedding_col)
      > toUInt64 INT_MAX then false
  else true

/-! ## Parser state -/

/-- The variables both parsers update while reading: the output vector
`*items`, the output `*max_group_id` (`none` for a null pointer) and the local
`dedup` set. -/
structure ParseState where
  items : List GroupConfigItem
  max_group_id : Option Int
  dedup : List Int
deriving DecidableEq, Repr

/-- What a caller observes after a call: the returned `bool` and the two output
parameters. -/
structure ParseResult where
  ok : Bool
  items : List GroupConfigItem
  max_group_id : Option Int
deriving DecidableEq, Repr

/-- State at loop entry: `items->clear()`, `*max_group_id = 0` when the pointer
is not null, empty `dedup`. -/
def initState (max_group_id : Option Int) : ParseState :=
  { items := [], max_group_id := max_group_id.map (fun _ => 0), dedup := [] }

/-- The statement `if (*max_group_id < item.group_id) *max_group_id = item.group_id;`. -/
def raiseMax (m : Int) (g : Int) : Int := if m < g then g else m

/-- The statement `++(*max_group_id)` on an `int`. -/
def incrInt (m : Int) : Int := wrapInt32 (m + 1)

/-- The code after either loop: increment of `*max_group_id` when requested and
`return !items->empty()`. -/
def finish (st : ParseState) : ParseResult :=
  { ok := !st.items.isEmpty, items := st.items,
    max_group_id := st.max_group_id.map incrInt }

/-- An early `return false` leaves the output parameters as they are. -/
def abort (st : ParseState) : ParseResult :=
  { ok := false, items := st.items, max_group_id := st.max_group_id }

/-! ## Inline form: `ParseGroupConfig` -/

/-- Lines 129-146 of `ParseGroupConfig`: one inline item is split on `:` into
integers and shaped into a `GroupConfigItem`.  `SplitI` stands for the
overload `Split(s, sep, std::vector<int>*)` of `str_util.h`, `none` being its
`false` return. -/
def readInlineItem (SplitI : String → Char → Option (List Int)) (str_item : String) :
    Option GroupConfigItem :=
  match SplitI str_item ':' with
  | none => none
  | some int_items =>
    match int_items with
    | [g, c] => some { group_id := g, embedding_row := 1, embedding_col := c }
    | [g, r, c] => some { group_id := g, embedding_row := r, embedding_col := c }
    | _ => none

/-- The `for` loop of `ParseGroupConfig` (lines 128-164).  The boolean is
`false` when the loop was left by `return false`. -/
def ParseGroupConfigLoop (SplitI : String → Char → Option (List Int)) (MAX_GROUP_ID : Int) :
    List String → ParseState → Bool × ParseState
  | [], st => (true, st)
  | str_item :: rest, st =>
    match readInlineItem SplitI str_item with
    | none => (false, st)
    | some item =>
      if !CheckGroupConfigItem MAX_GROUP_ID item then (false, st)
      else if st.dedup.contains item.group_id then (false, st)
      else
        ParseGroupConfigLoop SplitI MAX_GROUP_ID rest
          { items := st.items ++ [item],
            max_group_id := st.max_group_id.map (fun m => raiseMax m item.group_id),
            dedup := item.group_id :: st.dedup }

/-- The function `ParseGroupConfig(info, items, max_group_id)` (lines 116-171).  `SplitS`
and `SplitI` stand for the two `Split` overloads of `str_util.h`; the values of
the output parameters at entry are `_items` and `max_group_id`. -/
def ParseGroupConfig (SplitS : String → Char → List String)
    (SplitI : String → Char → Option (List Int)) (MAX_GROUP_ID : Int)
    (info : String) (_items : List GroupConfigItem) (max_group_id : Option Int) :
    ParseResult :=
  match ParseGroupConfigLoop SplitI MAX_GROUP_ID (SplitS info ',') (initState max_group_id) with
  | (false, st) => abort st
  | (true, st) => finish st

/-- The overload `ParseGroupConfig(info, items, max_group_id, gflag)`
(lines 173-181). -/
def ParseGroupConfigFlag (SplitS : String → Char → List String)
    (SplitI : String → Char → Option (List Int)) (MAX_GROUP_ID : Int)
    (info : String) (items : List GroupConfigItem) (max_group_id : Option Int) :
    ParseResult :=
  if info.data.isEmpty then { ok := false, items := items, max_group_id := max_group_id }
  else ParseGroupConfig SplitS SplitI MAX_GROUP_ID info items max_group_id

/-! ## File form: `LoadGroupConfig` -/

/-- The predicate `std::isspace` of the classic locale: space and the five
control characters from tab to carriage return. -/
def isSpace (c : Char) : Bool := c.toNat = 32 || (9 ≤ c.toNat && c.toNat ≤ 13)

/-- A decimal digit. -/
def isDigit (c : Char) : Bool := 48 ≤ c.toNat && c.toNat ≤ 57

/-- Value of a run of decimal digits, most significant first, continuing from
the accumulator `acc`. -/
def digitsValue (acc : Nat) : List Char → Nat
  | [] => acc
  | c :: cs => digitsValue (acc * 10 + (c.toNat - 48)) cs

/-- An optional sign in front of a number: whether it is `-`, and what follows. -/
def readSign : List Char → Bool × List Char
  | c :: cs => if c = '-' then (true, cs) else if c = '+' then (false, cs) else (false, c :: cs)
  | [] => (false, [])

/-- The formatted extraction `iss >> x` for an `int x` on a stream with the
flags it has by default (decimal, `skipws`): leading white space is skipped, an optional
sign and the longest run of digits are consumed; the extraction fails when
there is no digit or when the value is not representable in an `int`.  The
rest of the stream is returned with the value. -/
def readInt (s : List Char) : Option (Int × List Char) :=
  let (neg, s2) := readSign (s.dropWhile isSpace)
  let ds := s2.takeWhile isDigit
  if ds.isEmpty then none
  else
    let v : Int := if neg then -(digitsValue 0 ds : Int) else (digitsValue 0 ds : Int)
    if v < INT_MIN ∨ v > INT_MAX then none else some (v, s2.dropWhile isDigit)

/-- Lines 73-79 of `LoadGroupConfig`: the stream is reset to the line and
`iss >> item.group_id >> item.embedding_row >> item.embedding_col` is
evaluated; `none` when the extraction fails. -/
def readLineItem (line : String) : Option GroupConfigItem :=
  match readInt line.data with
  | none => none
  | some (g, s1) =>
    match readInt s1 with
    | none => none
    | some (r, s2) =>
      match readInt s2 with
      | none => none
      | some (c, _) => some { group_id := g, embedding_row := r, embedding_col := c }

/-- The test `line.find('#') != std::string::npos`. -/
def findHash (line : String) : Bool := line.data.contains '#'

/-- Whether two consecutive slashes occur in the characters. -/
def hasSlashSlash : List Char → Bool
  | a :: b :: cs => (a = '/' && b = '/') || hasSlashSlash (b :: cs)
  | _ => false

/-- The test `line.find("//") != std::string::npos`. -/
def findSlashSlash (line : String) : Bool := hasSlashSlash line.data

/-- The `while (GetLine(is, line))` loop of `LoadGroupConfig` (lines 64-97) on
the lines that `GetLine` delivers. -/
def LoadGroupConfigLoop (MAX_GROUP_ID : Int) : List String → ParseState → Bool × ParseState
  | [], st => (true, st)
  | line :: rest, st =>
    if findHash line then LoadGroupConfigLoop MAX_GROUP_ID rest st
    else if findSlashSlash line then LoadGroupConfigLoop MAX_GROUP_ID rest st
    else
      match readLineItem line with
      | none => (false, st)
      | some item =>
        if !CheckGroupConfigItem MAX_GROUP_ID item then (false, st)
        else if st.dedup.contains item.group_id then (false, st)
        else
          LoadGroupConfigLoop MAX_GROUP_ID rest
            { items := st.items ++ [item],
              max_group_id := st.max_group_id.map (fun m => raiseMax m item.group_id),
              dedup := item.group_id :: st.dedup }

/-- The function `LoadGroupConfig(file, items, max_group_id)` (lines 47-104).  `Open` stands
for `AutoInputFileStream::Open` followed by repeated `GetLine` (stream.h, not
part of the sources at hand): `none` when the file cannot be opened, else the
lines of the file.  A failed open returns before `items->clear()`. -/
def LoadGroupConfig (Open : String → Option (List String)) (MAX_GROUP_ID : Int)
    (file : String) (items : List GroupConfigItem) (max_group_id : Option Int) :
    ParseResult :=
  match Open file with
  | none => { ok := false, items := items, max_group_id := max_group_id }
  | some lines =>
    match LoadGroupConfigLoop MAX_GROUP_ID lines (initState max_group_id) with
    | (false, st) => abort st
    | (true, st) => finish st

/-- The overload `LoadGroupConfig(file, items, max_group_id, gflag)`
(lines 106-114). -/
def LoadGroupConfigFlag (Open : String → Option (List String)) (MAX_GROUP_ID : Int)
    (file : String) (items : List GroupConfigItem) (max_group_id : Option Int) :
    ParseResult :=
  if file.data.isEmpty then { ok := false, items := items, max_group_id := max_group_id }
  else LoadGroupConfig Open MAX_GROUP_ID file items max_group_id

/-! ## Derived views -/

/-- The loop of `GetLRGroupConfig` (lines 206-212) from index `i` on: the
`i`-th element of `lr_items` is overwritten from the `i`-th element of `items`. -/
def GetLRGroupConfigLoop (items : List GroupConfigItem) :
    Nat → Nat → List GroupConfigItem → List GroupConfigItem
  | 0, _, lr_items => lr_items
  | fuel + 1, i, lr_items =>
    match items[i]? with
    | none => lr_items
    | some item =>
      GetLRGroupConfigLoop items fuel (i + 1)
        (lr_items.set i { group_id := item.group_id, embedding_row := item.embedding_row,
                          embedding_col := 1 })

/-- A value-initialised `GroupConfigItem`. -/
def GroupConfigItem.zero : GroupConfigItem :=
  { group_id := 0, embedding_row := 0, embedding_col := 0 }

/-- The function `GetLRGroupConfig` (lines 203-214): a vector of `items.size()` elements is
created and filled index by index. -/
def GetLRGroupConfig (items : List GroupConfigItem) : List GroupConfigItem :=
  GetLRGroupConfigLoop items items.length 0 (List.replicate items.length GroupConfigItem.zero)

/-- The range-`for` loop shared by `IsFMGroupConfig` and `CheckFMGroupConfig`:
`false` as soon as an item has a column count other than `k`. -/
def sameColLoop (k : Int) : List GroupConfigItem → Bool
  | [] => true
  | item :: rest => if k ≠ item.embedding_col then false else sameColLoop k rest

/-- The function `IsFMGroupConfig` (lines 216-228). -/
def IsFMGroupConfig (items : List GroupConfigItem) : Bool :=
  match items with
  | [] => false
  | front :: _ => sameColLoop front.embedding_col items

/-- The function `CheckFMGroupConfig` (lines 230-244); it differs from `IsFMGroupConfig`
by its log output only. -/
def CheckFMGroupConfig (items : List GroupConfigItem) : Bool :=
  match items with
  | [] => false
  | front :: _ => sameColLoop front.embedding_col items

/-- The loop of `GetTotalEmbeddingCol`: `total_col += item.embedding_col` in
`int` arithmetic. -/
def GetTotalEmbeddingColLoop (total_col : Int) : List GroupConfigItem → Int
  | [] => total_col
  | item :: rest => GetTotalEmbeddingColLoop (wrapInt32 (total_col + item.embedding_col)) rest

/-- The function `GetTotalEmbeddingCol` (lines 246-252). -/
def GetTotalEmbeddingCol (items : List GroupConfigItem) : Int :=
  GetTotalEmbeddingColLoop 0 items

/-! ## The `Split` helpers -/

/-- Pieces of a character list between occurrences of the separator; `cur` is
the piece being read, in reverse. -/
def splitChars (sep : Char) : List Char → List Char → List (List Char)
  | [], cur => [cur.reverse]
  | c :: cs, cur =>
    if c = sep then cur.reverse :: splitChars sep cs [] else splitChars sep cs (c :: cur)

/-- Modelled from the spec: `Split(s, sep, std::vector<std::string>*)` of
`str_util.h`, which is not part of the sources at hand.  "Inline form:
comma-separated items": the string is cut at every separator and the pieces
that are not empty are the items, so an empty string has no item. -/
def Split (s : String) (sep : Char) : List String :=
  ((splitChars sep s.data []).filter (fun p => !p.isEmpty)).map String.mk

/-- A whole token read as a decimal `int`: an optional sign and digits, nothing
else, and a value in range. -/
def parseIntToken (t : String) : Option Int :=
  match readInt t.data with
  | some (v, []) => if t.data.dropWhile isSpace = t.data then some v else none
  | _ => none

/-- All tokens read as integers, or `none` when one of them is not an integer. -/
def parseIntTokens : List String → Option (List Int)
  | [] => some []
  | t :: ts =>
    match parseIntToken t with
    | none => none
    | some v =>
      match parseIntTokens ts with
      | none => none
      | some vs => some (v :: vs)

/-- Modelled from the spec: `Split(s, sep, std::vector<int>*)` of `str_util.h`,
which is not part of the sources at hand.  "each `group_id:col` or
`group_id:row:col`": the pieces between separators are read as decimal
integers; the call fails (`none`) when a piece is not an integer. -/
def SplitInt (s : String) (sep : Char) : Option (List Int) :=
  parseIntTokens (Split s sep)

/-! ## Reading as a list of read results

Both loops run the same three checks on the item they have read.  The loop
below runs them on a list of read results (`none` for an element that could
not be read); each parser loop is shown equal to it further down. -/

/-- The state after `items->emplace_back(item)`, `dedup.emplace(item.group_id)`
and the update of `*max_group_id`. -/
def ParseState.accept (st : ParseState) (item : GroupConfigItem) : ParseState :=
  { items := st.items ++ [item],
    max_group_id := st.max_group_id.map (fun m => raiseMax m item.group_id),
    dedup := item.group_id :: st.dedup }

/-- The checks of either loop on a list of read results. -/
def acceptLoop (MAX_GROUP_ID : Int) :
    List (Option GroupConfigItem) → ParseState → Bool × ParseState
  | [], st => (true, st)
  | none :: _, st => (false, st)
  | some item :: rest, st =>
    if !CheckGroupConfigItem MAX_GROUP_ID item then (false, st)
    else if st.dedup.contains item.group_id then (false, st)
    else acceptLoop MAX_GROUP_ID rest (st.accept item)

/-- The running maximum after the items `its`, from the value `m`. -/
def maxFold (m : Int) : List GroupConfigItem → Int
  | [] => m
  | it :: its => maxFold (raiseMax m it.group_id) its

/-- The state after accepting all of `its` in order. -/
def ParseState.extend (st : ParseState) (its : List GroupConfigItem) : ParseState :=
  { items := st.items ++ its,
    max_group_id := st.max_group_id.map (fun m => maxFold m its),
    dedup := (its.map GroupConfigItem.group_id).reverse ++ st.dedup }

/-- The items `its` are all accepted after the group ids `seen`: each passes
`CheckGroupConfigItem`, their group ids are pairwise distinct and none is in
`seen`. -/
def Accepted (MAX_GROUP_ID : Int) (seen : List Int) (its : List GroupConfigItem) : Prop :=
  (∀ it ∈ its, CheckGroupConfigItem MAX_GROUP_ID it = true) ∧
  (its.map GroupConfigItem.group_id).Nodup ∧
  (∀ it ∈ its, it.group_id ∉ seen)

/-- The read result `bad` makes the loop return `false` after the group ids
`seen`: it could not be read, or fails `CheckGroupConfigItem`, or repeats a
group id. -/
def Offending (MAX_GROUP_ID : Int) (seen : List Int) (bad : Option GroupConfigItem) : Prop :=
  bad = none ∨ ∃ b, bad = some b ∧
    (CheckGroupConfigItem MAX_GROUP_ID b = false ∨ b.group_id ∈ seen)

/-- What either function returns once its loop has ended: the early
`return false` or the code after the loop. -/
def conclude : Bool × ParseState → ParseResult
  | (false, st) => abort st
  | (true, st) => finish st

/-- The read results of the inline form: one per piece of `info`. -/
def inlineReads (SplitS : String → Char → List String)
    (SplitI : String → Char → Option (List Int)) (info : String) :
    List (Option GroupConfigItem) :=
  (SplitS info ',').map (readInlineItem SplitI)

/-- A line that `LoadGroupConfig` skips as a comment. -/
def isComment (line : String) : Bool := findHash line || findSlashSlash line

/-- The read results of the file form: one per line that is not a comment. -/
def lineReads (lines : List String) : List (Option GroupConfigItem) :=
  (lines.filter (fun l => !isComment l)).map readLineItem

/-- The inline item `s` is of the form `g:c` or `g:r:c` and `it` is the item
the format assigns to it: `{g, 1, c}` for `g:c`, `{g, r, c}` for `g:r:c`. -/
def InlineForm (SplitI : String → Char → Option (List Int)) (s : String)
    (it : GroupConfigItem) : Prop :=
  (SplitI s ':' = some [it.group_id, it.embedding_col] ∧ it.embedding_row = 1) ∨
  SplitI s ':' = some [it.group_id, it.embedding_row, it.embedding_col]

/-- The logistic-regression projection of one item: same group id, same
number of rows, one column. -/
def lrItem (item : GroupConfigItem) : GroupConfigItem :=
  { group_id := item.group_id, embedding_row := item.embedding_row, embedding_col := 1 }

/-- The exact integer sum of the column counts. -/
def sumEmbeddingCol (items : List GroupConfigItem) : Int :=
  (items.map GroupConfigItem.embedding_col).sum

/-- The characters `t` are a decimal numeral of value `v`: an optional sign
`-` or `+` followed by at least one digit. -/
def IsNumeral (t : List Char) (v : Int) : Prop :=
  ∃ ds : List Char, ds ≠ [] ∧ (∀ c ∈ ds, isDigit c = true) ∧
    ((t = ds ∧ v = (digitsValue 0 ds : Int)) ∨
     (t = '+' :: ds ∧ v = (digitsValue 0 ds : Int)) ∨
     (t = '-' :: ds ∧ v = -(digitsValue 0 ds : Int)))

/-- The characters `s` start with an integer of value `v` and go on with
`rest`: white space, which may be absent, then a numeral of a value in the
range of `int`, then `rest`, which does not start with a digit. -/
def StartsWithInt (s : List Char) (v : Int) (rest : List Char) : Prop :=
  ∃ ws t : List Char, s = ws ++ (t ++ rest) ∧ (∀ c ∈ ws, isSpace c = true) ∧
    IsNumeral t v ∧ isInt32 v ∧ (∀ c, rest.head? = some c → isDigit c = false)

/-- The characters `s` start with three integers, the fields of `item` in the
order `group_id`, `embedding_row`, `embedding_col`; what follows the third is
arbitrary but for not starting with a digit. -/
def StartsWithThreeInts (s : List Char) (item : GroupConfigItem) : Prop :=
  ∃ r1 r2 r3 : List Char, StartsWithInt s item.group_id r1 ∧
    StartsWithInt r1 item.embedding_row r2 ∧ StartsWithInt r2 item.embedding_col r3

/-- The line format in the words of the specification: the characters `s`
start with three numerals in the range of `int`, the fields of `item`, with
white space between the first and the second and between the second and the
third; white space may come first, and what follows the third numeral does
not start with a digit. -/
def WhitespaceSeparatedThreeInts (s : List Char) (item : GroupConfigItem) : Prop :=
  ∃ w0 w1 w2 t1 t2 t3 rest : List Char,
    s = w0 ++ (t1 ++ (w1 ++ (t2 ++ (w2 ++ (t3 ++ rest))))) ∧
    IsNumeral t1 item.group_id ∧ IsNumeral t2 item.embedding_row ∧
    IsNumeral t3 item.embedding_col ∧
    isInt32 item.group_id ∧ isInt32 item.embedding_row ∧ isInt32 item.embedding_col ∧
    (∀ x ∈ w0, isSpace x = true) ∧
    w1 ≠ [] ∧ (∀ x ∈ w1, isSpace x = true) ∧
    w2 ≠ [] ∧ (∀ x ∈ w2, isSpace x = true) ∧
    (∀ x, rest.head? = some x → isDigit x = false)

/-- A valid group configuration, as a successful parse produces it: not
empty, every item passes `CheckGroupConfigItem`, group ids pairwise distinct. -/
def ValidGroupConfig (MAX_GROUP_ID : Int) (items : List GroupConfigItem) : Prop :=
  items ≠ [] ∧ (∀ it ∈ items, CheckGroupConfigItem MAX_GROUP_ID it = true) ∧
  (items.map GroupConfigItem.group_id).Nodup

/-! ## Class factory (`class_factory.h`) -/

/-- A value of the function pointer type `creator = pointer (*)()`.  The
objects of the class hierarchy of `T` live in a heap, a list of objects
addressed by position; a creator takes the heap and returns a pointer
(`none` for `nullptr`) together with the heap after the call. -/
abbrev creator (T : Type) := List T → Option Nat × List T

/-- The class `ClassFactory<T>`: the members `map_`, an unordered map from
names to creators kept as a list of entries with distinct keys, and `set_`, an
ordered set of names kept as a strictly increasing list. -/
structure ClassFactory (T : Type) where
  map_ : List (String × creator T)
  set_ : List String

/-- The factory that `GetInstance` constructs: both containers empty. -/
def ClassFactory.GetInstance (T : Type) : ClassFactory T := { map_ := [], set_ := [] }

/-- The lookup `map_.find(name)`: the creator stored under the key, `none` for
`map_.end()`. -/
def mapFind {T : Type} : List (String × creator T) → String → Option (creator T)
  | [], _ => none
  | (key, c) :: rest, name => if key = name then some c else mapFind rest name

/-- The call `map_.count(name)`: 1 when the key is present, else 0. -/
def mapCount {T : Type} (m : List (String × creator T)) (name : String) : Nat :=
  match mapFind m name with
  | some _ => 1
  | none => 0

/-- The call `map_.emplace(name, creator)`: a new entry unless the key is
present already. -/
def mapEmplace {T : Type} (m : List (String × creator T)) (name : String) (c : creator T) :
    List (String × creator T) :=
  match mapFind m name with
  | some _ => m
  | none => m ++ [(name, c)]

/-- The order of `std::string` under `operator<`: lexicographic on the
character codes. -/
def stringLess : List Char → List Char → Bool
  | _, [] => false
  | [], _ :: _ => true
  | a :: as, b :: bs => decide (a.toNat < b.toNat) || (decide (a = b) && stringLess as bs)

/-- The call `set_.emplace(name)`: the name is put at its place in the order
unless it is an element already. -/
def setEmplace : List String → String → List String
  | [], name => [name]
  | x :: xs, name =>
    if x = name then x :: xs
    else if stringLess name.data x.data then name :: x :: xs
    else x :: setEmplace xs name

/-- The member function `Register` (lines 29-35): `none` stands for the
`std::invalid_argument` thrown on a name that is registered already, `some`
carries the factory after the two `emplace` calls. -/
def ClassFactory.Register {T : Type} (f : ClassFactory T) (name : String) (c : creator T) :
    Option (ClassFactory T) :=
  if mapCount f.map_ name > 0 then none
  else some { map_ := mapEmplace f.map_ name c, set_ := setEmplace f.set_ name }

/-- The member function `New` (lines 37-44) on a heap: `nullptr` and the heap
untouched for a name that is not registered, else the call `it->second()`. -/
def ClassFactory.New {T : Type} (f : ClassFactory T) (name : String) (heap : List T) :
    Option Nat × List T :=
  match mapFind f.map_ name with
  | none => (none, heap)
  | some c => c heap

/-- The member function `Names` (line 46). -/
def ClassFactory.Names {T : Type} (f : ClassFactory T) : List String := f.set_

/-- The function `ClassFactoryRegister<T, U>::Create` (line 67), `new U`: the
default-constructed object `u` of class `U` is put at a fresh address of the
heap and that address is returned. -/
def ClassFactoryRegister.Create {T : Type} (u : T) : creator T :=
  fun heap => (some heap.length, heap ++ [u])

/-- The constructor of `ClassFactoryRegister<T, U>` (lines 70-72) applied to
the factory of `T`. -/
def ClassFactoryRegister {T : Type} (f : ClassFactory T) (u : T) (name : String) :
    Option (ClassFactory T) :=
  f.Register name (ClassFactoryRegister.Create u)

/-- A call on the factory: `Register(name, creator)` or `New(name)`. -/
inductive FactoryCall (T : Type) where
  | Register (name : String) (c : creator T)
  | New (name : String)

/-- One call on a factory and a heap.  A `Register` that throws leaves the
factory as it was before the call; `New` is a `const` member and acts on the
heap alone. -/
def ClassFactory.call {T : Type} (f : ClassFactory T) (heap : List T) :
    FactoryCall T → ClassFactory T × List T
  | FactoryCall.Register name c =>
    match f.Register name c with
    | some f1 => (f1, heap)
    | none => (f, heap)
  | FactoryCall.New name => (f, (f.New name heap).2)

/-- A sequence of calls, in order. -/
def ClassFactory.calls {T : Type} :
    ClassFactory T → List T → List (FactoryCall T) → ClassFactory T × List T
  | f, heap, [] => (f, heap)
  | f, heap, c :: rest =>
    ClassFactory.calls (f.call heap c).1 (f.call heap c).2 rest

/-- A sequence of `Register` calls, in order, on a factory; a call that throws
leaves the factory as it was. -/
def ClassFactory.registerAll {T : Type} :
    ClassFactory T → List (String × creator T) → ClassFactory T
  | f, [] => f
  | f, (name, c) :: rest =>
    match f.Register name c with
    | some f1 => ClassFactory.registerAll f1 rest
    | none => ClassFactory.registerAll f rest

/-- The creator of the first call in the sequence that registers `name`. -/
def firstRegistered {T : Type} : List (String × creator T) → String → Option (creator T)
  | [], _ => none
  | (key, c) :: rest, name => if key = name then some c else firstRegistered rest name

/-- The `Register` calls among a sequence of calls. -/
def registerCalls {T : Type} : List (FactoryCall T) → List (String × creator T)
  | [] => []
  | FactoryCall.Register name c :: rest => (name, c) :: registerCalls rest
  | FactoryCall.New _ :: rest => registerCalls rest

/-- The two containers of a factory are in step: the names of `set_` are the
keys of `map_`. -/
def ClassFactory.InStep {T : Type} (f : ClassFactory T) : Prop :=
  ∀ name, name ∈ f.set_ ↔ ∃ c, mapFind f.map_ name = some c

/-! ## Module creators (`graph_module_creator.cc`) -/

namespace graph_module_creator

/-- The nodes that the module creators below build.  The node classes and the
creator functions are declared in headers that are not part of the sources at
hand; a node is recorded as the creator call that made it, with the arguments
of the call, and the creators are taken to return normally.  A node passed in
by the caller is any such term. -/
inductive GraphNode where
  | InstanceNode (name : String) (shape : List Int) (tensor_type : Int)
  | GetVariableRandXavier (name : String) (shape : List Int)
  | GetVariableZeros (name : String) (shape : List Int)
  | FullyConnectNode (name : String) (X W b : GraphNode)
  | Sigmoid (name : String) (X : GraphNode)
  | Tanh (name : String) (X : GraphNode)
  | Relu (name : String) (X : GraphNode)
  | SubscriptRange (name : String) (X : GraphNode) (axis : Int) (begin_index end_index : Int)
deriving DecidableEq, Repr

/-- Modelled from the spec: `Shape::real_axis`, declared in a header that is
not part of the sources at hand.  "axis normalization (negative indices)": an
axis from `0` to `rank - 1` stays, an axis from `-rank` to `-1` has the rank
added, any other axis is rejected (`none` for the `false` return). -/
def real_axis (shape : List Int) (axis : Int) : Option Int :=
  if 0 ≤ axis ∧ axis < shape.length then some axis
  else if -(shape.length : Int) ≤ axis ∧ axis < 0 then some (axis + shape.length)
  else none

/-- The expression `shape[axis]` for an axis that `real_axis` returned. -/
def dimAt (shape : List Int) (axis : Int) : Int := shape.getD axis.toNat 0

/-- The loop shared by the four `Split` overloads (lines 330-335, 348-352,
371-376, 394-398) from index `i` on; `name i` is the name of the `i`-th node
and `split_dim i` what the `i`-th iteration adds to `end_index`. -/
def SplitLoop (X : GraphNode) (axis : Int) (name : Nat → String) (split_dim : Nat → Int)
    (n : Int) : Nat → Nat → Int → List (Option GraphNode) → List (Option GraphNode)
  | 0, _, _, nodes => nodes
  | fuel + 1, i, end_index, nodes =>
    if (i : Int) < n then
      SplitLoop X axis name split_dim n fuel (i + 1) (wrapInt32 (end_index + split_dim i))
        (nodes.set i
          (some (GraphNode.SubscriptRange (name i) X axis end_index
            (wrapInt32 (end_index + split_dim i)))))
    else nodes

/-- The code of the overloads taking `n` after `real_axis` (lines 322-336,
341-353).  The result is `none` when the call does not return: `n = 0` makes
`k % n` undefined, `DXCHECK_THROW(k % n == 0)` throws, and a negative `n` is
no size for `std::vector`.  Division and remainder truncate, as in C++.
The entries of the returned vector are pointers, `none` for `nullptr`. -/
def SplitByCount (shape_X : List Int) (X : GraphNode) (axis : Int) (name : Nat → String)
    (n : Int) : Option (List (Option GraphNode)) :=
  if n = 0 then none
  else if Int.tmod (dimAt shape_X axis) n ≠ 0 then none
  else if n < 0 then none
  else
    some (SplitLoop X axis name (fun _ => Int.tdiv (dimAt shape_X axis) n) n n.toNat 0 0
      (List.replicate n.toNat none))

/-- The loop `for (int split_dim : split_dims) total_split_dim += split_dim;`
in `int` arithmetic. -/
def totalSplitDim (total_split_dim : Int) : List Int → Int
  | [] => total_split_dim
  | split_dim :: rest => totalSplitDim (wrapInt32 (total_split_dim + split_dim)) rest

/-- The code of the overloads taking `split_dims` after `real_axis`
(lines 359-377, 383-399); `n` is `(int)split_dims.size()`. -/
def SplitByDims (shape_X : List Int) (X : GraphNode) (axis : Int) (name : Nat → String)
    (split_dims : List Int) : Option (List (Option GraphNode)) :=
  if dimAt shape_X axis ≠ totalSplitDim 0 split_dims then none
  else if wrapInt32 split_dims.length < 0 then none
  else
    some (SplitLoop X axis name (fun i => split_dims.getD i 0) (wrapInt32 split_dims.length)
      (wrapInt32 split_dims.length).toNat 0 0
      (List.replicate (wrapInt32 split_dims.length).toNat none))

/-- The overload `Split(prefix, X, axis, n)` (lines 319-337); `shape` is the
accessor `GraphNode::shape()`. -/
def Split_name_n (shape : GraphNode → List Int) (name : String) (X : GraphNode)
    (axis : Int) (n : Int) : Option (List (Option GraphNode)) :=
  match real_axis (shape X) axis with
  | none => none
  | some axis => SplitByCount (shape X) X axis (fun i => name ++ toString i) n

/-- The overload `Split(X, axis, n)` (lines 339-354). -/
def Split_n (shape : GraphNode → List Int) (X : GraphNode) (axis : Int) (n : Int) :
    Option (List (Option GraphNode)) :=
  match real_axis (shape X) axis with
  | none => none
  | some axis => SplitByCount (shape X) X axis (fun _ => "") n

/-- The overload `Split(prefix, X, axis, split_dims)` (lines 356-378). -/
def Split_name_dims (shape : GraphNode → List Int) (name : String) (X : GraphNode)
    (axis : Int) (split_dims : List Int) : Option (List (Option GraphNode)) :=
  match real_axis (shape X) axis with
  | none => none
  | some axis => SplitByDims (shape X) X axis (fun i => name ++ toString i) split_dims

/-- The overload `Split(X, axis, split_dims)` (lines 380-400). -/
def Split_dims (shape : GraphNode → List Int) (X : GraphNode) (axis : Int)
    (split_dims : List Int) : Option (List (Option GraphNode)) :=
  match real_axis (shape X) axis with
  | none => none
  | some axis => SplitByDims (shape X) X axis (fun _ => "") split_dims

/-- The sum of the first `i` entries of `split_dims`. -/
def sumBefore (split_dims : List Int) (i : Nat) : Int := (split_dims.take i).sum

/-- The nodes `Split` is to return for the ranges that `split_dim` gives, from
index `i` and begin `b` on, `count` of them. -/
def rangeNodes (X : GraphNode) (axis : Int) (name : Nat → String) (split_dim : Nat → Int) :
    Nat → Nat → Int → List (Option GraphNode)
  | 0, _, _ => []
  | count + 1, i, b =>
    some (GraphNode.SubscriptRange (name i) X axis b (b + split_dim i))
      :: rangeNodes X axis name split_dim count (i + 1) (b + split_dim i)

end graph_module_creator

namespace graph_module_creator

/-- The sum of `count` values of `split_dim` from index `i` on. -/
def sumFrom (split_dim : Nat → Int) : Nat → Nat → Int
  | _, 0 => 0
  | i, count + 1 => split_dim i + sumFrom split_dim (i + 1) count

/-- No addition to `end_index` leaves the range of `int` in `count` iterations
from index `i` and end `b` on. -/
def NoWrap (split_dim : Nat → Int) : Nat → Nat → Int → Prop
  | 0, _, _ => True
  | count + 1, i, b =>
    isInt32 (b + split_dim i) ∧ NoWrap split_dim count (i + 1) (b + split_dim i)

end graph_module_creator

namespace graph_module_creator

/-- The nodes that one iteration of the loop of `StackedFullyConnect` creates:
the variables `W` and `b`, the node `H` and the value of `Z` after the
iteration (`H` itself or the activation node on `H`). -/
structure Layer where
  W : GraphNode
  b : GraphNode
  H : GraphNode
  Z : GraphNode
deriving DecidableEq, Repr

/-- Lines 236-242 of `StackedFullyConnect`: the activation node on `H`. -/
def activationNode (activation : String) (H : GraphNode) : GraphNode :=
  if activation = "sigmoid" then GraphNode.Sigmoid "" H
  else if activation = "tanh" then GraphNode.Tanh "" H
  else GraphNode.Relu "" H

/-- The loop of `StackedFullyConnect` (lines 227-244) from index `i` on.  `Z`
is the variable of that name; `layers` records what the iterations so far have
created. -/
def StackedFullyConnectLoop (name : String) (_deep_dims : List Int) (activation : String)
    (deep_size : Int) : Nat → Nat → GraphNode → List Layer → GraphNode × List Layer
  | 0, _, Z, layers => (Z, layers)
  | fuel + 1, i, Z, layers =>
    if (i : Int) < deep_size then
      let W := GraphNode.GetVariableRandXavier (name ++ "W" ++ toString i)
        [_deep_dims.getD i 0, _deep_dims.getD (i + 1) 0]
      let b := GraphNode.GetVariableZeros (name ++ "b" ++ toString i)
        [1, _deep_dims.getD (i + 1) 0]
      let H := GraphNode.FullyConnectNode "" Z W b
      let Z1 :=
        if _deep_dims.getLast? = some 1 ∧ (i : Int) = deep_size - 1 then H
        else activationNode activation H
      StackedFullyConnectLoop name _deep_dims activation deep_size fuel (i + 1) Z1
        (layers ++ [{ W := W, b := b, H := H, Z := Z1 }])
    else (Z, layers)

/-- The vector `_deep_dims` of `StackedFullyConnect` (lines 220-224): the
column count of `X` in front of `deep_dims` unless `deep_dims` starts with it. -/
def stackedDims (shape_X : List Int) (deep_dims : List Int) : List Int :=
  (if deep_dims.getD 0 0 ≠ shape_X.getD 1 0 then [shape_X.getD 1 0] else []) ++ deep_dims

/-- The function `StackedFullyConnect` (lines 213-246); `shape` is the
accessor `GraphNode::shape()`.  The result is `none` when one of the three
`DXCHECK_THROW` throws; else it is the returned node `Z` together with the
record of the nodes created, one entry per iteration. -/
def StackedFullyConnect (shape : GraphNode → List Int) (name : String) (X : GraphNode)
    (deep_dims : List Int) (activation : String) : Option (GraphNode × List Layer) :=
  if (shape X).length ≠ 2 then none
  else if deep_dims.isEmpty then none
  else if ¬ (activation = "sigmoid" ∨ activation = "tanh" ∨ activation = "relu") then none
  else
    some (StackedFullyConnectLoop name (stackedDims (shape X) deep_dims) activation
      (wrapInt32 (stackedDims (shape X) deep_dims).length - 1)
      (stackedDims (shape X) deep_dims).length 0 X [])

/-- The input of layer `i` in a chain of layers on `X`: `X` for the first
layer, else the output of the layer before. -/
def layerInput (X : GraphNode) (layers : List Layer) (i : Nat) : GraphNode :=
  match i with
  | 0 => X
  | j + 1 => match layers[j]? with
    | some l => l.Z
    | none => X

/-- Every recorded layer is a fully connected layer over the dimension list
`d`, with variable names starting with `name`: layer `i` has a weight of shape
`(d[i], d[i+1])`, a bias of shape `(1, d[i+1])`, its node `H` is the fully
connected node on the input of the layer, the weight and the bias, and its
output is `H` or an activation node on `H`. -/
def ChainUpTo (name : String) (X : GraphNode) (d : List Int) (activation : String)
    (layers : List Layer) : Prop :=
  ∀ (i : Nat) (l : Layer), layers[i]? = some l →
    l.W = GraphNode.GetVariableRandXavier (name ++ "W" ++ toString i)
      [d.getD i 0, d.getD (i + 1) 0] ∧
    l.b = GraphNode.GetVariableZeros (name ++ "b" ++ toString i) [1, d.getD (i + 1) 0] ∧
    l.H = GraphNode.FullyConnectNode "" (layerInput X layers i) l.W l.b ∧
    (l.Z = l.H ∨ l.Z = activationNode activation l.H)

/-- The layers form a chain of `len(d) - 1` fully connected layers on `X` over
the dimension list `d`. -/
def IsChain (name : String) (X : GraphNode) (d : List Int) (activation : String)
    (layers : List Layer) : Prop :=
  layers.length + 1 = d.length ∧ ChainUpTo name X d activation layers

end graph_module_creator

/-! ## Graph engine

The classes `Graph`, `OpContext`, `TensorMap` and the node classes are used by
`example1_main.cc` and are declared in headers that are not part of the
sources at hand.  The definitions of this section follow sections 3 and 4 of
the specification.  Nodes are kept in one arena owned by the graph and refer
to their predecessors by index; values are of a type `F` standing for
`float_t`, used through its multiplication, its addition and its zero only.
Only dense tensors are modelled, as lists of values; the batch placeholder,
the gradient flag, initializer policies and the backward pass are left out. -/

/-- Modelled from the spec: the failure modes of `Graph.Compile`, "CyclicGraphError
(cycle detected), DuplicateNameError (two nodes share a name),
ShapeMismatchError (inference rule rejects operand shapes), UnknownTargetError
(target node not owned by this Graph)". -/
inductive CompileError where
  | CyclicGraphError
  | DuplicateNameError
  | ShapeMismatchError
  | UnknownTargetError
deriving DecidableEq, Repr

/-- Modelled from the spec: the three node families of the `GraphNode`
hierarchy.  An operator node carries its contract, "dispatched through an
interface exposing InferShape, Forward": the shape rule, `none` when it
rejects the operand shapes, and the kernel on the operand tensors. -/
inductive NodeRole (F : Type) where
  | instanceNode
  | variableNode
  | operatorNode (InferShape : List (List Nat) → Option (List Nat))
      (Forward : List (List F) → List F)

/-- Modelled from the spec: `GraphNode`, "every node has a unique name, a
Shape, ... and an ordered list of predecessor node references", the
references being indices into the arena of the graph. -/
structure GraphNode (F : Type) where
  name : String
  shape : List Nat
  role : NodeRole F
  input : List Nat

/-- Modelled from the spec: `Graph`, which "owns all GraphNode instances". -/
structure Graph (F : Type) where
  nodes : List (GraphNode F)

/-- The predecessor list of the node at index `n`; empty when no node is
registered at `n`. -/
def Graph.inputOf {F : Type} (g : Graph F) (n : Nat) : List Nat :=
  match g.nodes[n]? with
  | some node => node.input
  | none => []

/-- The traversal of a list of nodes in turn, each with `visit1`; the first
failure ends it. -/
def visitEach (visit1 : Nat → List Nat → Except CompileError (List Nat)) :
    List Nat → List Nat → Except CompileError (List Nat)
  | [], order => Except.ok order
  | p :: ps, order =>
    match visit1 p order with
    | Except.error e => Except.error e
    | Except.ok order1 => visitEach visit1 ps order1

/-- Modelled from the spec: the traversal of `Graph.Compile` from one node,
"reverse topological traversal from each target node, visiting each node at
most once (memoized dependency-closure), producing a forward execution order
such that every operator node appears strictly after all of its
predecessors".  A node that is in `order` already is done; a node that is not
registered is an unknown target; else the predecessors are visited in the
order of the predecessor list and the node is put after them.  The first
argument bounds the depth of the descent; on an acyclic graph of `N` nodes the
depth stays below `N`, so that running out of it means a cycle. -/
def Graph.visit {F : Type} (g : Graph F) :
    Nat → Nat → List Nat → Except CompileError (List Nat)
  | 0, _, _ => Except.error CompileError.CyclicGraphError
  | depth + 1, n, order =>
    if order.contains n then Except.ok order
    else if g.nodes.length ≤ n then Except.error CompileError.UnknownTargetError
    else
      match visitEach (g.visit depth) (g.inputOf n) order with
      | Except.error e => Except.error e
      | Except.ok order1 => Except.ok (order1 ++ [n])

/-- Modelled from the spec: the shape check of one node of the plan, "each
operator's declared inference rule consumes its predecessors' shapes and
produces its own shape ...; a mismatch fails compilation". -/
def Graph.shapeOk {F : Type} (g : Graph F) (n : Nat) : Bool :=
  match g.nodes[n]? with
  | none => false
  | some node =>
    match node.role with
    | NodeRole.operatorNode InferShape _ =>
      decide (InferShape (node.input.map (fun p =>
        match g.nodes[p]? with
        | some pre => pre.shape
        | none => [])) = some node.shape)
    | _ => true

/-- Modelled from the spec: `Graph.Compile(targets)`, which returns the
forward execution order or one of the four failures.  Names are checked to be
unique, the targets are traversed in turn with one shared order, and the
shapes of the nodes of the order are checked. -/
def Graph.Compile {F : Type} (g : Graph F) (targets : List Nat) :
    Except CompileError (List Nat) :=
  if ¬ (g.nodes.map (fun node => node.name)).Nodup then
    Except.error CompileError.DuplicateNameError
  else
    match visitEach (g.visit g.nodes.length) targets [] with
    | Except.error e => Except.error e
    | Except.ok order =>
      if order.all g.shapeOk then Except.ok order
      else Except.error CompileError.ShapeMismatchError

/-- The node at index `m` is `n` or one of the nodes that `n` depends on
through predecessor lists. -/
def Graph.Reach {F : Type} (g : Graph F) : Nat → Nat → Prop :=
  Relation.ReflTransGen (fun a b => b ∈ g.inputOf a)

/-- No node depends on itself through one or more predecessor links. -/
def Graph.Acyclic {F : Type} (g : Graph F) : Prop :=
  ∀ n, ¬ Relation.TransGen (fun a b => b ∈ g.inputOf a) n n

/-- An order in which no node occurs twice and every node comes after all of
its predecessors: it is built by putting, one at a time, a node that is not
in it behind the nodes of it, which include the predecessors of the node. -/
inductive Graph.Topo {F : Type} (g : Graph F) : List Nat → Prop where
  | nil : Graph.Topo g []
  | snoc (order : List Nat) (n : Nat) : Graph.Topo g order → n ∉ order →
      (∀ p ∈ g.inputOf n, p ∈ order) → Graph.Topo g (order ++ [n])

/-- Modelled from the spec: `TensorMap`, "a named ... mapping from string key
to one tensor instance", here of the dense kind: a list of named tensors with
distinct names, a tensor being the list of its values in row-major order. -/
abbrev TensorMap (F : Type) := List (String × List F)

/-- Modelled from the spec: `get<Kind>(name)`, which "fails with
MissingKeyError if absent" (`none`). -/
def TensorMap.get {F : Type} : TensorMap F → String → Option (List F)
  | [], _ => none
  | (key, t) :: rest, name => if key = name then some t else TensorMap.get rest name

/-- The tensor under `name` is replaced by `t`, in place; a name that is absent
is added. -/
def TensorMap.assign {F : Type} : TensorMap F → String → List F → TensorMap F
  | [], name, t => [(name, t)]
  | (key, t0) :: rest, name, t =>
    if key = name then (key, t) :: rest else (key, t0) :: TensorMap.assign rest name t

/-- Modelled from the spec: `insert<Kind>(name)`, which "creates storage of
the given kind under name; fails with DuplicateKeyError if the name already
exists" (`none`); the new tensor is empty. -/
def TensorMap.insert {F : Type} (m : TensorMap F) (name : String) : Option (TensorMap F) :=
  match TensorMap.get m name with
  | some _ => none
  | none => some (m ++ [(name, [])])

/-- Modelled from the spec: `Shape::total_dim()`, the "total-element
computation": the product of the dimensions. -/
def total_dim (shape : List Nat) : Nat := shape.foldl (fun a b => a * b) 1

/-- Modelled from the spec: the call `resize(shape)` on the dense tensor under
`name`, which changes the number of elements and reuses the storage: the
tensor gets the number of elements of the shape, the elements it has are kept
and new ones are zero. -/
def TensorMap.resize {F : Type} [Zero F] (m : TensorMap F) (name : String)
    (shape : List Nat) : Option (TensorMap F) :=
  match TensorMap.get m name with
  | none => none
  | some t =>
    some (TensorMap.assign m name
      (t.take (total_dim shape) ++ List.replicate (total_dim shape - t.length) 0))

/-- Modelled from the spec: the assignment `data(i) = x` on the dense tensor
under `name`, a write to element `i` of its "contiguous values". -/
def TensorMap.setData {F : Type} (m : TensorMap F) (name : String) (i : Nat) (x : F) :
    Option (TensorMap F) :=
  match TensorMap.get m name with
  | none => none
  | some t => if i < t.length then some (TensorMap.assign m name (t.set i x)) else none

/-- Modelled from the spec: `OpContext`, which "references (does not own) a
compiled Graph and a parameter TensorMap; owns an instance TensorMap ... and a
hidden TensorMap".  `target` lists the nodes the graph was compiled for and
`forward_chain` is the plan that `InitOp` compiles. -/
structure OpContext (F : Type) where
  graph : Graph F
  target : List Nat
  param : TensorMap F
  inst : TensorMap F
  hidden : TensorMap F
  forward_chain : List Nat

/-- Modelled from the spec: `Init(graph, param_store)`, "binds graph and
parameter map; no allocation yet". -/
def OpContext.Init {F : Type} (graph : Graph F) (target : List Nat) (param : TensorMap F) :
    OpContext F :=
  { graph := graph, target := target, param := param, inst := [], hidden := [],
    forward_chain := [] }

/-- The compiled targets at the given indices, `none` when an index is out of
range. -/
def selectTargets (target : List Nat) : List Nat → Option (List Nat)
  | [] => some []
  | i :: rest =>
    match target[i]?, selectTargets target rest with
    | some t, some ts => some (t :: ts)
    | _, _ => none

/-- Modelled from the spec: `InitOp(target_indices, loss_index_or_none)`,
which "compiles ... the operator plan for the requested targets" and "fails
with CompileError surfacing the underlying Graph failure"; no loss is
requested. -/
def OpContext.InitOp {F : Type} (ctx : OpContext F) (target_indices : List Nat) :
    Except CompileError (OpContext F) :=
  match selectTargets ctx.target target_indices with
  | none => Except.error CompileError.UnknownTargetError
  | some targets =>
    match ctx.graph.Compile targets with
    | Except.error e => Except.error e
    | Except.ok order => Except.ok { ctx with forward_chain := order }

/-- The storage that `InitForward` provides for the operator nodes among the
given nodes: a zero tensor of the size of the shape of the node, under the
name of the node. -/
def allocHidden {F : Type} [Zero F] (graph : Graph F) :
    List Nat → TensorMap F → TensorMap F
  | [], hidden => hidden
  | n :: rest, hidden =>
    match graph.nodes[n]? with
    | some node =>
      match node.role with
      | NodeRole.operatorNode _ _ =>
        allocHidden graph rest
          (TensorMap.assign hidden node.name (List.replicate (total_dim node.shape) 0))
      | _ => allocHidden graph rest hidden
    | none => allocHidden graph rest hidden

/-- Modelled from the spec: `InitForward()`, which "allocates/reuses
hidden-map storage sized per the compiled shapes for this batch size". -/
def OpContext.InitForward {F : Type} [Zero F] (ctx : OpContext F) : OpContext F :=
  { ctx with hidden := allocHidden ctx.graph ctx.forward_chain ctx.hidden }

/-- The tensor of the node at index `p` as an operand: "from param/instance/
hidden maps as appropriate", under the name of the node. -/
def OpContext.operand {F : Type} (ctx : OpContext F) (p : Nat) : Option (List F) :=
  match ctx.graph.nodes[p]? with
  | none => none
  | some node =>
    match node.role with
    | NodeRole.instanceNode => TensorMap.get ctx.inst node.name
    | NodeRole.variableNode => TensorMap.get ctx.param node.name
    | NodeRole.operatorNode _ _ => TensorMap.get ctx.hidden node.name

/-- The operand tensors of a predecessor list, `none` when one is missing. -/
def OpContext.operands {F : Type} (ctx : OpContext F) : List Nat → Option (List (List F))
  | [] => some []
  | p :: rest =>
    match ctx.operand p, OpContext.operands ctx rest with
    | some t, some ts => some (t :: ts)
    | _, _ => none

/-- One step of `Forward`: an operator node "reads its operand tensors ... and
writes its result into the hidden map under its own name"; the other nodes of
the plan have nothing to compute. -/
def OpContext.forwardNode {F : Type} (ctx : OpContext F) (n : Nat) : Option (OpContext F) :=
  match ctx.graph.nodes[n]? with
  | none => none
  | some node =>
    match node.role with
    | NodeRole.operatorNode _ Forward =>
      match ctx.operands node.input with
      | none => none
      | some ts => some { ctx with hidden := TensorMap.assign ctx.hidden node.name (Forward ts) }
    | _ => some ctx

/-- The steps of `Forward` on the nodes of a plan, in order. -/
def OpContext.forwardNodes {F : Type} : OpContext F → List Nat → Option (OpContext F)
  | ctx, [] => some ctx
  | ctx, n :: rest =>
    match ctx.forwardNode n with
    | none => none
    | some ctx1 => OpContext.forwardNodes ctx1 rest

/-- Modelled from the spec: `Forward()`, which "executes the compiled forward
plan in order"; `none` when an operand is missing. -/
def OpContext.Forward {F : Type} (ctx : OpContext F) : Option (OpContext F) :=
  ctx.forwardNodes ctx.forward_chain

/-- Modelled from the spec: the shape rule of an elementwise operator of two
operands, "validating rank/dimension compatibility": both shapes are the same
and the result has that shape. -/
def elementwiseShape : List (List Nat) → Option (List Nat)
  | [a, b] => if a = b then some a else none
  | _ => none

/-- Modelled from the spec: an `InstanceNode`, "per-batch external inputs",
without predecessors. -/
def InstanceNode (F : Type) (name : String) (shape : List Nat) : GraphNode F :=
  { name := name, shape := shape, role := NodeRole.instanceNode, input := [] }

/-- Modelled from the spec: a `MulNode` on the nodes at the indices `X` and
`Y`, the `X * W` of "Z = (X * W) + B": the elementwise product. -/
def MulNode (F : Type) [Mul F] (name : String) (shape : List Nat) (X Y : Nat) : GraphNode F :=
  { name := name, shape := shape,
    role := NodeRole.operatorNode elementwiseShape
      (fun ts => match ts with
        | [a, b] => List.zipWith (fun u v => u * v) a b
        | _ => []),
    input := [X, Y] }

/-- Modelled from the spec: an `AddNode` on the nodes at the indices `X` and
`Y`, the `+ B` of "Z = (X * W) + B": the elementwise sum. -/
def AddNode (F : Type) [Add F] (name : String) (shape : List Nat) (X Y : Nat) : GraphNode F :=
  { name := name, shape := shape,
    role := NodeRole.operatorNode elementwiseShape
      (fun ts => match ts with
        | [a, b] => List.zipWith (fun u v => u + v) a b
        | _ => []),
    input := [X, Y] }

namespace example1

/-- The graph of `Main::main` (lines 24-28): `X`, `W`, `B` of shape `(1)` at
the indices 0, 1, 2, `XW = X * W` at 3 and `Z = XW + B` at 4. -/
def graph (F : Type) [Mul F] [Add F] : Graph F :=
  { nodes := [InstanceNode F "X" [1], InstanceNode F "W" [1], InstanceNode F "B" [1],
              MulNode F "XW" [1] 0 1, AddNode F "Z" [1] 3 2] }

/-- Lines 29-41 of `Main::main`: the graph is compiled for the target `Z`, the
context is initialised for the target index 0, the instance tensors `X`, `W`,
`B` are inserted and resized, and `InitForward` is called.  The result is
`none` when a step throws. -/
def setup (F : Type) [Mul F] [Add F] [Zero F] : Option (OpContext F) :=
  match (graph F).Compile [4] with
  | Except.error _ => none
  | Except.ok _ =>
    match (OpContext.Init (graph F) [4] []).InitOp [0] with
    | Except.error _ => none
    | Except.ok ctx =>
      match TensorMap.insert ctx.inst "X" with
      | none => none
      | some i1 =>
        match TensorMap.insert i1 "W" with
        | none => none
        | some i2 =>
          match TensorMap.insert i2 "B" with
          | none => none
          | some i3 =>
            match TensorMap.resize i3 "X" [1] with
            | none => none
            | some i4 =>
              match TensorMap.resize i4 "W" [1] with
              | none => none
              | some i5 =>
                match TensorMap.resize i5 "B" [1] with
                | none => none
                | some i6 => some ({ ctx with inst := i6 }).InitForward

/-- The lambda `compute` of `Main::main` (lines 44-53): the three inputs are
written, `Forward` runs, and element 0 of the hidden tensor `Z` is read.  The
result is the context after the call and the value `z` that is printed. -/
def compute {F : Type} (ctx : OpContext F) (x w b : F) : Option (OpContext F × F) :=
  match TensorMap.setData ctx.inst "X" 0 x with
  | none => none
  | some i1 =>
    match TensorMap.setData i1 "W" 0 w with
    | none => none
    | some i2 =>
      match TensorMap.setData i2 "B" 0 b with
      | none => none
      | some i3 =>
        match ({ ctx with inst := i3 }).Forward with
        | none => none
        | some ctx1 =>
          match TensorMap.get ctx1.hidden "Z" with
          | none => none
          | some _Z =>
            match _Z[0]? with
            | none => none
            | some z => some (ctx1, z)

/-- A sequence of calls of `compute` on one context: the context after the
last call and the values printed, in order. -/
def computeAll {F : Type} : OpContext F → List (F × F × F) → Option (OpContext F × List F)
  | ctx, [] => some (ctx, [])
  | ctx, (x, w, b) :: rest =>
    match compute ctx x w b with
    | none => none
    | some (ctx1, z) =>
      match computeAll ctx1 rest with
      | none => none
      | some (ctx2, zs) => some (ctx2, z :: zs)

/-- The context of `Main::main` between two calls of `compute`: the graph and
the plan are fixed, and the tensors hold the values of the last call. -/
def contextOf (F : Type) [Mul F] [Add F] (x w b xw z : F) : OpContext F :=
  { graph := graph F, target := [4], param := [],
    inst := [("X", [x]), ("W", [w]), ("B", [b])],
    hidden := [("XW", [xw]), ("Z", [z])],
    forward_chain := [0, 1, 3, 2, 4] }

end example1

/-- Every node from index `i` on has its predecessors at smaller indices. -/
def inputsBelowFrom {F : Type} : Nat → List (GraphNode F) → Bool
  | _, [] => true
  | i, node :: rest => node.input.all (fun p => decide (p < i)) && inputsBelowFrom (i + 1) rest

/-- Every node of the graph has its predecessors at smaller indices, as in a
graph whose nodes were constructed one after the other from existing nodes. -/
def Graph.inputsBelow {F : Type} (g : Graph F) : Bool := inputsBelowFrom 0 g.nodes

instance (M : Int) (items : List GroupConfigItem) : Decidable (ValidGroupConfig M items) := by
  unfold ValidGroupConfig; exact inferInstance

instance (M : Int) (seen : List Int) (its : List GroupConfigItem) :
    Decidable (Accepted M seen its) := by
  unfold Accepted; exact inferInstance

/-! ## Lemmas on the loops -/

theorem ParseGroupConfigLoop_eq_acceptLoop (SplitI : String → Char → Option (List Int))
    (M : Int) (strs : List String) (st : ParseState) :
    ParseGroupConfigLoop SplitI M strs st
      = acceptLoop M (strs.map (readInlineItem SplitI)) st := by
  induction strs generalizing st with
  | nil => rfl
  | cons s rest ih =>
    simp only [ParseGroupConfigLoop, List.map_cons]
    cases h : readInlineItem SplitI s with
    | none => simp [acceptLoop]
    | some item => simp only [acceptLoop, ParseState.accept, ih]

theorem LoadGroupConfigLoop_eq_acceptLoop (M : Int) (lines : List String) (st : ParseState) :
    LoadGroupConfigLoop M lines st
      = acceptLoop M ((lines.filter (fun l => !isComment l)).map readLineItem) st := by
  induction lines generalizing st with
  | nil => rfl
  | cons l rest ih =>
    simp only [LoadGroupConfigLoop]
    by_cases h1 : findHash l = true
    · simp [h1, isComment, ih]
    · by_cases h2 : findSlashSlash l = true
      · simp [h2, isComment, ih]
      · have hc : isComment l = false := by simp [isComment, h1, h2]
        simp only [h1, h2, if_false, Bool.false_eq_true, List.filter_cons, hc, Bool.not_false,
          if_true, List.map_cons]
        cases h : readLineItem l with
        | none => simp [acceptLoop]
        | some item => simp only [acceptLoop, ParseState.accept, ih]

theorem ParseState.extend_nil (st : ParseState) : st.extend [] = st := by
  cases st with
  | mk items m dedup =>
    cases m <;> simp [ParseState.extend, maxFold]

theorem ParseState.accept_extend (st : ParseState) (it : GroupConfigItem)
    (its : List GroupConfigItem) : (st.accept it).extend its = st.extend (it :: its) := by
  cases st with
  | mk items m dedup =>
    cases m <;> simp [ParseState.extend, ParseState.accept, maxFold]

theorem Accepted.cons {M : Int} {seen : List Int} {it : GroupConfigItem}
    {its : List GroupConfigItem} (hc : CheckGroupConfigItem M it = true)
    (hs : it.group_id ∉ seen) (h : Accepted M (it.group_id :: seen) its) :
    Accepted M seen (it :: its) := by
  obtain ⟨h1, h2, h3⟩ := h
  refine ⟨?_, ?_, ?_⟩
  · intro x hx
    rcases List.mem_cons.mp hx with rfl | hx
    · exact hc
    · exact h1 x hx
  · simp only [List.map_cons, List.nodup_cons, List.mem_map, not_exists, not_and]
    refine ⟨?_, h2⟩
    intro x hx heq
    exact h3 x hx (by simp [heq])
  · intro x hx
    rcases List.mem_cons.mp hx with rfl | hx
    · exact hs
    · intro hmem
      exact h3 x hx (List.mem_cons_of_mem _ hmem)

theorem Accepted.of_cons {M : Int} {seen : List Int} {it : GroupConfigItem}
    {its : List GroupConfigItem} (h : Accepted M seen (it :: its)) :
    CheckGroupConfigItem M it = true ∧ it.group_id ∉ seen ∧
      Accepted M (it.group_id :: seen) its := by
  obtain ⟨h1, h2, h3⟩ := h
  simp only [List.map_cons, List.nodup_cons, List.mem_map, not_exists, not_and] at h2
  refine ⟨h1 it (List.mem_cons_self _ _), h3 it (List.mem_cons_self _ _), ?_, h2.2, ?_⟩
  · intro x hx
    exact h1 x (List.mem_cons_of_mem _ hx)
  · intro x hx hmem
    rcases List.mem_cons.mp hmem with heq | hmem
    · exact h2.1 x hx heq
    · exact h3 x (List.mem_cons_of_mem _ hx) hmem

/-- The loop ends normally exactly on a list of readable items that are all
accepted, and then the state has been extended by these items. -/
theorem acceptLoop_true_iff (M : Int) (xs : List (Option GroupConfigItem))
    (st st' : ParseState) :
    acceptLoop M xs st = (true, st') ↔
      ∃ its, xs = its.map some ∧ Accepted M st.dedup its ∧ st' = st.extend its := by
  induction xs generalizing st with
  | nil =>
    simp only [acceptLoop, Prod.mk.injEq, true_and]
    constructor
    · intro h
      exact ⟨[], rfl, ⟨by simp, by simp, by simp⟩, by rw [ParseState.extend_nil, h]⟩
    · rintro ⟨its, h1, -, h3⟩
      cases its with
      | nil => rw [h3, ParseState.extend_nil]
      | cons a l => simp at h1
  | cons x rest ih =>
    cases x with
    | none =>
      simp only [acceptLoop, Prod.mk.injEq, Bool.false_eq_true, false_and, false_iff,
        not_exists, not_and]
      intro its h1
      cases its with
      | nil => simp at h1
      | cons a l => simp at h1
    | some item =>
      simp only [acceptLoop]
      by_cases hc : CheckGroupConfigItem M item = true
      · by_cases hd : item.group_id ∈ st.dedup
        · have hd' : st.dedup.contains item.group_id = true := by simpa using hd
          simp only [hc, Bool.not_true, Bool.false_eq_true, if_false, hd', if_true,
            Prod.mk.injEq, false_and, false_iff, not_exists, not_and]
          intro its h1 h2
          cases its with
          | nil => simp at h1
          | cons a l =>
            simp only [List.map_cons, List.cons.injEq, Option.some.injEq] at h1
            obtain ⟨hh, -⟩ := h1
            subst hh
            exact absurd hd h2.of_cons.2.1
        · have hd' : st.dedup.contains item.group_id = false := by simpa using hd
          simp only [hc, Bool.not_true, Bool.false_eq_true, if_false, hd']
          rw [ih]
          constructor
          · rintro ⟨its, h1, h2, h3⟩
            refine ⟨item :: its, by simp [h1], Accepted.cons hc hd h2, ?_⟩
            rw [h3, ParseState.accept_extend]
          · rintro ⟨its, h1, h2, h3⟩
            cases its with
            | nil => simp at h1
            | cons a l =>
              simp only [List.map_cons, List.cons.injEq, Option.some.injEq] at h1
              obtain ⟨hh, h1⟩ := h1
              subst hh
              exact ⟨l, h1, h2.of_cons.2.2, by rw [h3, ParseState.accept_extend]⟩
      · simp only [hc, Bool.not_false, if_true, Prod.mk.injEq, Bool.false_eq_true, false_and,
          false_iff, not_exists, not_and]
        intro its h1 h2
        cases its with
        | nil => simp at h1
        | cons a l =>
          simp only [List.map_cons, List.cons.injEq, Option.some.injEq] at h1
          obtain ⟨hh, -⟩ := h1
          subst hh
          exact absurd h2.of_cons.1 hc

/-- Accepted items in front of a list are consumed and extend the state. -/
theorem acceptLoop_append (M : Int) (its : List GroupConfigItem)
    (ys : List (Option GroupConfigItem)) (st : ParseState) (h : Accepted M st.dedup its) :
    acceptLoop M (its.map some ++ ys) st = acceptLoop M ys (st.extend its) := by
  induction its generalizing st with
  | nil => rw [ParseState.extend_nil]; rfl
  | cons it its ih =>
    obtain ⟨hc, hd, hrest⟩ := h.of_cons
    have hd' : st.dedup.contains it.group_id = false := by simpa using hd
    simp only [List.map_cons, List.cons_append, acceptLoop, hc, Bool.not_true,
      Bool.false_eq_true, if_false, hd']
    exact (ih (st.accept it) hrest).trans (by rw [ParseState.accept_extend])

/-- An offending read result ends the loop with the state unchanged. -/
theorem acceptLoop_offending (M : Int) (bad : Option GroupConfigItem)
    (rest : List (Option GroupConfigItem)) (st : ParseState)
    (h : Offending M st.dedup bad) : acceptLoop M (bad :: rest) st = (false, st) := by
  rcases h with rfl | ⟨b, rfl, hb⟩
  · rfl
  · rcases hb with hb | hb
    · simp [acceptLoop, hb]
    · have hd' : st.dedup.contains b.group_id = true := by simpa using hb
      simp only [acceptLoop, hd', if_true]
      split <;> rfl

/-- Every list of read results is either accepted as a whole or has a first
offending element after an accepted front part. -/
theorem accepted_or_offending (M : Int) (xs : List (Option GroupConfigItem)) (seen : List Int) :
    (∃ its, xs = its.map some ∧ Accepted M seen its) ∨
    (∃ its bad rest, xs = its.map some ++ bad :: rest ∧ Accepted M seen its ∧
      Offending M ((its.map GroupConfigItem.group_id).reverse ++ seen) bad) := by
  induction xs generalizing seen with
  | nil => exact Or.inl ⟨[], rfl, by simp, by simp, by simp⟩
  | cons x rest ih =>
    cases x with
    | none => exact Or.inr ⟨[], none, rest, rfl, ⟨by simp, by simp, by simp⟩, Or.inl rfl⟩
    | some item =>
      by_cases hc : CheckGroupConfigItem M item = true
      · by_cases hd : item.group_id ∈ seen
        · exact Or.inr ⟨[], some item, rest, rfl, ⟨by simp, by simp, by simp⟩,
            Or.inr ⟨item, rfl, Or.inr (by simpa using hd)⟩⟩
        · rcases ih (item.group_id :: seen) with ⟨its, h1, h2⟩ | ⟨its, bad, tl, h1, h2, h3⟩
          · exact Or.inl ⟨item :: its, by simp [h1], Accepted.cons hc hd h2⟩
          · refine Or.inr ⟨item :: its, bad, tl, by simp [h1], Accepted.cons hc hd h2, ?_⟩
            simpa using h3
      · exact Or.inr ⟨[], some item, rest, rfl, ⟨by simp, by simp, by simp⟩,
          Or.inr ⟨item, rfl, Or.inl (by simpa using hc)⟩⟩

/-- The loop is left by `return false` exactly at the first offending element,
with the state extended by the items accepted before it. -/
theorem acceptLoop_false_iff (M : Int) (xs : List (Option GroupConfigItem))
    (st st' : ParseState) :
    acceptLoop M xs st = (false, st') ↔
      ∃ its bad rest, xs = its.map some ++ bad :: rest ∧ Accepted M st.dedup its ∧
        Offending M (st.extend its).dedup bad ∧ st' = st.extend its := by
  constructor
  · intro h
    rcases accepted_or_offending M xs st.dedup with ⟨its, h1, h2⟩ | ⟨its, bad, tl, h1, h2, h3⟩
    · have ht : acceptLoop M xs st = (true, st.extend its) :=
        (acceptLoop_true_iff M xs st _).mpr ⟨its, h1, h2, rfl⟩
      rw [ht] at h
      simp at h
    · have hf : acceptLoop M xs st = (false, st.extend its) := by
        rw [h1, acceptLoop_append M its _ st h2]
        exact acceptLoop_offending M bad tl _ h3
      rw [hf] at h
      simp only [Prod.mk.injEq, true_and] at h
      exact ⟨its, bad, tl, h1, h2, h3, h.symm⟩
  · rintro ⟨its, bad, tl, h1, h2, h3, h4⟩
    rw [h1, acceptLoop_append M its _ st h2, h4]
    exact acceptLoop_offending M bad tl _ h3

/-! ## Lemmas on the running maximum and on machine arithmetic -/

theorem le_maxFold (m : Int) (its : List GroupConfigItem) : m ≤ maxFold m its := by
  induction its generalizing m with
  | nil => exact le_refl _
  | cons it its ih =>
    simp only [maxFold]
    refine le_trans ?_ (ih _)
    unfold raiseMax
    split <;> omega

theorem group_id_le_maxFold (m : Int) (its : List GroupConfigItem) :
    ∀ it ∈ its, it.group_id ≤ maxFold m its := by
  induction its generalizing m with
  | nil => simp
  | cons a its ih =>
    intro it hit
    simp only [maxFold]
    rcases List.mem_cons.mp hit with rfl | hit
    · refine le_trans ?_ (le_maxFold _ _)
      unfold raiseMax
      split <;> omega
    · exact ih _ it hit

theorem maxFold_eq_or_mem (m : Int) (its : List GroupConfigItem) :
    maxFold m its = m ∨ ∃ it ∈ its, maxFold m its = it.group_id := by
  induction its generalizing m with
  | nil => exact Or.inl rfl
  | cons a its ih =>
    simp only [maxFold]
    rcases ih (raiseMax m a.group_id) with h | ⟨it, hit, h⟩
    · rw [h]
      unfold raiseMax
      split
      · exact Or.inr ⟨a, List.mem_cons_self _ _, rfl⟩
      · exact Or.inl rfl
    · exact Or.inr ⟨it, List.mem_cons_of_mem _ hit, h⟩

theorem CheckGroupConfigItem_group_id {M : Int} {it : GroupConfigItem}
    (h : CheckGroupConfigItem M it = true) : 0 ≤ it.group_id ∧ it.group_id ≤ M := by
  unfold CheckGroupConfigItem at h
  split at h
  · simp at h
  · omega

/-- Among items with non-negative group ids, not all absent, the running
maximum from `0` is the group id of one of them. -/
theorem maxFold_zero_mem (its : List GroupConfigItem) (hne : its ≠ [])
    (hpos : ∀ it ∈ its, 0 ≤ it.group_id) : ∃ it ∈ its, maxFold 0 its = it.group_id := by
  rcases maxFold_eq_or_mem 0 its with h | h
  · cases its with
    | nil => exact absurd rfl hne
    | cons a l =>
      refine ⟨a, List.mem_cons_self _ _, ?_⟩
      have h1 := group_id_le_maxFold 0 (a :: l) a (List.mem_cons_self _ _)
      have h2 := hpos a (List.mem_cons_self _ _)
      omega
  · exact h

theorem incrInt_eq (m : Int) (h0 : 0 ≤ m) (h1 : m < INT_MAX) : incrInt m = m + 1 := by
  unfold incrInt wrapInt32
  unfold INT_MAX at h1
  omega

/-! ## The two parsers in terms of their read results -/

theorem ParseGroupConfig_eq_conclude (SplitS : String → Char → List String)
    (SplitI : String → Char → Option (List Int)) (M : Int) (info : String)
    (items0 : List GroupConfigItem) (mx : Option Int) :
    ParseGroupConfig SplitS SplitI M info items0 mx
      = conclude (acceptLoop M (inlineReads SplitS SplitI info) (initState mx)) := by
  unfold ParseGroupConfig inlineReads
  rw [ParseGroupConfigLoop_eq_acceptLoop]
  rcases acceptLoop M _ (initState mx) with ⟨b, st⟩
  cases b <;> rfl

theorem LoadGroupConfig_eq_conclude (Open : String → Option (List String)) (M : Int)
    (file : String) (lines : List String) (hopen : Open file = some lines)
    (items0 : List GroupConfigItem) (mx : Option Int) :
    LoadGroupConfig Open M file items0 mx
      = conclude (acceptLoop M (lineReads lines) (initState mx)) := by
  unfold LoadGroupConfig lineReads
  rw [hopen]
  simp only
  rw [LoadGroupConfigLoop_eq_acceptLoop]
  rcases acceptLoop M _ (initState mx) with ⟨b, st⟩
  cases b <;> rfl

theorem initState_extend (mx : Option Int) (its : List GroupConfigItem) :
    (initState mx).extend its
      = { items := its, max_group_id := mx.map (fun _ => maxFold 0 its),
          dedup := (its.map GroupConfigItem.group_id).reverse } := by
  cases mx <;> simp [initState, ParseState.extend]

/-- A call returns `true` exactly when every read result is an item, the items
are accepted and there is at least one; the outputs are then these items and
the incremented running maximum. -/
theorem conclude_ok_iff (M : Int) (xs : List (Option GroupConfigItem)) (mx : Option Int) :
    (conclude (acceptLoop M xs (initState mx))).ok = true ↔
      ∃ its, its ≠ [] ∧ xs = its.map some ∧ Accepted M [] its ∧
        conclude (acceptLoop M xs (initState mx))
          = { ok := true, items := its,
              max_group_id := mx.map (fun _ => incrInt (maxFold 0 its)) } := by
  constructor
  · intro h
    rcases hl : acceptLoop M xs (initState mx) with ⟨b, st⟩
    rw [hl] at h
    cases b with
    | false => simp [conclude, abort] at h
    | true =>
      obtain ⟨its, h1, h2, h3⟩ := (acceptLoop_true_iff M xs _ st).mp hl
      rw [initState_extend] at h3
      subst h3
      simp only [conclude, finish, Bool.not_eq_true', List.isEmpty_eq_false] at h
      refine ⟨its, ?_, h1, h2, ?_⟩
      · cases its with
        | nil => simp at h
        | cons a l => simp
      · cases its with
        | nil => simp at h
        | cons a l => cases mx <;> simp [conclude, finish]
  · rintro ⟨its, -, -, -, h⟩
    rw [h]

/-- A call returns `false` exactly when nothing was read or some read result
is offending; in the second case the outputs are the items accepted before the
first offending one and their running maximum. -/
theorem conclude_fail_iff (M : Int) (xs : List (Option GroupConfigItem)) (mx : Option Int) :
    (conclude (acceptLoop M xs (initState mx))).ok = false ↔
      (xs = [] ∧ conclude (acceptLoop M xs (initState mx))
          = { ok := false, items := [], max_group_id := mx.map (fun _ => incrInt 0) }) ∨
      (∃ its bad rest, xs = its.map some ++ bad :: rest ∧ Accepted M [] its ∧
        Offending M (its.map GroupConfigItem.group_id).reverse bad ∧
        conclude (acceptLoop M xs (initState mx))
          = { ok := false, items := its,
              max_group_id := mx.map (fun _ => maxFold 0 its) }) := by
  constructor
  · intro h
    rcases hl : acceptLoop M xs (initState mx) with ⟨b, st⟩
    rw [hl] at h
    cases b with
    | false =>
      obtain ⟨its, bad, rest, h1, h2, h3, h4⟩ := (acceptLoop_false_iff M xs _ st).mp hl
      rw [initState_extend] at h3 h4
      subst h4
      exact Or.inr ⟨its, bad, rest, h1, h2, h3, by simp [conclude, abort]⟩
    | true =>
      obtain ⟨its, h1, h2, h3⟩ := (acceptLoop_true_iff M xs _ st).mp hl
      rw [initState_extend] at h3
      subst h3
      simp only [conclude, finish, Bool.not_eq_false', List.isEmpty_iff] at h
      subst h
      refine Or.inl ⟨by simpa using h1, ?_⟩
      cases mx <;> simp [conclude, finish, maxFold]
  · rintro (⟨-, h⟩ | ⟨its, bad, rest, -, -, -, h⟩) <;> rw [h]

theorem LoadGroupConfig_cases (Open : String → Option (List String)) (M : Int)
    (file : String) (items0 : List GroupConfigItem) (mx : Option Int) :
    (Open file = none ∧
      LoadGroupConfig Open M file items0 mx
        = { ok := false, items := items0, max_group_id := mx }) ∨
    (∃ lines, Open file = some lines ∧
      LoadGroupConfig Open M file items0 mx
        = conclude (acceptLoop M (lineReads lines) (initState mx))) := by
  cases h : Open file with
  | none => exact Or.inl ⟨rfl, by simp [LoadGroupConfig, h]⟩
  | some lines => exact Or.inr ⟨lines, rfl, LoadGroupConfig_eq_conclude Open M file lines h _ _⟩

theorem conclude_nodup (M : Int) (xs : List (Option GroupConfigItem)) (mx : Option Int)
    (h : (conclude (acceptLoop M xs (initState mx))).ok = true) :
    ((conclude (acceptLoop M xs (initState mx))).items.map GroupConfigItem.group_id).Nodup := by
  obtain ⟨its, -, -, hacc, hr⟩ := (conclude_ok_iff M xs mx).mp h
  rw [hr]
  exact hacc.2.1

theorem conclude_duplicate (M : Int) (xs : List (Option GroupConfigItem)) (mx : Option Int)
    (i j : Nat) (a b : GroupConfigItem) (hij : i < j) (ha : xs[i]? = some (some a))
    (hb : xs[j]? = some (some b)) (hab : a.group_id = b.group_id) :
    (conclude (acceptLoop M xs (initState mx))).ok = false := by
  by_contra hne
  have hok : (conclude (acceptLoop M xs (initState mx))).ok = true := by simpa using hne
  obtain ⟨its, -, hxs, hacc, -⟩ := (conclude_ok_iff M xs mx).mp hok
  subst hxs
  have ha' : its[i]? = some a := by
    rw [List.getElem?_map] at ha
    cases h : its[i]? with
    | none => simp [h] at ha
    | some v => simpa [h] using ha
  have hb' : its[j]? = some b := by
    rw [List.getElem?_map] at hb
    cases h : its[j]? with
    | none => simp [h] at hb
    | some v => simpa [h] using hb
  have hj : j < (its.map GroupConfigItem.group_id).length := by
    rw [List.length_map]
    by_contra hlt
    have : its[j]? = none := List.getElem?_eq_none (by omega)
    simp [this] at hb'
  refine (List.nodup_iff_getElem?_ne_getElem?.mp hacc.2.1) i j hij hj ?_
  rw [List.getElem?_map, List.getElem?_map, ha', hb']
  simp [hab]

theorem conclude_of_accepted (M : Int) (its : List GroupConfigItem) (mx : Option Int)
    (hne : its ≠ []) (hacc : Accepted M [] its) :
    conclude (acceptLoop M (its.map some) (initState mx))
      = { ok := true, items := its,
          max_group_id := mx.map (fun _ => incrInt (maxFold 0 its)) } := by
  have h : acceptLoop M (its.map some) (initState mx) = (true, (initState mx).extend its) :=
    (acceptLoop_true_iff M _ _ _).mpr ⟨its, rfl, by simpa [initState] using hacc, rfl⟩
  rw [h, initState_extend]
  cases its with
  | nil => exact absurd rfl hne
  | cons a l => cases mx <;> simp [conclude, finish]

theorem conclude_none_mem (M : Int) (xs : List (Option GroupConfigItem)) (mx : Option Int)
    (h : none ∈ xs) : (conclude (acceptLoop M xs (initState mx))).ok = false := by
  by_contra hne
  have hok : (conclude (acceptLoop M xs (initState mx))).ok = true := by simpa using hne
  obtain ⟨its, -, hxs, -, -⟩ := (conclude_ok_iff M xs mx).mp hok
  rw [hxs] at h
  simp at h

theorem conclude_items_ne_nil (M : Int) (xs : List (Option GroupConfigItem)) (mx : Option Int)
    (h : (conclude (acceptLoop M xs (initState mx))).ok = true) :
    (conclude (acceptLoop M xs (initState mx))).items ≠ [] := by
  obtain ⟨its, hne, -, -, hr⟩ := (conclude_ok_iff M xs mx).mp h
  rw [hr]
  exact hne

theorem conclude_nil (M : Int) (mx : Option Int) :
    (conclude (acceptLoop M [] (initState mx))).ok = false := by
  cases mx <;> rfl

/-- After a `true` return with the maximum requested, the reported value is
one more than the group id of a returned item that no returned item exceeds. -/
theorem conclude_max (M : Int) (hM : M < INT_MAX) (xs : List (Option GroupConfigItem))
    (v : Int) (h : (conclude (acceptLoop M xs (initState (some v)))).ok = true) :
    ∃ top ∈ (conclude (acceptLoop M xs (initState (some v)))).items,
      (conclude (acceptLoop M xs (initState (some v)))).max_group_id
        = some (top.group_id + 1) ∧
      ∀ it ∈ (conclude (acceptLoop M xs (initState (some v)))).items,
        0 ≤ it.group_id ∧ it.group_id ≤ top.group_id := by
  obtain ⟨its, hne, -, hacc, hr⟩ := (conclude_ok_iff M xs (some v)).mp h
  rw [hr]
  have hpos : ∀ it ∈ its, 0 ≤ it.group_id :=
    fun it hit => (CheckGroupConfigItem_group_id (hacc.1 it hit)).1
  obtain ⟨top, htop, hmax⟩ := maxFold_zero_mem its hne hpos
  refine ⟨top, htop, ?_, ?_⟩
  · have h1 := (CheckGroupConfigItem_group_id (hacc.1 top htop)).2
    simp only [Option.map_some', Option.some.injEq]
    rw [hmax]
    exact incrInt_eq _ (hpos top htop) (by omega)
  · intro it hit
    refine ⟨hpos it hit, ?_⟩
    rw [← hmax]
    exact group_id_le_maxFold 0 its it hit

theorem inlineForm_reads (SplitI : String → Char → Option (List Int)) :
    ∀ (strs : List String) (its : List GroupConfigItem),
      List.Forall₂ (InlineForm SplitI) strs its →
      strs.map (readInlineItem SplitI) = its.map some := by
  intro strs its h
  induction h with
  | nil => rfl
  | @cons s it ss its1 hform _ ih =>
    simp only [List.map_cons, ih, List.cons.injEq, and_true]
    obtain ⟨g, r, c⟩ := it
    rcases hform with ⟨h1, h2⟩ | h1
    · simp only at h1 h2
      subst h2
      simp [readInlineItem, h1]
    · simp only at h1
      simp [readInlineItem, h1]

theorem Offending.of_mem_iff {M : Int} {seen seen2 : List Int} {bad : Option GroupConfigItem}
    (hmem : ∀ g, g ∈ seen ↔ g ∈ seen2) (h : Offending M seen bad) : Offending M seen2 bad := by
  rcases h with h | ⟨b, hb, h⟩
  · exact Or.inl h
  · exact Or.inr ⟨b, hb, h.imp id (fun hm => (hmem _).mp hm)⟩

/-- A failed call leaves in `items` the items accepted before the first
offending read result, or nothing when nothing was read. -/
theorem conclude_fail_items (M : Int) (xs : List (Option GroupConfigItem)) (mx : Option Int)
    (h : (conclude (acceptLoop M xs (initState mx))).ok = false) :
    (xs = [] ∧ (conclude (acceptLoop M xs (initState mx))).items = []) ∨
    (∃ its bad rest, xs = its.map some ++ bad :: rest ∧ Accepted M [] its ∧
      Offending M (its.map GroupConfigItem.group_id) bad ∧
      (conclude (acceptLoop M xs (initState mx))).items = its) := by
  rcases (conclude_fail_iff M xs mx).mp h with ⟨h1, h2⟩ | ⟨its, bad, rest, h1, h2, h3, h4⟩
  · exact Or.inl ⟨h1, by rw [h2]⟩
  · exact Or.inr ⟨its, bad, rest, h1, h2, h3.of_mem_iff (fun g => List.mem_reverse),
      by rw [h4]⟩

/-! ## Lemmas on the derived views -/

theorem GetLRGroupConfigLoop_eq_map (items : List GroupConfigItem) :
    ∀ (fuel i : Nat) (lr : List GroupConfigItem), i + fuel = items.length →
      lr.length = items.length → (∀ j, j < i → lr[j]? = (items.map lrItem)[j]?) →
      GetLRGroupConfigLoop items fuel i lr = items.map lrItem := by
  intro fuel
  induction fuel with
  | zero =>
    intro i lr hi hlen hpre
    simp only [GetLRGroupConfigLoop]
    apply List.ext_getElem?
    intro j
    by_cases hj : j < i
    · exact hpre j hj
    · rw [List.getElem?_eq_none (by omega), List.getElem?_eq_none (by simp; omega)]
  | succ fuel ih =>
    intro i lr hi hlen hpre
    have hlt : i < items.length := by omega
    simp only [GetLRGroupConfigLoop, List.getElem?_eq_getElem hlt]
    apply ih (i + 1) _ (by omega) (by simp [hlen])
    intro j hj
    by_cases hji : j = i
    · subst hji
      rw [List.getElem?_set_self (by omega), List.getElem?_map, List.getElem?_eq_getElem hlt]
      rfl
    · rw [List.getElem?_set_ne (by omega)]
      exact hpre j (by omega)

theorem GetLRGroupConfig_eq_map (items : List GroupConfigItem) :
    GetLRGroupConfig items = items.map lrItem :=
  GetLRGroupConfigLoop_eq_map items items.length 0 _ (by simp) (by simp)
    (fun j hj => absurd hj (Nat.not_lt_zero j))

theorem sameColLoop_iff (k : Int) (items : List GroupConfigItem) :
    sameColLoop k items = true ↔ ∀ it ∈ items, it.embedding_col = k := by
  induction items with
  | nil => simp [sameColLoop]
  | cons a l ih =>
    simp only [sameColLoop, List.mem_cons, forall_eq_or_imp]
    by_cases h : k = a.embedding_col
    · subst h
      simpa using ih
    · simp only [ne_eq, h, not_false_eq_true, if_true, Bool.false_eq_true, false_iff, not_and]
      intro h1
      exact absurd h1.symm h

/-- The `int` accumulation is exact as long as the exact sum of positive
column counts fits an `int`. -/
theorem GetTotalEmbeddingColLoop_exact (items : List GroupConfigItem) :
    ∀ total : Int, 0 ≤ total → (∀ it ∈ items, 0 < it.embedding_col) →
      total + sumEmbeddingCol items ≤ INT_MAX →
      GetTotalEmbeddingColLoop total items = total + sumEmbeddingCol items := by
  induction items with
  | nil => intro total _ _ _; simp [GetTotalEmbeddingColLoop, sumEmbeddingCol]
  | cons a l ih =>
    intro total h0 hpos hfit
    have ha := hpos a (List.mem_cons_self _ _)
    have hl : ∀ it ∈ l, 0 < it.embedding_col := fun it hit => hpos it (List.mem_cons_of_mem _ hit)
    have hsum : sumEmbeddingCol (a :: l) = a.embedding_col + sumEmbeddingCol l := by
      simp [sumEmbeddingCol]
    have hnn : 0 ≤ sumEmbeddingCol l := by
      unfold sumEmbeddingCol
      apply List.sum_nonneg
      intro x hx
      obtain ⟨it, hit, rfl⟩ := List.mem_map.mp hx
      exact le_of_lt (hl it hit)
    rw [hsum] at hfit ⊢
    unfold INT_MAX at hfit
    have hw : wrapInt32 (total + a.embedding_col) = total + a.embedding_col := by
      unfold wrapInt32
      omega
    simp only [GetTotalEmbeddingColLoop, hw]
    rw [ih (total + a.embedding_col) (by omega) hl (by unfold INT_MAX; omega)]
    omega

theorem CheckGroupConfigItem_col_pos {M : Int} {it : GroupConfigItem}
    (h : CheckGroupConfigItem M it = true) : 0 < it.embedding_col := by
  unfold CheckGroupConfigItem at h
  split at h
  · simp at h
  · split at h
    · simp at h
    · split at h
      · simp at h
      · omega

/-- On a valid list whose exact column sum fits an `int`,
`GetTotalEmbeddingCol` is that sum. -/
theorem GetTotalEmbeddingCol_exact (M : Int) (items : List GroupConfigItem)
    (hvalid : ValidGroupConfig M items) (hfit : sumEmbeddingCol items ≤ INT_MAX) :
    GetTotalEmbeddingCol items = sumEmbeddingCol items := by
  have h := GetTotalEmbeddingColLoop_exact items 0 (le_refl _)
    (fun it hit => CheckGroupConfigItem_col_pos (hvalid.2.1 it hit)) (by simpa using hfit)
  simpa [GetTotalEmbeddingCol] using h

/-! ## Lemmas on the formatted extraction -/

theorem dropWhile_append_of_all (p : Char → Bool) (ws l : List Char)
    (h : ∀ c ∈ ws, p c = true) : (ws ++ l).dropWhile p = l.dropWhile p := by
  induction ws with
  | nil => rfl
  | cons a ws ih =>
    have ha := h a (List.mem_cons_self _ _)
    simp only [List.cons_append, List.dropWhile_cons, ha, if_true]
    exact ih (fun c hc => h c (List.mem_cons_of_mem _ hc))

theorem dropWhile_of_head (p : Char → Bool) (l : List Char)
    (h : ∀ c, l.head? = some c → p c = false) : l.dropWhile p = l := by
  cases l with
  | nil => rfl
  | cons a l => simp [List.dropWhile_cons, h a rfl]

theorem takeWhile_append_of_all (p : Char → Bool) (ds l : List Char)
    (h : ∀ c ∈ ds, p c = true) (hl : ∀ c, l.head? = some c → p c = false) :
    (ds ++ l).takeWhile p = ds := by
  induction ds with
  | nil =>
    cases l with
    | nil => rfl
    | cons a l => simp [List.takeWhile_cons, hl a rfl]
  | cons a ds ih =>
    have ha := h a (List.mem_cons_self _ _)
    simp only [List.cons_append, List.takeWhile_cons, ha, if_true, List.cons.injEq, true_and]
    exact ih (fun c hc => h c (List.mem_cons_of_mem _ hc))

theorem isDigit_not_isSpace (c : Char) (h : isDigit c = true) : isSpace c = false := by
  simp only [isDigit, Bool.and_eq_true, decide_eq_true_eq] at h
  simp only [isSpace, Bool.or_eq_false_iff, decide_eq_false_iff_not, Bool.and_eq_false_imp,
    decide_eq_true_eq]
  omega

theorem isDigit_ne_minus (c : Char) (h : isDigit c = true) : c ≠ '-' := by
  intro hc
  subst hc
  exact absurd h (by decide)

theorem isDigit_ne_plus (c : Char) (h : isDigit c = true) : c ≠ '+' := by
  intro hc
  subst hc
  exact absurd h (by decide)

/-- The extraction reads a numeral that is preceded by white space and not
followed by a digit, and leaves what follows the numeral. -/
theorem readInt_numeral (ws t rest : List Char) (v : Int) (hnum : IsNumeral t v)
    (hv : isInt32 v) (hws : ∀ c ∈ ws, isSpace c = true)
    (hrest : ∀ c, rest.head? = some c → isDigit c = false) :
    readInt (ws ++ (t ++ rest)) = some (v, rest) := by
  obtain ⟨ds, hne, hds, hform⟩ := hnum
  obtain ⟨d, ds1, rfl⟩ := List.exists_cons_of_ne_nil hne
  have hd : isDigit d = true := hds d (List.mem_cons_self _ _)
  have htake : ((d :: ds1) ++ rest).takeWhile isDigit = d :: ds1 :=
    takeWhile_append_of_all isDigit _ _ hds hrest
  have hdrop : ((d :: ds1) ++ rest).dropWhile isDigit = rest := by
    rw [dropWhile_append_of_all isDigit _ _ hds]
    exact dropWhile_of_head isDigit rest hrest
  have hrange : ¬ (v < INT_MIN ∨ v > INT_MAX) := by
    unfold isInt32 at hv
    omega
  unfold readInt
  rw [dropWhile_append_of_all isSpace _ _ hws]
  rcases hform with ⟨rfl, hval⟩ | ⟨rfl, hval⟩ | ⟨rfl, hval⟩
  · rw [dropWhile_of_head isSpace _ (by
      intro c hc
      simp only [List.cons_append, List.head?_cons, Option.some.injEq] at hc
      subst hc
      exact isDigit_not_isSpace _ hd)]
    simp only [List.cons_append, readSign, isDigit_ne_minus d hd, isDigit_ne_plus d hd,
      if_false]
    rw [← List.cons_append, htake, hdrop]
    simp only [List.isEmpty_cons, Bool.false_eq_true, if_false, ← hval, hrange]
  · rw [dropWhile_of_head isSpace _ (by
      intro c hc
      simp only [List.cons_append, List.head?_cons, Option.some.injEq] at hc
      subst hc
      decide)]
    have hpm : ('+' : Char) ≠ '-' := by decide
    simp only [List.cons_append, readSign, hpm, if_false, if_true]
    rw [← List.cons_append, htake, hdrop]
    simp only [List.isEmpty_cons, Bool.false_eq_true, if_false, ← hval, hrange]
  · rw [dropWhile_of_head isSpace _ (by
      intro c hc
      simp only [List.cons_append, List.head?_cons, Option.some.injEq] at hc
      subst hc
      decide)]
    simp only [List.cons_append, readSign, if_true]
    rw [← List.cons_append, htake, hdrop]
    simp only [List.isEmpty_cons, Bool.false_eq_true, if_false, if_true, ← hval, hrange]

/-- The extraction fails on white space alone. -/
theorem readInt_spaces (ws : List Char) (hws : ∀ c ∈ ws, isSpace c = true) :
    readInt ws = none := by
  have h : ws.dropWhile isSpace = [] := by
    have := dropWhile_append_of_all isSpace ws [] hws
    simpa using this
  simp [readInt, h, readSign]

theorem head_isSpace_not_isDigit (w l : List Char) (hne : w ≠ [])
    (hw : ∀ c ∈ w, isSpace c = true) : ∀ c, (w ++ l).head? = some c → isDigit c = false := by
  obtain ⟨a, w1, rfl⟩ := List.exists_cons_of_ne_nil hne
  intro c hc
  simp only [List.cons_append, List.head?_cons, Option.some.injEq] at hc
  subst hc
  have ha := hw a (List.mem_cons_self _ _)
  cases hd : isDigit a with
  | false => rfl
  | true => rw [isDigit_not_isSpace a hd] at ha; exact absurd ha (by decide)

/-- A line of three numerals separated by white space reads as the item of
their values. -/
theorem readLineItem_numerals (w0 w1 w2 t1 t2 t3 rest : List Char) (g r c : Int)
    (h1 : IsNumeral t1 g) (h2 : IsNumeral t2 r) (h3 : IsNumeral t3 c)
    (hg : isInt32 g) (hr : isInt32 r) (hc : isInt32 c)
    (hw0 : ∀ x ∈ w0, isSpace x = true)
    (hne1 : w1 ≠ []) (hw1 : ∀ x ∈ w1, isSpace x = true)
    (hne2 : w2 ≠ []) (hw2 : ∀ x ∈ w2, isSpace x = true)
    (hrest : ∀ x, rest.head? = some x → isDigit x = false) :
    readLineItem (String.mk (w0 ++ (t1 ++ (w1 ++ (t2 ++ (w2 ++ (t3 ++ rest)))))))
      = some { group_id := g, embedding_row := r, embedding_col := c } := by
  unfold readLineItem
  simp only
  rw [readInt_numeral w0 t1 _ g h1 hg hw0 (head_isSpace_not_isDigit w1 _ hne1 hw1)]
  simp only
  rw [readInt_numeral w1 t2 _ r h2 hr hw1 (head_isSpace_not_isDigit w2 _ hne2 hw2)]
  simp only
  rw [readInt_numeral w2 t3 _ c h3 hc hw2 hrest]

theorem dropWhile_head_false (p : Char → Bool) (l : List Char) :
    ∀ c, (l.dropWhile p).head? = some c → p c = false := by
  induction l with
  | nil => intro c h; simp at h
  | cons a l ih =>
    intro c h
    by_cases ha : p a = true
    · rw [List.dropWhile_cons, if_pos ha] at h
      exact ih c h
    · rw [List.dropWhile_cons, if_neg ha] at h
      simp only [List.head?_cons, Option.some.injEq] at h
      subst h
      simpa using ha

/-- What the extraction reads is an integer at the start of the stream. -/
theorem readInt_some (s rest : List Char) (v : Int) (h : readInt s = some (v, rest)) :
    StartsWithInt s v rest := by
  have hs : s = s.takeWhile isSpace ++ s.dropWhile isSpace :=
    (List.takeWhile_append_dropWhile isSpace s).symm
  have hws : ∀ c ∈ s.takeWhile isSpace, isSpace c = true :=
    fun c hc => List.mem_takeWhile_imp hc
  unfold readInt at h
  generalize s.dropWhile isSpace = s1 at h hs
  have key : ∀ (neg : Bool) (s2 : List Char), readSign s1 = (neg, s2) →
      (s1 = s2 ∨ s1 = '+' :: s2 ∧ neg = false ∨ s1 = '-' :: s2 ∧ neg = true) →
      (s1 = s2 → neg = false) → StartsWithInt s v rest := by
    intro neg s2 hsign hform hplain
    rw [hsign] at h
    simp only at h
    have hsplit : s2 = s2.takeWhile isDigit ++ s2.dropWhile isDigit :=
      (List.takeWhile_append_dropWhile isDigit s2).symm
    have hds : ∀ c ∈ s2.takeWhile isDigit, isDigit c = true :=
      fun c hc => List.mem_takeWhile_imp hc
    by_cases hemp : (s2.takeWhile isDigit).isEmpty = true
    · simp [hemp] at h
    · simp only [hemp, Bool.false_eq_true, if_false] at h
      have hne : s2.takeWhile isDigit ≠ [] := by
        intro hnil
        rw [hnil] at hemp
        exact hemp rfl
      generalize hv0 : (if neg = true then -(digitsValue 0 (s2.takeWhile isDigit) : Int)
        else (digitsValue 0 (s2.takeWhile isDigit) : Int)) = v0 at h
      by_cases hrange : v0 < INT_MIN ∨ v0 > INT_MAX
      · simp [hrange] at h
      · simp only [hrange, if_false, Option.some.injEq, Prod.mk.injEq] at h
        obtain ⟨hv, hrest⟩ := h
        subst hv
        have hv32 : isInt32 v0 := by
          unfold isInt32
          omega
        have hhead : ∀ c, rest.head? = some c → isDigit c = false := by
          rw [← hrest]
          exact dropWhile_head_false isDigit s2
        rcases hform with h1 | ⟨h1, h2⟩ | ⟨h1, h2⟩
        · have hneg := hplain h1
          subst hneg
          refine ⟨s.takeWhile isSpace, s2.takeWhile isDigit, ?_, hws,
            ⟨_, hne, hds, Or.inl ⟨rfl, by simpa using hv0.symm⟩⟩, hv32, hhead⟩
          rw [← hrest, ← hsplit, ← h1]
          exact hs
        · subst h2
          refine ⟨s.takeWhile isSpace, '+' :: s2.takeWhile isDigit, ?_, hws,
            ⟨_, hne, hds, Or.inr (Or.inl ⟨rfl, by simpa using hv0.symm⟩)⟩, hv32, hhead⟩
          rw [← hrest, List.cons_append, ← hsplit, ← h1]
          exact hs
        · subst h2
          refine ⟨s.takeWhile isSpace, '-' :: s2.takeWhile isDigit, ?_, hws,
            ⟨_, hne, hds, Or.inr (Or.inr ⟨rfl, by simpa using hv0.symm⟩)⟩, hv32, hhead⟩
          rw [← hrest, List.cons_append, ← hsplit, ← h1]
          exact hs
  cases s1 with
  | nil => exact key false [] rfl (Or.inl rfl) (fun _ => rfl)
  | cons c cs =>
    by_cases hm : c = '-'
    · subst hm
      exact key true cs (by simp [readSign]) (Or.inr (Or.inr ⟨rfl, rfl⟩))
        (fun h => absurd (congrArg List.length h) (by simp))
    · by_cases hp : c = '+'
      · subst hp
        exact key false cs (by simp [readSign]) (Or.inr (Or.inl ⟨rfl, rfl⟩))
          (fun _ => rfl)
      · exact key false (c :: cs) (by simp [readSign, hm, hp]) (Or.inl rfl) (fun _ => rfl)

/-- The extraction reads exactly the integers at the start of the stream. -/
theorem readInt_iff (s rest : List Char) (v : Int) :
    readInt s = some (v, rest) ↔ StartsWithInt s v rest := by
  constructor
  · exact readInt_some s rest v
  · rintro ⟨ws, t, hs, hws, hnum, hv, hrest⟩
    rw [hs]
    exact readInt_numeral ws t rest v hnum hv hws hrest

/-- A line is read as an item exactly when it starts with three integers, the
fields of the item. -/
theorem readLineItem_iff (line : String) (item : GroupConfigItem) :
    readLineItem line = some item ↔ StartsWithThreeInts line.data item := by
  obtain ⟨g, r, c⟩ := item
  constructor
  · intro h
    unfold readLineItem at h
    cases h1 : readInt line.data with
    | none => simp [h1] at h
    | some p1 =>
      obtain ⟨g1, r1⟩ := p1
      simp only [h1] at h
      cases h2 : readInt r1 with
      | none => simp [h2] at h
      | some p2 =>
        obtain ⟨g2, r2⟩ := p2
        simp only [h2] at h
        cases h3 : readInt r2 with
        | none => simp [h3] at h
        | some p3 =>
          obtain ⟨g3, r3⟩ := p3
          simp only [h3, Option.some.injEq, GroupConfigItem.mk.injEq] at h
          obtain ⟨e1, e2, e3⟩ := h
          subst e1 e2 e3
          exact ⟨r1, r2, r3, (readInt_iff _ _ _).mp h1, (readInt_iff _ _ _).mp h2,
            (readInt_iff _ _ _).mp h3⟩
  · rintro ⟨r1, r2, r3, h1, h2, h3⟩
    simp only at h1 h2 h3
    unfold readLineItem
    rw [(readInt_iff _ _ _).mpr h1]
    simp only
    rw [(readInt_iff _ _ _).mpr h2]
    simp only
    rw [(readInt_iff _ _ _).mpr h3]

/-- The integer at the start of a stream and what follows it are determined
by the stream. -/
theorem StartsWithInt_unique (s r1 r2 : List Char) (a b : Int)
    (h1 : StartsWithInt s a r1) (h2 : StartsWithInt s b r2) : a = b ∧ r1 = r2 := by
  have e1 := (readInt_iff s r1 a).mpr h1
  have e2 := (readInt_iff s r2 b).mpr h2
  rw [e1] at e2
  simp only [Option.some.injEq, Prod.mk.injEq] at e2
  exact e2

/-- No integer starts a stream of white space. -/
theorem not_StartsWithInt_spaces (s rest : List Char) (v : Int)
    (hs : ∀ x ∈ s, isSpace x = true) : ¬ StartsWithInt s v rest := by
  intro h
  have e := (readInt_iff s rest v).mpr h
  rw [readInt_spaces s hs] at e
  exact absurd e (by simp)

/-- The lines read as the items of a list start with three integers each, the
fields of the item at the same place. -/
theorem lines_forall2 (ls : List String) (its : List GroupConfigItem)
    (h : ls.map readLineItem = its.map some) :
    List.Forall₂ (fun l item => StartsWithThreeInts l.data item) ls its := by
  induction ls generalizing its with
  | nil =>
    cases its with
    | nil => exact List.Forall₂.nil
    | cons it its => simp at h
  | cons l ls ih =>
    cases its with
    | nil => simp at h
    | cons it its =>
      simp only [List.map_cons, List.cons.injEq] at h
      exact List.Forall₂.cons ((readLineItem_iff l it).mp h.1) (ih its h.2)

theorem lineReads_filter (lines : List String) :
    lineReads (lines.filter (fun l => !isComment l)) = lineReads lines := by
  unfold lineReads
  rw [List.filter_filter]
  simp

/-! ## Claims -/

/-- C1: a duplicate group id makes either form fail.  For the inline form and
for the file form alike: when the call returns `true` the group ids of the
returned items are pairwise distinct, and when two of the items read (file
form: read from two lines that are not comments) carry the same group id the
call returns `false`. -/
theorem duplicate_group_id_rejected (SplitS : String → Char → List String)
    (SplitI : String → Char → Option (List Int)) (Open : String → Option (List String))
    (M : Int) (info file : String) (items0 : List GroupConfigItem) (mx : Option Int) :
    ((ParseGroupConfig SplitS SplitI M info items0 mx).ok = true →
      ((ParseGroupConfig SplitS SplitI M info items0 mx).items.map
        GroupConfigItem.group_id).Nodup) ∧
    (∀ (i j : Nat) (a b : GroupConfigItem), i < j →
      (inlineReads SplitS SplitI info)[i]? = some (some a) →
      (inlineReads SplitS SplitI info)[j]? = some (some b) →
      a.group_id = b.group_id →
      (ParseGroupConfig SplitS SplitI M info items0 mx).ok = false) ∧
    ((LoadGroupConfig Open M file items0 mx).ok = true →
      ((LoadGroupConfig Open M file items0 mx).items.map GroupConfigItem.group_id).Nodup) ∧
    (∀ (lines : List String) (i j : Nat) (a b : GroupConfigItem), Open file = some lines →
      i < j → (lineReads lines)[i]? = some (some a) → (lineReads lines)[j]? = some (some b) →
      a.group_id = b.group_id →
      (LoadGroupConfig Open M file items0 mx).ok = false) := by
  refine ⟨?_, ?_, ?_, ?_⟩
  · rw [ParseGroupConfig_eq_conclude]
    exact conclude_nodup M _ mx
  · intro i j a b hij ha hb hab
    rw [ParseGroupConfig_eq_conclude]
    exact conclude_duplicate M _ mx i j a b hij ha hb hab
  · rcases LoadGroupConfig_cases Open M file items0 mx with ⟨-, h⟩ | ⟨lines, -, h⟩
    · rw [h]; simp
    · rw [h]
      exact conclude_nodup M _ mx
  · intro lines i j a b hopen hij ha hb hab
    rw [LoadGroupConfig_eq_conclude Open M file lines hopen]
    exact conclude_duplicate M _ mx i j a b hij ha hb hab

/-- Witness for C1: the inline string `1:4,1:8` and the file with the lines
`1 1 4`, a comment and `1 1 8` both repeat group id 1 and are rejected. -/
theorem duplicate_group_id_rejected_witness :
    (ParseGroupConfig Split SplitInt 65535 "1:4,1:8" [] (some 0)).ok = false ∧
    (LoadGroupConfig (fun _ => some ["1 1 4", "# two", "1 1 8"]) 65535 "f" [] (some 0)).ok
      = false :=
  ⟨(duplicate_group_id_rejected Split SplitInt (fun _ => some ["1 1 4", "# two", "1 1 8"])
      65535 "1:4,1:8" "f" [] (some 0)).2.1 0 1 ⟨1, 1, 4⟩ ⟨1, 1, 8⟩
      (by decide) (by decide) (by decide) rfl,
   (duplicate_group_id_rejected Split SplitInt (fun _ => some ["1 1 4", "# two", "1 1 8"])
      65535 "1:4,1:8" "f" [] (some 0)).2.2.2 ["1 1 4", "# two", "1 1 8"] 0 1
      ⟨1, 1, 4⟩ ⟨1, 1, 8⟩ rfl (by decide) (by decide) (by decide) rfl⟩

/-- C2: for an item whose row and column counts are 32-bit `int` values,
`CheckGroupConfigItem` accepts exactly when `0 <= group_id <= MAX_GROUP_ID`,
both counts are positive and their exact product is at most `2^31 - 1`; for
positive counts the `uint64_t` product of the code is the exact product, and
the product of an accepted item lies in the range of `int`. -/
theorem CheckGroupConfigItem_iff (M : Int) (item : GroupConfigItem)
    (hrow : isInt32 item.embedding_row) (hcol : isInt32 item.embedding_col) :
    (CheckGroupConfigItem M item = true ↔
      0 ≤ item.group_id ∧ item.group_id ≤ M ∧ 0 < item.embedding_row ∧
      0 < item.embedding_col ∧ item.embedding_row * item.embedding_col ≤ 2147483647) ∧
    (0 < item.embedding_row → 0 < item.embedding_col →
      (mulUInt64 (toUInt64 item.embedding_row) (toUInt64 item.embedding_col) : Int)
        = item.embedding_row * item.embedding_col) ∧
    (CheckGroupConfigItem M item = true →
      isInt32 (item.embedding_row * item.embedding_col)) := by
  obtain ⟨g, r, c⟩ := item
  simp only [isInt32, INT_MIN, INT_MAX] at hrow hcol
  simp only at hrow hcol ⊢
  have hexact : 0 < r → 0 < c → (mulUInt64 (toUInt64 r) (toUInt64 c) : Int) = r * c := by
    intro hr hc
    have h1 : r * c < 18446744073709551616 := by nlinarith
    have h2 : 0 ≤ r * c := by positivity
    have hr' : toUInt64 r = r.toNat := by unfold toUInt64; congr 1; omega
    have hc' : toUInt64 c = c.toNat := by unfold toUInt64; congr 1; omega
    rw [hr', hc']
    unfold mulUInt64
    have h3 : ((r.toNat * c.toNat : Nat) : Int) = r * c := by
      push_cast
      rw [Int.toNat_of_nonneg (le_of_lt hr), Int.toNat_of_nonneg (le_of_lt hc)]
    rw [Int.natCast_mod, h3]
    exact Int.emod_eq_of_lt h2 h1
  have hiff : CheckGroupConfigItem M ⟨g, r, c⟩ = true ↔
      0 ≤ g ∧ g ≤ M ∧ 0 < r ∧ 0 < c ∧ r * c ≤ 2147483647 := by
    unfold CheckGroupConfigItem
    simp only
    by_cases hg : g < 0 ∨ g > M
    · simp only [hg, if_true, Bool.false_eq_true, false_iff]
      omega
    · by_cases hr : r ≤ 0
      · simp only [hg, if_false, hr, if_true, Bool.false_eq_true, false_iff]
        omega
      · by_cases hc : c ≤ 0
        · simp only [hg, if_false, hr, hc, if_true, Bool.false_eq_true, false_iff]
          omega
        · have hm := hexact (by omega) (by omega)
          have hmax : toUInt64 INT_MAX = 2147483647 := by decide
          simp only [hg, if_false, hr, hc, hmax]
          have hcmp : mulUInt64 (toUInt64 r) (toUInt64 c) > 2147483647 ↔
              r * c > 2147483647 := by
            rw [← hm]
            omega
          by_cases hbig : r * c > 2147483647
          · simp only [hcmp.mpr hbig, if_true, Bool.false_eq_true, false_iff]
            omega
          · have hsmall : ¬ mulUInt64 (toUInt64 r) (toUInt64 c) > 2147483647 :=
              fun h => hbig (hcmp.mp h)
            simp only [hsmall, if_false, true_iff]
            omega
  refine ⟨hiff, hexact, ?_⟩
  intro h
  obtain ⟨-, -, h3, h4, h5⟩ := hiff.mp h
  have : 0 ≤ r * c := by positivity
  simp only [isInt32, INT_MIN, INT_MAX]
  omega

/-- Witness for C2: the item `{7, 46341, 46341}` has positive 32-bit counts
whose product `2147488281` exceeds `2^31 - 1`; the check rejects it. -/
theorem CheckGroupConfigItem_iff_witness :
    isInt32 46341 ∧ CheckGroupConfigItem 65535 ⟨7, 46341, 46341⟩ = false ∧
    (mulUInt64 (toUInt64 46341) (toUInt64 46341) : Int) = 46341 * 46341 :=
  ⟨by decide, by decide,
    (CheckGroupConfigItem_iff 65535 ⟨7, 46341, 46341⟩ (by decide) (by decide)).2.1
      (by decide) (by decide)⟩

/-- C3, as stated, fails on an input without items: the empty inline string
has no comma-separated item, so each of its items is of the form `g:c` or
`g:r:c`, passes validation and has a group id of its own, and yet
`ParseGroupConfig` returns `false`. -/
theorem ParseGroupConfig_inline_no_item_counterexample :
    ¬ (∀ (info : String) (its : List GroupConfigItem),
        List.Forall₂ (InlineForm SplitInt) (Split info ',') its →
        (∀ it ∈ its, CheckGroupConfigItem 65535 it = true) →
        (its.map GroupConfigItem.group_id).Nodup →
        (ParseGroupConfig Split SplitInt 65535 info [] (some 0)).ok = true) := by
  intro h
  have h1 := h "" [] (show List.Forall₂ (InlineForm SplitInt) [] [] from List.Forall₂.nil)
    (by simp) (by simp)
  revert h1
  decide

/-- C3 (amended): for every inline string with at least one comma-separated
item, whose items are each of the form `g:c` or `g:r:c`, pass validation and
have distinct group ids, `ParseGroupConfig` returns `true` with exactly one
output item per input item, in input order, `g:c` giving `{g, 1, c}` and
`g:r:c` giving `{g, r, c}`; an item with any other number of integer fields
makes the call return `false`. -/
theorem ParseGroupConfig_inline_items (SplitS : String → Char → List String)
    (SplitI : String → Char → Option (List Int)) (M : Int) (info : String)
    (items0 : List GroupConfigItem) (mx : Option Int) :
    (∀ its : List GroupConfigItem, its ≠ [] →
      List.Forall₂ (InlineForm SplitI) (SplitS info ',') its →
      (∀ it ∈ its, CheckGroupConfigItem M it = true) →
      (its.map GroupConfigItem.group_id).Nodup →
      (ParseGroupConfig SplitS SplitI M info items0 mx).ok = true ∧
      (ParseGroupConfig SplitS SplitI M info items0 mx).items = its ∧
      (ParseGroupConfig SplitS SplitI M info items0 mx).items.length
        = (SplitS info ',').length) ∧
    (∀ (s : String) (fields : List Int), s ∈ SplitS info ',' →
      SplitI s ':' = some fields → fields.length ≠ 2 → fields.length ≠ 3 →
      (ParseGroupConfig SplitS SplitI M info items0 mx).ok = false) := by
  constructor
  · intro its hne hform hvalid hnodup
    have hreads : inlineReads SplitS SplitI info = its.map some :=
      inlineForm_reads SplitI _ _ hform
    have hr := conclude_of_accepted M its mx hne ⟨hvalid, hnodup, by simp⟩
    rw [ParseGroupConfig_eq_conclude, hreads, hr]
    exact ⟨rfl, rfl, hform.length_eq.symm⟩
  · intro s fields hs hsplit h2 h3
    rw [ParseGroupConfig_eq_conclude]
    apply conclude_none_mem
    have hnone : readInlineItem SplitI s = none := by
      unfold readInlineItem
      rw [hsplit]
      match fields, h2, h3 with
      | [], _, _ => rfl
      | [_], _, _ => rfl
      | [_, _], h2, _ => exact absurd rfl h2
      | [_, _, _], _, h3 => exact absurd rfl h3
      | _ :: _ :: _ :: _ :: _, _, _ => rfl
    rw [inlineReads, ← hnone]
    exact List.mem_map_of_mem _ hs

/-- Witness for C3: on `1:4,2:8` the call returns `true`, the items
`{1,1,4}`, `{2,1,8}` and the maximum output 3; the item `1:2:3:4` of four
fields is rejected. -/
theorem ParseGroupConfig_inline_items_witness :
    ((ParseGroupConfig Split SplitInt 65535 "1:4,2:8" [] (some 0)).ok = true ∧
      (ParseGroupConfig Split SplitInt 65535 "1:4,2:8" [] (some 0)).items
        = [⟨1, 1, 4⟩, ⟨2, 1, 8⟩] ∧
      (ParseGroupConfig Split SplitInt 65535 "1:4,2:8" [] (some 0)).items.length
        = (Split "1:4,2:8" ',').length) ∧
    (ParseGroupConfig Split SplitInt 65535 "1:4,2:8" [] (some 0)).max_group_id = some 3 ∧
    (ParseGroupConfig Split SplitInt 65535 "1:2:3:4" [] (some 0)).ok = false :=
  ⟨(ParseGroupConfig_inline_items Split SplitInt 65535 "1:4,2:8" [] (some 0)).1
      [⟨1, 1, 4⟩, ⟨2, 1, 8⟩] (by simp)
      (show List.Forall₂ (InlineForm SplitInt) ["1:4", "2:8"] _ from
        List.Forall₂.cons (Or.inl ⟨by decide, rfl⟩)
          (List.Forall₂.cons (Or.inl ⟨by decide, rfl⟩) List.Forall₂.nil))
      (by decide) (by decide),
    by decide,
    (ParseGroupConfig_inline_items Split SplitInt 65535 "1:2:3:4" [] (some 0)).2
      "1:2:3:4" [1, 2, 3, 4] (by decide) (by decide) (by decide) (by decide)⟩

/-- C4: whenever `ParseGroupConfig` or `LoadGroupConfig` returns `true` and the
maximum is requested, the reported value is one more than the largest group id
among the returned items, and every returned group id is a valid index below
it (`MAX_GROUP_ID` is below the largest `int`, so the increment is exact). -/
theorem max_group_id_output (SplitS : String → Char → List String)
    (SplitI : String → Char → Option (List Int)) (Open : String → Option (List String))
    (M : Int) (hM : M < INT_MAX) (info file : String) (items0 : List GroupConfigItem)
    (v : Int) :
    ((ParseGroupConfig SplitS SplitI M info items0 (some v)).ok = true →
      ∃ top ∈ (ParseGroupConfig SplitS SplitI M info items0 (some v)).items,
        (ParseGroupConfig SplitS SplitI M info items0 (some v)).max_group_id
          = some (top.group_id + 1) ∧
        ∀ it ∈ (ParseGroupConfig SplitS SplitI M info items0 (some v)).items,
          0 ≤ it.group_id ∧ it.group_id ≤ top.group_id) ∧
    ((LoadGroupConfig Open M file items0 (some v)).ok = true →
      ∃ top ∈ (LoadGroupConfig Open M file items0 (some v)).items,
        (LoadGroupConfig Open M file items0 (some v)).max_group_id
          = some (top.group_id + 1) ∧
        ∀ it ∈ (LoadGroupConfig Open M file items0 (some v)).items,
          0 ≤ it.group_id ∧ it.group_id ≤ top.group_id) := by
  constructor
  · rw [ParseGroupConfig_eq_conclude]
    exact conclude_max M hM _ v
  · rcases LoadGroupConfig_cases Open M file items0 (some v) with ⟨-, h⟩ | ⟨lines, -, h⟩
    · rw [h]; simp
    · rw [h]
      exact conclude_max M hM _ v

/-- Witness for C4: for `5:4,2:8,3:1` and for the file with the lines `5 1 4`,
`2 1 8` the reported value is 6, one more than the largest group id 5. -/
theorem max_group_id_output_witness :
    (65535 : Int) < INT_MAX ∧
    (ParseGroupConfig Split SplitInt 65535 "5:4,2:8,3:1" [] (some 9)).max_group_id = some 6 ∧
    (∃ top ∈ (LoadGroupConfig (fun _ => some ["5 1 4", "2 1 8"]) 65535 "f" []
        (some 9)).items,
      (LoadGroupConfig (fun _ => some ["5 1 4", "2 1 8"]) 65535 "f" [] (some 9)).max_group_id
          = some (top.group_id + 1) ∧
      ∀ it ∈ (LoadGroupConfig (fun _ => some ["5 1 4", "2 1 8"]) 65535 "f" []
          (some 9)).items,
        0 ≤ it.group_id ∧ it.group_id ≤ top.group_id) :=
  ⟨by decide, by decide,
    (max_group_id_output Split SplitInt (fun _ => some ["5 1 4", "2 1 8"]) 65535 (by decide)
      "5:4,2:8,3:1" "f" [] 9).2 (by decide)⟩

/-- C5: an input from which no item is read makes either form return `false`
(inline: splitting on `,` gives no item; file: every line is a comment, or
there is no line); whenever either form returns `true` the returned item list
is not empty; the overloads taking a gflag name return `false` on an empty
string argument. -/
theorem empty_result_rejected (SplitS : String → Char → List String)
    (SplitI : String → Char → Option (List Int)) (Open : String → Option (List String))
    (M : Int) (info file : String) (items0 : List GroupConfigItem) (mx : Option Int) :
    (SplitS info ',' = [] → (ParseGroupConfig SplitS SplitI M info items0 mx).ok = false) ∧
    (∀ lines : List String, Open file = some lines → (∀ l ∈ lines, isComment l = true) →
      (LoadGroupConfig Open M file items0 mx).ok = false) ∧
    ((ParseGroupConfig SplitS SplitI M info items0 mx).ok = true →
      (ParseGroupConfig SplitS SplitI M info items0 mx).items ≠ []) ∧
    ((LoadGroupConfig Open M file items0 mx).ok = true →
      (LoadGroupConfig Open M file items0 mx).items ≠ []) ∧
    (ParseGroupConfigFlag SplitS SplitI M "" items0 mx).ok = false ∧
    (LoadGroupConfigFlag Open M "" items0 mx).ok = false := by
  refine ⟨?_, ?_, ?_, ?_, rfl, rfl⟩
  · intro h
    rw [ParseGroupConfig_eq_conclude, inlineReads, h]
    exact conclude_nil M mx
  · intro lines hopen hall
    rw [LoadGroupConfig_eq_conclude Open M file lines hopen]
    have hnil : lineReads lines = [] := by
      unfold lineReads
      rw [List.map_eq_nil_iff, List.filter_eq_nil_iff]
      intro l hl
      simp [hall l hl]
    rw [hnil]
    exact conclude_nil M mx
  · rw [ParseGroupConfig_eq_conclude]
    exact conclude_items_ne_nil M _ mx
  · rcases LoadGroupConfig_cases Open M file items0 mx with ⟨-, h⟩ | ⟨lines, -, h⟩
    · rw [h]; simp
    · rw [h]
      exact conclude_items_ne_nil M _ mx

/-- Witness for C5: the empty inline string, a file of two comment lines and a
file without lines are rejected. -/
theorem empty_result_rejected_witness :
    (ParseGroupConfig Split SplitInt 65535 "" [] (some 0)).ok = false ∧
    (LoadGroupConfig (fun _ => some ["# groups", "// none yet"]) 65535 "f" [] (some 0)).ok
      = false ∧
    (LoadGroupConfig (fun _ => some []) 65535 "f" [] (some 0)).ok = false :=
  ⟨(empty_result_rejected Split SplitInt (fun _ => some ["# groups", "// none yet"]) 65535
      "" "f" [] (some 0)).1 (by decide),
   (empty_result_rejected Split SplitInt (fun _ => some ["# groups", "// none yet"]) 65535
      "" "f" [] (some 0)).2.1 ["# groups", "// none yet"] rfl (by decide),
   (empty_result_rejected Split SplitInt (fun _ => some []) 65535
      "" "f" [] (some 0)).2.1 [] rfl (by decide)⟩

/-- C6, as stated, fails: on `1:4,2:8,1:5` the third item repeats group id 1,
`ParseGroupConfig` returns `false`, and the items output holds the two items
read before the error; likewise `LoadGroupConfig` on the lines `1 1 4`,
`oops`. -/
theorem failed_load_keeps_items_counterexample :
    ((ParseGroupConfig Split SplitInt 65535 "1:4,2:8,1:5" [] (some 0)).ok = false ∧
      (ParseGroupConfig Split SplitInt 65535 "1:4,2:8,1:5" [] (some 0)).items
        = [⟨1, 1, 4⟩, ⟨2, 1, 8⟩]) ∧
    ((LoadGroupConfig (fun _ => some ["1 1 4", "oops"]) 65535 "f" [] (some 0)).ok = false ∧
      (LoadGroupConfig (fun _ => some ["1 1 4", "oops"]) 65535 "f" [] (some 0)).items
        = [⟨1, 1, 4⟩]) := by
  decide

/-- C6 (amended): a failed load is reported by the return value; the items
output is not cleared.  For every input on which `ParseGroupConfig` or
`LoadGroupConfig` (on a file that could be opened) returns `false`, either
nothing was read and the items output is empty, or the items output holds, in
order, exactly the items read and accepted before the first offending one
(malformed, invalid, or with a group id already read). -/
theorem failed_load_items (SplitS : String → Char → List String)
    (SplitI : String → Char → Option (List Int)) (Open : String → Option (List String))
    (M : Int) (info file : String) (items0 : List GroupConfigItem) (mx : Option Int) :
    ((ParseGroupConfig SplitS SplitI M info items0 mx).ok = false →
      (inlineReads SplitS SplitI info = [] ∧
        (ParseGroupConfig SplitS SplitI M info items0 mx).items = []) ∨
      (∃ its bad rest, inlineReads SplitS SplitI info = its.map some ++ bad :: rest ∧
        Accepted M [] its ∧ Offending M (its.map GroupConfigItem.group_id) bad ∧
        (ParseGroupConfig SplitS SplitI M info items0 mx).items = its)) ∧
    (∀ lines : List String, Open file = some lines →
      (LoadGroupConfig Open M file items0 mx).ok = false →
      (lineReads lines = [] ∧ (LoadGroupConfig Open M file items0 mx).items = []) ∨
      (∃ its bad rest, lineReads lines = its.map some ++ bad :: rest ∧
        Accepted M [] its ∧ Offending M (its.map GroupConfigItem.group_id) bad ∧
        (LoadGroupConfig Open M file items0 mx).items = its)) := by
  constructor
  · rw [ParseGroupConfig_eq_conclude]
    exact conclude_fail_items M _ mx
  · intro lines hopen
    rw [LoadGroupConfig_eq_conclude Open M file lines hopen]
    exact conclude_fail_items M _ mx

/-- Witness for C6 (amended): on `1:4,2:8,1:5` the call fails and one of the
two cases of the amended claim holds. -/
theorem failed_load_items_witness :
    (ParseGroupConfig Split SplitInt 65535 "1:4,2:8,1:5" [] (some 0)).ok = false ∧
    ((inlineReads Split SplitInt "1:4,2:8,1:5" = [] ∧
        (ParseGroupConfig Split SplitInt 65535 "1:4,2:8,1:5" [] (some 0)).items = []) ∨
      (∃ its bad rest, inlineReads Split SplitInt "1:4,2:8,1:5" = its.map some ++ bad :: rest ∧
        Accepted 65535 [] its ∧ Offending 65535 (its.map GroupConfigItem.group_id) bad ∧
        (ParseGroupConfig Split SplitInt 65535 "1:4,2:8,1:5" [] (some 0)).items = its)) :=
  ⟨by decide,
   (failed_load_items Split SplitInt (fun _ => none) 65535 "1:4,2:8,1:5" "f" []
      (some 0)).1 (by decide)⟩

/-- C7, as stated, fails: the line `1+2+3` holds no white space, so it does
not start with three whitespace-separated integers, yet it is no comment and
a file of this one line loads with success as the item `{1, 2, 3}`. -/
theorem LoadGroupConfig_lines_counterexample :
    isComment "1+2+3" = false ∧
    (¬ ∃ item, WhitespaceSeparatedThreeInts "1+2+3".data item) ∧
    LoadGroupConfig (fun _ => some ["1+2+3"]) 65535 "f" [] (some 0)
      = { ok := true, items := [⟨1, 2, 3⟩], max_group_id := some 2 } := by
  refine ⟨by decide, ?_, by decide⟩
  rintro ⟨item, w0, w1, w2, t1, t2, t3, rest, hs, -, -, -, -, -, -, -, hne, hw1, -⟩
  obtain ⟨x, hx⟩ := List.exists_mem_of_ne_nil w1 hne
  have hmem : x ∈ "1+2+3".data := by
    rw [hs]
    simp [hx]
  have hsp : ∀ c ∈ "1+2+3".data, isSpace c = false := by decide
  have h1 := hw1 x hx
  rw [hsp x hmem] at h1
  exact absurd h1 (by decide)

/-- C7 (amended): on the lines of a file, `LoadGroupConfig` returns the same
result (return value, items, maximum) as on the lines that contain neither
`#` nor `//`; when the load succeeds every remaining line starts with three
integers as the stream extraction reads them (white space that may be absent,
a numeral in the range of `int`, no digit next) and the returned items are the
items of these lines, in line order; a remaining line that does not start with
three such integers makes the load return `false`; the code reads a line as an
item exactly when the line starts with the three integers of the item; a blank
line and a line with only two integers do not start with three integers; a line
of three numerals separated by white space does. -/
theorem LoadGroupConfig_lines (Open : String → Option (List String)) (M : Int)
    (file : String) (lines : List String) (items0 : List GroupConfigItem) (mx : Option Int)
    (hopen : Open file = some lines) :
    LoadGroupConfig Open M file items0 mx
      = LoadGroupConfig (fun _ => some (lines.filter (fun l => !isComment l))) M file
          items0 mx ∧
    ((LoadGroupConfig Open M file items0 mx).ok = true →
      List.Forall₂ (fun l item => StartsWithThreeInts l.data item)
        (lines.filter (fun l => !isComment l))
        (LoadGroupConfig Open M file items0 mx).items) ∧
    (∀ l ∈ lines, isComment l = false → (∀ item, ¬ StartsWithThreeInts l.data item) →
      (LoadGroupConfig Open M file items0 mx).ok = false) ∧
    (∀ (l : String) (item : GroupConfigItem),
      readLineItem l = some item ↔ StartsWithThreeInts l.data item) ∧
    (∀ s : List Char, (∀ x ∈ s, isSpace x = true) →
      ∀ item, ¬ StartsWithThreeInts s item) ∧
    (∀ (s r1 r2 : List Char) (g r : Int), StartsWithInt s g r1 → StartsWithInt r1 r r2 →
      (∀ x ∈ r2, isSpace x = true) → ∀ item, ¬ StartsWithThreeInts s item) ∧
    (∀ (s : List Char) (item : GroupConfigItem),
      WhitespaceSeparatedThreeInts s item → StartsWithThreeInts s item) := by
  refine ⟨?_, ?_, ?_, ?_, ?_, ?_, ?_⟩
  · rw [LoadGroupConfig_eq_conclude Open M file lines hopen,
      LoadGroupConfig_eq_conclude (fun _ => some (lines.filter (fun l => !isComment l))) M
        file _ rfl, lineReads_filter]
  · rw [LoadGroupConfig_eq_conclude Open M file lines hopen]
    intro h
    obtain ⟨its, -, hreads, -, hr⟩ := (conclude_ok_iff M _ mx).mp h
    rw [hr]
    exact lines_forall2 _ its hreads
  · intro l hl hc hnot
    have hnone : readLineItem l = none := by
      cases hread : readLineItem l with
      | none => rfl
      | some item => exact absurd ((readLineItem_iff l item).mp hread) (hnot item)
    rw [LoadGroupConfig_eq_conclude Open M file lines hopen]
    apply conclude_none_mem
    rw [lineReads, ← hnone]
    apply List.mem_map_of_mem
    rw [List.mem_filter]
    exact ⟨hl, by simp [hc]⟩
  · exact readLineItem_iff
  · rintro s hs item ⟨r1, r2, r3, h1, -, -⟩
    exact not_StartsWithInt_spaces s r1 _ hs h1
  · rintro s r1 r2 g r h1 h2 hs item ⟨q1, q2, q3, k1, k2, k3⟩
    obtain ⟨-, e1⟩ := StartsWithInt_unique s r1 q1 _ _ h1 k1
    subst e1
    obtain ⟨-, e2⟩ := StartsWithInt_unique r1 r2 q2 _ _ h2 k2
    subst e2
    exact not_StartsWithInt_spaces r2 q3 _ hs k3
  · rintro s ⟨g, r, c⟩ ⟨w0, w1, w2, t1, t2, t3, rest, hs, h1, h2, h3, hg, hr, hc, hw0, hne1,
      hw1, hne2, hw2, hrest⟩
    have hread := readLineItem_numerals w0 w1 w2 t1 t2 t3 rest g r c h1 h2 h3 hg hr hc hw0
      hne1 hw1 hne2 hw2 hrest
    rw [hs]
    exact (readLineItem_iff _ _).mp hread

/-- Witness for C7: a file with a comment line, the line `7 2 16` and a line
that ends in a `//` comment loads as the single item `{7, 2, 16}`, and the
line `7 2 16` starts with the three integers of this item; with a blank line
added, or the two-integer line `7 2`, the load fails. -/
theorem LoadGroupConfig_lines_witness :
    LoadGroupConfig (fun _ => some ["# id row col", "7 2 16", "8 1 4 // off"]) 65535 "f" []
        (some 0)
      = { ok := true, items := [⟨7, 2, 16⟩], max_group_id := some 8 } ∧
    LoadGroupConfig (fun _ => some ["# id row col", "7 2 16", "8 1 4 // off"]) 65535 "f" []
        (some 0)
      = LoadGroupConfig (fun _ => some ["7 2 16"]) 65535 "f" [] (some 0) ∧
    List.Forall₂ (fun l item => StartsWithThreeInts l.data item) ["7 2 16"] [⟨7, 2, 16⟩] ∧
    (LoadGroupConfig (fun _ => some ["7 2 16", ""]) 65535 "f" [] (some 0)).ok = false ∧
    (LoadGroupConfig (fun _ => some ["8 1 4", "7 2"]) 65535 "f" [] (some 0)).ok = false ∧
    StartsWithThreeInts "7 2 16".data ⟨7, 2, 16⟩ :=
  ⟨by decide,
   (LoadGroupConfig_lines (fun _ => some ["# id row col", "7 2 16", "8 1 4 // off"]) 65535
      "f" ["# id row col", "7 2 16", "8 1 4 // off"] [] (some 0) rfl).1,
   (LoadGroupConfig_lines (fun _ => some ["# id row col", "7 2 16", "8 1 4 // off"]) 65535
      "f" ["# id row col", "7 2 16", "8 1 4 // off"] [] (some 0) rfl).2.1 (by decide),
   (LoadGroupConfig_lines (fun _ => some ["7 2 16", ""]) 65535 "f" ["7 2 16", ""] []
      (some 0) rfl).2.2.1 "" (by decide) (by decide)
      ((LoadGroupConfig_lines (fun _ => some []) 65535 "f" [] [] (some 0) rfl).2.2.2.2.1
        [] (by simp)),
   (LoadGroupConfig_lines (fun _ => some ["8 1 4", "7 2"]) 65535 "f" ["8 1 4", "7 2"] []
      (some 0) rfl).2.2.1 "7 2" (by decide) (by decide)
      (fun item h => absurd
        (((LoadGroupConfig_lines (fun _ => some []) 65535 "f" [] [] (some 0) rfl).2.2.2.1
          "7 2" item).mpr h)
        (by rw [show readLineItem "7 2" = none by decide]; simp)),
   (LoadGroupConfig_lines (fun _ => some []) 65535 "f" [] [] (some 0) rfl).2.2.2.2.2.2
      "7 2 16".data ⟨7, 2, 16⟩
      ⟨[], [' '], [' '], ['7'], ['2'], ['1', '6'], [], rfl,
        ⟨['7'], by simp, by decide, Or.inl ⟨rfl, by decide⟩⟩,
        ⟨['2'], by simp, by decide, Or.inl ⟨rfl, by decide⟩⟩,
        ⟨['1', '6'], by simp, by decide, Or.inl ⟨rfl, by decide⟩⟩,
        by decide, by decide, by decide, by simp, by simp, by decide, by simp,
        by decide, by simp⟩⟩

/-- C8 evaluated where it fails: the list `{0,1,2147483647}`, `{1,1,1}` is a
valid group configuration, it is what `ParseGroupConfig` returns for
`0:2147483647,1:1`, the exact sum of its column counts is `2147483648`, and the
`int` accumulation of `GetTotalEmbeddingCol` leaves the range of `int`
(`-2147483648` after two's complement reduction). -/
theorem GetTotalEmbeddingCol_overflow :
    ValidGroupConfig 65535 [⟨0, 1, 2147483647⟩, ⟨1, 1, 1⟩] ∧
    ParseGroupConfig Split SplitInt 65535 "0:2147483647,1:1" [] none
      = { ok := true, items := [⟨0, 1, 2147483647⟩, ⟨1, 1, 1⟩], max_group_id := none } ∧
    sumEmbeddingCol [⟨0, 1, 2147483647⟩, ⟨1, 1, 1⟩] = 2147483648 ∧
    GetTotalEmbeddingCol [⟨0, 1, 2147483647⟩, ⟨1, 1, 1⟩] = -2147483648 := by
  refine ⟨by decide, by decide, by decide, by decide⟩

/-- C9: on every list that is not empty, as every valid list is,
`IsFMGroupConfig` is true exactly when all items have the same column count;
`CheckFMGroupConfig` returns the same boolean on every list. -/
theorem IsFMGroupConfig_iff (items : List GroupConfigItem) :
    (items ≠ [] →
      (IsFMGroupConfig items = true ↔
        ∀ a ∈ items, ∀ b ∈ items, a.embedding_col = b.embedding_col)) ∧
    CheckFMGroupConfig items = IsFMGroupConfig items := by
  constructor
  · intro hne
    cases items with
    | nil => exact absurd rfl hne
    | cons front rest =>
      simp only [IsFMGroupConfig]
      rw [sameColLoop_iff]
      constructor
      · intro h a ha b hb
        rw [h a ha, h b hb]
      · intro h it hit
        exact h it hit front (List.mem_cons_self _ _)
  · cases items <;> rfl

/-- Witness for C9: a valid list with the column counts 8, 8 is an FM
configuration, and one with 8, 4 is not. -/
theorem IsFMGroupConfig_iff_witness :
    ValidGroupConfig 65535 [⟨1, 10, 8⟩, ⟨2, 20, 8⟩] ∧
    IsFMGroupConfig [⟨1, 10, 8⟩, ⟨2, 20, 8⟩] = true ∧
    IsFMGroupConfig [⟨1, 10, 8⟩, ⟨2, 20, 4⟩] = false ∧
    (IsFMGroupConfig [⟨1, 10, 8⟩, ⟨2, 20, 8⟩] = true ↔
      ∀ a ∈ [(⟨1, 10, 8⟩ : GroupConfigItem), ⟨2, 20, 8⟩],
        ∀ b ∈ [(⟨1, 10, 8⟩ : GroupConfigItem), ⟨2, 20, 8⟩],
          a.embedding_col = b.embedding_col) :=
  ⟨⟨by simp, by decide, by decide⟩, by decide, by decide,
    (IsFMGroupConfig_iff [⟨1, 10, 8⟩, ⟨2, 20, 8⟩]).1 (by simp)⟩

/-- C10: `GetLRGroupConfig(items)` has the length of `items`, and wherever
`items` has an item at index `i` the result has, at index `i`, the item with
the same group id, the same number of rows and one column.  The input is a
value of the embedding and is the same list after the call. -/
theorem GetLRGroupConfig_spec (items : List GroupConfigItem) :
    (GetLRGroupConfig items).length = items.length ∧
    ∀ (i : Nat) (item : GroupConfigItem), items[i]? = some item →
      ∃ lr_item, (GetLRGroupConfig items)[i]? = some lr_item ∧
        lr_item.group_id = item.group_id ∧ lr_item.embedding_row = item.embedding_row ∧
        lr_item.embedding_col = 1 := by
  rw [GetLRGroupConfig_eq_map]
  refine ⟨by simp, ?_⟩
  intro i item hi
  exact ⟨lrItem item, by rw [List.getElem?_map, hi]; rfl, rfl, rfl, rfl⟩

/-- Witness for C10: the second item `{4, 5, 6}` becomes `{4, 5, 1}`. -/
theorem GetLRGroupConfig_spec_witness :
    ∃ lr_item, (GetLRGroupConfig [⟨1, 2, 3⟩, ⟨4, 5, 6⟩])[1]? = some lr_item ∧
      lr_item.group_id = 4 ∧ lr_item.embedding_row = 5 ∧ lr_item.embedding_col = 1 :=
  (GetLRGroupConfig_spec [⟨1, 2, 3⟩, ⟨4, 5, 6⟩]).2 1 ⟨4, 5, 6⟩ rfl

/-! ## Lemmas on the class factory -/

theorem mapFind_append {T : Type} (m : List (String × creator T)) (key name : String)
    (c : creator T) :
    mapFind (m ++ [(key, c)]) name
      = match mapFind m name with
        | some c1 => some c1
        | none => if key = name then some c else none := by
  induction m with
  | nil => simp [mapFind]
  | cons e rest ih =>
    obtain ⟨k, c1⟩ := e
    by_cases h : k = name
    · simp [mapFind, h]
    · simp [mapFind, h, ih]

theorem mapFind_isSome_iff {T : Type} (m : List (String × creator T)) (name : String) :
    (∃ c, mapFind m name = some c) ↔ name ∈ m.map Prod.fst := by
  induction m with
  | nil => simp [mapFind]
  | cons e rest ih =>
    obtain ⟨k, c1⟩ := e
    by_cases h : k = name
    · simp [mapFind, h]
    · have h2 : ¬ name = k := fun h3 => h h3.symm
      simp [mapFind, h, h2, ih]

theorem mem_setEmplace (s : List String) (name n : String) :
    n ∈ setEmplace s name ↔ n = name ∨ n ∈ s := by
  induction s with
  | nil => simp [setEmplace]
  | cons x xs ih =>
    simp only [setEmplace]
    by_cases h1 : x = name
    · subst h1
      simp only [if_true, List.mem_cons]
      tauto
    · by_cases h2 : stringLess name.data x.data = true
      · simp only [h1, if_false, h2, if_true, List.mem_cons]
      · simp only [h1, if_false, h2, List.mem_cons, ih, Bool.false_eq_true]
        tauto

theorem ClassFactory.Register_eq_none_iff {T : Type} (f : ClassFactory T) (name : String)
    (c : creator T) : f.Register name c = none ↔ ∃ c1, mapFind f.map_ name = some c1 := by
  unfold ClassFactory.Register mapCount
  cases h : mapFind f.map_ name with
  | none => simp
  | some c1 => simp

theorem ClassFactory.Register_some {T : Type} (f f1 : ClassFactory T) (name : String)
    (c : creator T) (h : f.Register name c = some f1) :
    mapFind f.map_ name = none ∧
    f1 = { map_ := f.map_ ++ [(name, c)], set_ := setEmplace f.set_ name } := by
  unfold ClassFactory.Register mapCount at h
  cases hf : mapFind f.map_ name with
  | none =>
    simp only [hf, gt_iff_lt, lt_self_iff_false, if_false, Option.some.injEq] at h
    refine ⟨rfl, ?_⟩
    rw [← h]
    simp [mapEmplace, hf]
  | some c1 => simp [hf] at h

theorem ClassFactory.Register_find {T : Type} (f f1 : ClassFactory T) (name n : String)
    (c : creator T) (h : f.Register name c = some f1) :
    mapFind f1.map_ n
      = match mapFind f.map_ n with
        | some c1 => some c1
        | none => if name = n then some c else none := by
  obtain ⟨-, h2⟩ := f.Register_some f1 name c h
  rw [h2]
  exact mapFind_append _ _ _ _

theorem ClassFactory.Register_inStep {T : Type} (f f1 : ClassFactory T) (name : String)
    (c : creator T) (hin : f.InStep) (h : f.Register name c = some f1) : f1.InStep := by
  intro n
  rw [f.Register_find f1 name n c h]
  obtain ⟨-, h2⟩ := f.Register_some f1 name c h
  have hset : f1.set_ = setEmplace f.set_ name := by rw [h2]
  rw [hset, mem_setEmplace, hin n]
  cases hf : mapFind f.map_ n with
  | some c1 => simp
  | none =>
    by_cases hn : name = n
    · simp [hn]
    · have hn2 : ¬ n = name := fun h3 => hn h3.symm
      simp [hn, hn2]

theorem ClassFactory.registerAll_inStep {T : Type} (calls : List (String × creator T)) :
    ∀ f : ClassFactory T, f.InStep → (f.registerAll calls).InStep := by
  induction calls with
  | nil => intro f h; exact h
  | cons e rest ih =>
    obtain ⟨name, c⟩ := e
    intro f h
    simp only [ClassFactory.registerAll]
    cases hr : f.Register name c with
    | none => exact ih f h
    | some f1 => exact ih f1 (f.Register_inStep f1 name c h hr)

theorem ClassFactory.registerAll_find {T : Type} (calls : List (String × creator T))
    (n : String) :
    ∀ f : ClassFactory T,
      mapFind (f.registerAll calls).map_ n
        = match mapFind f.map_ n with
          | some c1 => some c1
          | none => firstRegistered calls n := by
  induction calls with
  | nil =>
    intro f
    simp only [ClassFactory.registerAll, firstRegistered]
    cases mapFind f.map_ n <;> rfl
  | cons e rest ih =>
    obtain ⟨name, c⟩ := e
    intro f
    simp only [ClassFactory.registerAll, firstRegistered]
    cases hr : f.Register name c with
    | none =>
      obtain ⟨c1, hc1⟩ := (f.Register_eq_none_iff name c).mp hr
      simp only [ih f]
      cases hf : mapFind f.map_ n with
      | some c2 => rfl
      | none =>
        have hne : ¬ name = n := by
          intro h
          rw [h, hf] at hc1
          exact absurd hc1 (by simp)
        simp [hne]
    | some f1 =>
      simp only [ih f1, f.Register_find f1 name n c hr]
      cases hf : mapFind f.map_ n with
      | some c2 => rfl
      | none =>
        by_cases hn : name = n
        · simp [hn]
        · simp [hn]

theorem firstRegistered_split {T : Type} (pre post : List (String × creator T))
    (name : String) (c : creator T) (hpre : ∀ e ∈ pre, e.1 ≠ name) :
    firstRegistered (pre ++ (name, c) :: post) name = some c := by
  induction pre with
  | nil => simp [firstRegistered]
  | cons e rest ih =>
    obtain ⟨k, c1⟩ := e
    have hk : ¬ k = name := hpre (k, c1) (List.mem_cons_self _ _)
    simp only [List.cons_append, firstRegistered, hk, if_false]
    exact ih (fun e he => hpre e (List.mem_cons_of_mem _ he))

theorem firstRegistered_none {T : Type} (calls : List (String × creator T)) (name : String)
    (h : ∀ e ∈ calls, e.1 ≠ name) : firstRegistered calls name = none := by
  induction calls with
  | nil => rfl
  | cons e rest ih =>
    obtain ⟨k, c1⟩ := e
    have hk : ¬ k = name := h (k, c1) (List.mem_cons_self _ _)
    simp only [firstRegistered, hk, if_false]
    exact ih (fun e he => h e (List.mem_cons_of_mem _ he))

theorem ClassFactory.calls_registry {T : Type} (cs : List (FactoryCall T)) :
    ∀ (f : ClassFactory T) (heap : List T),
      (f.calls heap cs).1 = f.registerAll (registerCalls cs) := by
  induction cs with
  | nil => intro f heap; rfl
  | cons c rest ih =>
    intro f heap
    cases c with
    | Register name cr =>
      simp only [ClassFactory.calls, ClassFactory.call, registerCalls,
        ClassFactory.registerAll]
      cases hr : f.Register name cr with
      | none => exact ih f heap
      | some f1 => exact ih f1 heap
    | New name =>
      simp only [ClassFactory.calls, ClassFactory.call, registerCalls]
      exact ih f _

theorem ClassFactory.GetInstance_inStep (T : Type) : (ClassFactory.GetInstance T).InStep := by
  intro name
  simp [ClassFactory.GetInstance, mapFind]

/-- C13: after every sequence of `Register` calls on the factory, `New(name)`
is the call of the creator that the first `Register` call with that name
passed, which for a creator of `ClassFactoryRegister<T, U>` returns the fresh
address of a default-constructed `U`; when no call registered the name, `New`
returns `nullptr` and leaves the heap as it is, so no creator ran; and in
every sequence of `Register` and `New` calls the registry is the one that the
`Register` calls alone produce. -/
theorem ClassFactory_New_spec (T : Type) (calls : List (String × creator T)) (name : String)
    (heap : List T) :
    (∀ (pre post : List (String × creator T)) (c : creator T),
      calls = pre ++ (name, c) :: post → (∀ e ∈ pre, e.1 ≠ name) →
      ((ClassFactory.GetInstance T).registerAll calls).New name heap = c heap) ∧
    (∀ (pre post : List (String × creator T)) (u : T),
      calls = pre ++ (name, ClassFactoryRegister.Create u) :: post →
      (∀ e ∈ pre, e.1 ≠ name) →
      ((ClassFactory.GetInstance T).registerAll calls).New name heap
        = (some heap.length, heap ++ [u])) ∧
    ((∀ e ∈ calls, e.1 ≠ name) →
      ((ClassFactory.GetInstance T).registerAll calls).New name heap = (none, heap)) ∧
    (∀ (f : ClassFactory T) (cs : List (FactoryCall T)),
      (f.calls heap cs).1 = f.registerAll (registerCalls cs)) := by
  have hfind := ClassFactory.registerAll_find calls name (ClassFactory.GetInstance T)
  have hempty : mapFind (ClassFactory.GetInstance T).map_ name = none := rfl
  rw [hempty] at hfind
  simp only at hfind
  refine ⟨?_, ?_, ?_, ?_⟩
  · intro pre post c hcalls hpre
    rw [hcalls, firstRegistered_split pre post name c hpre, ← hcalls] at hfind
    simp [ClassFactory.New, hfind]
  · intro pre post u hcalls hpre
    rw [hcalls, firstRegistered_split pre post name _ hpre, ← hcalls] at hfind
    simp [ClassFactory.New, hfind, ClassFactoryRegister.Create]
  · intro hnone
    rw [firstRegistered_none calls name hnone] at hfind
    simp [ClassFactory.New, hfind]
  · intro f cs
    exact ClassFactory.calls_registry cs f heap

/-- Witness for C13: with `relu` registered twice and `tanh` once, `New` on
`relu` makes the object of the first registration, and `New` on `gelu`
returns `nullptr` on an unchanged heap. -/
theorem ClassFactory_New_spec_witness :
    ((ClassFactory.GetInstance String).registerAll
        [("relu", ClassFactoryRegister.Create "Relu"),
         ("tanh", ClassFactoryRegister.Create "Tanh"),
         ("relu", ClassFactoryRegister.Create "Other")]).New "relu" ["x"]
      = (some 1, ["x", "Relu"]) ∧
    ((ClassFactory.GetInstance String).registerAll
        [("relu", ClassFactoryRegister.Create "Relu"),
         ("tanh", ClassFactoryRegister.Create "Tanh"),
         ("relu", ClassFactoryRegister.Create "Other")]).New "gelu" ["x"]
      = (none, ["x"]) :=
  ⟨(ClassFactory_New_spec String _ "relu" ["x"]).2.1 []
      [("tanh", ClassFactoryRegister.Create "Tanh"),
       ("relu", ClassFactoryRegister.Create "Other")] "Relu" rfl (by simp),
    (ClassFactory_New_spec String _ "gelu" ["x"]).2.2.1 (by decide)⟩

/-- C14: after every sequence of `Register` calls the names of `Names()` are
exactly the keys of the map, that is the names for which `New` finds a
creator; a `Register` call with a name that is registered already throws
(`none`), and the factory after the call, its map with the first creator and
its names, is the factory before the call. -/
theorem ClassFactory_in_step (T : Type) (calls : List (String × creator T)) :
    (∀ name, name ∈ ((ClassFactory.GetInstance T).registerAll calls).Names ↔
      name ∈ ((ClassFactory.GetInstance T).registerAll calls).map_.map Prod.fst) ∧
    (∀ name, name ∈ ((ClassFactory.GetInstance T).registerAll calls).Names ↔
      ∃ c, mapFind ((ClassFactory.GetInstance T).registerAll calls).map_ name = some c) ∧
    (∀ (name : String) (c : creator T) (heap : List T),
      name ∈ ((ClassFactory.GetInstance T).registerAll calls).Names →
      ((ClassFactory.GetInstance T).registerAll calls).Register name c = none ∧
      (((ClassFactory.GetInstance T).registerAll calls).call heap
          (FactoryCall.Register name c)).1
        = (ClassFactory.GetInstance T).registerAll calls ∧
      (ClassFactory.GetInstance T).registerAll (calls ++ [(name, c)])
        = (ClassFactory.GetInstance T).registerAll calls ∧
      mapFind ((ClassFactory.GetInstance T).registerAll (calls ++ [(name, c)])).map_ name
        = firstRegistered calls name) := by
  have hin := ClassFactory.registerAll_inStep calls _ (ClassFactory.GetInstance_inStep T)
  refine ⟨?_, ?_, ?_⟩
  · intro name
    rw [← mapFind_isSome_iff]
    exact hin name
  · exact hin
  · intro name c heap hmem
    have hnone : ((ClassFactory.GetInstance T).registerAll calls).Register name c = none :=
      (ClassFactory.Register_eq_none_iff _ name c).mpr ((hin name).mp hmem)
    have happ : ∀ (cs : List (String × creator T)) (f : ClassFactory T),
        f.registerAll (cs ++ [(name, c)])
          = match (f.registerAll cs).Register name c with
            | some f1 => f1
            | none => f.registerAll cs := by
      intro cs
      induction cs with
      | nil =>
        intro f
        simp only [List.nil_append, ClassFactory.registerAll]
      | cons e rest ih =>
        obtain ⟨k, c1⟩ := e
        intro f
        simp only [List.cons_append, ClassFactory.registerAll]
        cases f.Register k c1 with
        | none => exact ih f
        | some f1 => exact ih f1
    have hsame : (ClassFactory.GetInstance T).registerAll (calls ++ [(name, c)])
        = (ClassFactory.GetInstance T).registerAll calls := by
      rw [happ, hnone]
    refine ⟨hnone, ?_, hsame, ?_⟩
    · simp [ClassFactory.call, hnone]
    · rw [hsame, ClassFactory.registerAll_find calls name (ClassFactory.GetInstance T)]
      rfl

/-- Witness for C14: after `relu`, `tanh` the names are these two, and a second
`Register` of `relu` throws. -/
theorem ClassFactory_in_step_witness :
    ((ClassFactory.GetInstance String).registerAll
        [("relu", ClassFactoryRegister.Create "Relu"),
         ("tanh", ClassFactoryRegister.Create "Tanh")]).Names = ["relu", "tanh"] ∧
    ((ClassFactory.GetInstance String).registerAll
        [("relu", ClassFactoryRegister.Create "Relu"),
         ("tanh", ClassFactoryRegister.Create "Tanh")]).Register "relu"
        (ClassFactoryRegister.Create "Other") = none :=
  ⟨by decide,
   ((ClassFactory_in_step String
      [("relu", ClassFactoryRegister.Create "Relu"),
       ("tanh", ClassFactoryRegister.Create "Tanh")]).2.2 "relu"
      (ClassFactoryRegister.Create "Other") [] (by decide)).1⟩

/-! ## Lemmas on `Split` -/

theorem wrapInt32_eq (x : Int) (h : isInt32 x) : wrapInt32 x = x := by
  unfold isInt32 INT_MIN INT_MAX at h
  unfold wrapInt32
  omega

namespace graph_module_creator

theorem take_succ_set {α : Type} (l : List α) (i : Nat) (v : α) (h : i < l.length) :
    (l.set i v).take (i + 1) = l.take i ++ [v] := by
  rw [List.take_succ, List.getElem?_set_self (by simpa using h)]
  have h2 : (l.set i v).take i = l.take i := by
    apply List.ext_getElem?
    intro j
    rw [List.getElem?_take, List.getElem?_take]
    split
    · rw [List.getElem?_set_ne (by omega)]
    · rfl
  rw [h2]
  rfl

theorem SplitLoop_eq (X : GraphNode) (axis : Int) (name : Nat → String)
    (split_dim : Nat → Int) (n : Int) :
    ∀ (fuel i : Nat) (e : Int) (nodes : List (Option GraphNode)),
      n = ((i + fuel : Nat) : Int) → nodes.length = i + fuel → NoWrap split_dim fuel i e →
      SplitLoop X axis name split_dim n fuel i e nodes
        = nodes.take i ++ rangeNodes X axis name split_dim fuel i e := by
  intro fuel
  induction fuel with
  | zero =>
    intro i e nodes _ hlen _
    simp only [SplitLoop, rangeNodes, List.append_nil]
    rw [List.take_of_length_le (by omega)]
  | succ fuel ih =>
    intro i e nodes hn hlen hnw
    obtain ⟨hw, hnw2⟩ := hnw
    have hlt : (i : Int) < n := by rw [hn]; push_cast; omega
    simp only [SplitLoop, hlt, if_true, wrapInt32_eq _ hw]
    rw [ih (i + 1) _ _ (by rw [hn]; push_cast; omega) (by simp; omega) hnw2,
      take_succ_set nodes i _ (by omega)]
    simp [rangeNodes]

theorem rangeNodes_length (X : GraphNode) (axis : Int) (name : Nat → String)
    (split_dim : Nat → Int) :
    ∀ (count i : Nat) (b : Int), (rangeNodes X axis name split_dim count i b).length = count := by
  intro count
  induction count with
  | zero => intro i b; rfl
  | succ count ih => intro i b; simp [rangeNodes, ih]

theorem rangeNodes_getElem (X : GraphNode) (axis : Int) (name : Nat → String)
    (split_dim : Nat → Int) :
    ∀ (count i : Nat) (b : Int) (j : Nat), j < count →
      (rangeNodes X axis name split_dim count i b)[j]?
        = some (some (GraphNode.SubscriptRange (name (i + j)) X axis
            (b + sumFrom split_dim i j) (b + sumFrom split_dim i (j + 1)))) := by
  intro count
  induction count with
  | zero => intro i b j hj; omega
  | succ count ih =>
    intro i b j hj
    cases j with
    | zero => simp [rangeNodes, sumFrom]
    | succ j =>
      simp only [rangeNodes, List.getElem?_cons_succ]
      rw [ih (i + 1) _ j (by omega)]
      have h1 : i + 1 + j = i + (j + 1) := by omega
      have h2 : b + split_dim i + sumFrom split_dim (i + 1) j
          = b + sumFrom split_dim i (j + 1) := by
        simp only [sumFrom]; ring
      have h3 : b + split_dim i + sumFrom split_dim (i + 1) (j + 1)
          = b + sumFrom split_dim i (j + 1 + 1) := by
        rw [sumFrom.eq_2 split_dim i (j + 1)]; ring
      rw [h1, h2, h3]

theorem sumFrom_succ (split_dim : Nat → Int) :
    ∀ (count i : Nat), sumFrom split_dim i (count + 1)
      = sumFrom split_dim i count + split_dim (i + count) := by
  intro count
  induction count with
  | zero => intro i; simp [sumFrom]
  | succ count ih =>
    intro i
    rw [sumFrom.eq_2 split_dim i (count + 1), ih (i + 1), sumFrom.eq_2 split_dim i count]
    have h : i + 1 + count = i + (count + 1) := by omega
    rw [h]
    ring

theorem NoWrap_of_bounds (split_dim : Nat → Int) :
    ∀ (count i : Nat) (b : Int),
      (∀ j, j < count → isInt32 (b + sumFrom split_dim i (j + 1))) →
      NoWrap split_dim count i b := by
  intro count
  induction count with
  | zero => intro i b _; trivial
  | succ count ih =>
    intro i b h
    refine ⟨?_, ih (i + 1) _ ?_⟩
    · have := h 0 (by omega)
      simpa [sumFrom] using this
    · intro j hj
      have := h (j + 1) (by omega)
      rw [sumFrom.eq_2 split_dim i (j + 1)] at this
      rw [add_assoc]
      exact this

theorem sumFrom_const (d : Int) : ∀ (count i : Nat), sumFrom (fun _ => d) i count = count * d := by
  intro count
  induction count with
  | zero => intro i; simp [sumFrom]
  | succ count ih =>
    intro i
    rw [sumFrom.eq_2, ih]
    push_cast
    ring

theorem sumFrom_getD (split_dims : List Int) :
    ∀ (count : Nat), sumFrom (fun i => split_dims.getD i 0) 0 count
      = sumBefore split_dims count := by
  intro count
  induction count with
  | zero => simp [sumFrom, sumBefore]
  | succ count ih =>
    rw [sumFrom_succ, ih]
    simp only [sumBefore, Nat.zero_add, List.take_succ, List.sum_append]
    cases h : split_dims[count]? with
    | none => simp [h]
    | some v => simp [h]

end graph_module_creator

namespace graph_module_creator

theorem totalSplitDim_exact :
    ∀ (split_dims : List Int) (t : Int),
      (∀ j, j < split_dims.length → isInt32 (t + sumBefore split_dims (j + 1))) →
      totalSplitDim t split_dims = t + split_dims.sum := by
  intro split_dims
  induction split_dims with
  | nil => intro t _; simp [totalSplitDim]
  | cons d rest ih =>
    intro t h
    have h0 := h 0 (by simp)
    simp only [sumBefore, Nat.zero_add, List.take_succ_cons, List.take_zero, List.sum_cons,
      List.sum_nil, add_zero] at h0
    simp only [totalSplitDim, wrapInt32_eq _ h0, List.sum_cons]
    rw [ih (t + d)]
    · ring
    · intro j hj
      have := h (j + 1) (by simp; omega)
      simp only [sumBefore, List.take_succ_cons, List.sum_cons] at this ⊢
      rw [add_assoc]
      exact this

theorem rangeNodes_congr (X : GraphNode) (axis : Int) (name : Nat → String)
    (f g : Nat → Int) :
    ∀ (count i : Nat) (b : Int), (∀ j, i ≤ j → j < i + count → f j = g j) →
      rangeNodes X axis name f count i b = rangeNodes X axis name g count i b := by
  intro count
  induction count with
  | zero => intro i b _; rfl
  | succ count ih =>
    intro i b h
    simp only [rangeNodes]
    rw [h i (le_refl _) (by omega), ih (i + 1) _ (fun j h1 h2 => h j (by omega) (by omega))]

theorem SplitByDims_eq (shape_X : List Int) (X : GraphNode) (axis : Int)
    (name : Nat → String) (split_dims : List Int)
    (hlen : (split_dims.length : Int) ≤ INT_MAX)
    (hexact : ∀ j, j < split_dims.length → isInt32 (sumBefore split_dims (j + 1)))
    (hsum : split_dims.sum = dimAt shape_X axis) :
    SplitByDims shape_X X axis name split_dims
      = some (rangeNodes X axis name (fun i => split_dims.getD i 0) split_dims.length 0 0) := by
  have hcast : wrapInt32 split_dims.length = split_dims.length := by
    apply wrapInt32_eq
    unfold isInt32 INT_MIN
    exact ⟨by omega, hlen⟩
  have htotal : totalSplitDim 0 split_dims = split_dims.sum := by
    rw [totalSplitDim_exact split_dims 0 (by simpa using hexact)]
    simp
  have hnw : NoWrap (fun i => split_dims.getD i 0) split_dims.length 0 0 := by
    apply NoWrap_of_bounds
    intro j hj
    rw [sumFrom_getD, zero_add]
    exact hexact j hj
  unfold SplitByDims
  rw [htotal, hcast, hsum]
  simp only [ne_eq, not_true_eq_false, if_false, Int.toNat_ofNat]
  have hneg : ¬ ((split_dims.length : Int) < 0) := by omega
  simp only [hneg, if_false]
  rw [SplitLoop_eq X axis name _ _ split_dims.length 0 0 _ (by simp) (by simp) hnw]
  simp

theorem mul_tdiv_of_tmod (k n : Int) (hmod : Int.tmod k n = 0) : n * Int.tdiv k n = k := by
  have := Int.tmod_add_tdiv k n
  rw [hmod] at this
  simpa using this

theorem isInt32_mul_tdiv (k n : Int) (hmod : Int.tmod k n = 0) (hk : isInt32 k)
    (j : Nat) (hj : (j : Int) ≤ n) : isInt32 (j * Int.tdiv k n) := by
  have hmul := mul_tdiv_of_tmod k n hmod
  unfold isInt32 INT_MIN INT_MAX at hk ⊢
  have hj0 : (0 : Int) ≤ j := Int.ofNat_nonneg j
  rcases le_or_lt 0 (Int.tdiv k n) with hd | hd
  · constructor
    · have : 0 ≤ (j : Int) * Int.tdiv k n := mul_nonneg hj0 hd
      omega
    · have : (j : Int) * Int.tdiv k n ≤ n * Int.tdiv k n :=
        mul_le_mul_of_nonneg_right hj hd
      omega
  · constructor
    · have : n * Int.tdiv k n ≤ (j : Int) * Int.tdiv k n :=
        mul_le_mul_of_nonpos_right hj (le_of_lt hd)
      omega
    · have : (j : Int) * Int.tdiv k n ≤ 0 := mul_nonpos_of_nonneg_of_nonpos hj0 (le_of_lt hd)
      omega

theorem SplitByCount_eq (shape_X : List Int) (X : GraphNode) (axis : Int)
    (name : Nat → String) (n : Int) (hn : 1 ≤ n)
    (hmod : Int.tmod (dimAt shape_X axis) n = 0) (hk : isInt32 (dimAt shape_X axis)) :
    SplitByCount shape_X X axis name n
      = some (rangeNodes X axis name (fun _ => Int.tdiv (dimAt shape_X axis) n) n.toNat 0 0) := by
  have hnw : NoWrap (fun _ => Int.tdiv (dimAt shape_X axis) n) n.toNat 0 0 := by
    apply NoWrap_of_bounds
    intro j hj
    rw [sumFrom_const, zero_add]
    exact isInt32_mul_tdiv _ n hmod hk (j + 1) (by omega)
  unfold SplitByCount
  have h0 : ¬ n = 0 := by omega
  have hneg : ¬ n < 0 := by omega
  simp only [h0, if_false, hmod, ne_eq, not_true_eq_false, hneg]
  rw [SplitLoop_eq X axis name _ n n.toNat 0 0 _ (by simp; omega) (by simp) hnw]
  simp

theorem sumBefore_replicate (d : Int) (N j : Nat) (hj : j ≤ N) :
    sumBefore (List.replicate N d) j = j * d := by
  simp only [sumBefore, List.take_replicate, List.sum_replicate, min_eq_left hj, nsmul_eq_mul]

end graph_module_creator

namespace graph_module_creator

theorem sumBefore_bounds (split_dims : List Int) (hpos : ∀ d ∈ split_dims, 0 ≤ d) (j : Nat) :
    0 ≤ sumBefore split_dims j ∧ sumBefore split_dims j ≤ split_dims.sum := by
  have h1 : 0 ≤ (split_dims.take j).sum :=
    List.sum_nonneg (fun d hd => hpos d (List.mem_of_mem_take hd))
  have h2 : 0 ≤ (split_dims.drop j).sum :=
    List.sum_nonneg (fun d hd => hpos d (List.mem_of_mem_drop hd))
  have h3 := List.sum_take_add_sum_drop split_dims j
  unfold sumBefore
  omega

theorem sumBefore_length (split_dims : List Int) :
    sumBefore split_dims split_dims.length = split_dims.sum := by
  simp [sumBefore]

/-- The ranges of `Split` where no `int` addition overflows.  With `k` the size
of the axis that `real_axis` returns, a 32-bit value: for an `int` `n >= 1` with
`k % n == 0` both overloads taking `n` return `n` `SubscriptRange` nodes, the
`i`-th over the range from `i * (k / n)` to `(i + 1) * (k / n)`, with
`n * (k / n) = k`, and the result is that of the overload taking `n` copies of
`k / n`; for non-negative `split_dims` of sum `k`, fewer than `2^31` of them,
both overloads taking `split_dims` return one node per entry, the `i`-th over
the range from the sum of the first `i` entries to the sum of the first
`i + 1`; the named overloads give the `i`-th node the name `name` followed by
the decimal digits of `i`; when `k % n != 0`, or when the `int` total of
`split_dims` differs from `k`, the call does not return and no node is built. -/
theorem Split_partition (shape : GraphNode → List Int) (name : String) (X : GraphNode)
    (axis a : Int) (hax : real_axis (shape X) axis = some a)
    (hk : isInt32 (dimAt (shape X) a)) :
    (∀ n : Int, 1 ≤ n → n ≤ INT_MAX → Int.tmod (dimAt (shape X) a) n = 0 →
      ∃ nodes named, Split_n shape X axis n = some nodes ∧
        Split_name_n shape name X axis n = some named ∧
        nodes.length = n.toNat ∧ named.length = n.toNat ∧
        (∀ i : Nat, (i : Int) < n →
          nodes[i]? = some (some (GraphNode.SubscriptRange "" X a
            (i * Int.tdiv (dimAt (shape X) a) n) ((i + 1) * Int.tdiv (dimAt (shape X) a) n))) ∧
          named[i]? = some (some (GraphNode.SubscriptRange (name ++ toString i) X a
            (i * Int.tdiv (dimAt (shape X) a) n)
            ((i + 1) * Int.tdiv (dimAt (shape X) a) n)))) ∧
        n * Int.tdiv (dimAt (shape X) a) n = dimAt (shape X) a ∧
        Split_n shape X axis n
          = Split_dims shape X axis
              (List.replicate n.toNat (Int.tdiv (dimAt (shape X) a) n))) ∧
    (∀ split_dims : List Int, (∀ d ∈ split_dims, 0 ≤ d) →
      split_dims.sum = dimAt (shape X) a → (split_dims.length : Int) ≤ INT_MAX →
      ∃ nodes named, Split_dims shape X axis split_dims = some nodes ∧
        Split_name_dims shape name X axis split_dims = some named ∧
        nodes.length = split_dims.length ∧ named.length = split_dims.length ∧
        (∀ i : Nat, i < split_dims.length →
          nodes[i]? = some (some (GraphNode.SubscriptRange "" X a
            (sumBefore split_dims i) (sumBefore split_dims (i + 1)))) ∧
          named[i]? = some (some (GraphNode.SubscriptRange (name ++ toString i) X a
            (sumBefore split_dims i) (sumBefore split_dims (i + 1))))) ∧
        sumBefore split_dims 0 = 0 ∧
        sumBefore split_dims split_dims.length = dimAt (shape X) a) ∧
    (∀ n : Int, n ≠ 0 → Int.tmod (dimAt (shape X) a) n ≠ 0 →
      Split_n shape X axis n = none ∧ Split_name_n shape name X axis n = none) ∧
    (∀ split_dims : List Int, totalSplitDim 0 split_dims ≠ dimAt (shape X) a →
      Split_dims shape X axis split_dims = none ∧
      Split_name_dims shape name X axis split_dims = none) ∧
    (∀ split_dims : List Int, (∀ d ∈ split_dims, 0 ≤ d) → split_dims.sum ≤ INT_MAX →
      split_dims.sum ≠ dimAt (shape X) a →
      Split_dims shape X axis split_dims = none ∧
      Split_name_dims shape name X axis split_dims = none) := by
  have hexactPos : ∀ split_dims : List Int, (∀ d ∈ split_dims, 0 ≤ d) →
      split_dims.sum ≤ INT_MAX →
      ∀ j, j < split_dims.length → isInt32 (sumBefore split_dims (j + 1)) := by
    intro split_dims hpos hle j _
    have hb := sumBefore_bounds split_dims hpos (j + 1)
    unfold isInt32 INT_MIN
    unfold INT_MAX at hle ⊢
    omega
  refine ⟨?_, ?_, ?_, ?_, ?_⟩
  · intro n hn hmax hmod
    have hcount := fun nm => SplitByCount_eq (shape X) X a nm n hn hmod hk
    have hmul := mul_tdiv_of_tmod _ n hmod
    refine ⟨_, _, by simp only [Split_n, hax]; exact hcount _,
      by simp only [Split_name_n, hax]; exact hcount _,
      rangeNodes_length _ _ _ _ _ _ _, rangeNodes_length _ _ _ _ _ _ _, ?_, hmul, ?_⟩
    · intro i hi
      have hi2 : i < n.toNat := by omega
      constructor
      · rw [rangeNodes_getElem _ _ _ _ _ _ _ _ hi2, sumFrom_const, sumFrom_const]
        push_cast
        simp
      · rw [rangeNodes_getElem _ _ _ _ _ _ _ _ hi2, sumFrom_const, sumFrom_const]
        push_cast
        simp
    · simp only [Split_n, Split_dims, hax]
      rw [hcount, SplitByDims_eq (shape X) X a _ _ (by simp; omega)]
      · simp only [List.length_replicate]
        congr 1
        apply rangeNodes_congr
        intro j _ hj
        simp only [List.getD_eq_getElem?_getD]
        rw [List.getElem?_replicate]
        simp [show j < n.toNat by omega]
      · intro j hj
        simp only [List.length_replicate] at hj
        rw [sumBefore_replicate _ _ _ (by omega)]
        exact isInt32_mul_tdiv _ n hmod hk (j + 1) (by omega)
      · simp only [List.sum_replicate, nsmul_eq_mul]
        have hcast : ((n.toNat : Nat) : Int) = n := Int.toNat_of_nonneg (by omega)
        rw [hcast]
        exact hmul
  · intro split_dims hpos hsum hlen
    have hle : split_dims.sum ≤ INT_MAX := by
      rw [hsum]; exact hk.2
    have hdims := fun nm => SplitByDims_eq (shape X) X a nm split_dims hlen
      (hexactPos split_dims hpos hle) hsum
    refine ⟨_, _, by simp only [Split_dims, hax]; exact hdims _,
      by simp only [Split_name_dims, hax]; exact hdims _,
      rangeNodes_length _ _ _ _ _ _ _, rangeNodes_length _ _ _ _ _ _ _, ?_,
      by simp [sumBefore], by rw [sumBefore_length, hsum]⟩
    intro i hi
    constructor
    · rw [rangeNodes_getElem _ _ _ _ _ _ _ _ hi, sumFrom_getD, sumFrom_getD]
      simp
    · rw [rangeNodes_getElem _ _ _ _ _ _ _ _ hi, sumFrom_getD, sumFrom_getD]
      simp
  · intro n hn hmod
    simp [Split_n, Split_name_n, hax, SplitByCount, hn, hmod]
  · intro split_dims hne
    have hne2 : dimAt (shape X) a ≠ totalSplitDim 0 split_dims := fun h => hne h.symm
    simp [Split_dims, Split_name_dims, hax, SplitByDims, hne2]
  · intro split_dims hpos hle hne
    have htotal : totalSplitDim 0 split_dims = split_dims.sum := by
      rw [totalSplitDim_exact split_dims 0 (by simpa using hexactPos split_dims hpos hle)]
      simp
    have hne2 : dimAt (shape X) a ≠ totalSplitDim 0 split_dims := by
      rw [htotal]; exact fun h => hne h.symm
    simp [Split_dims, Split_name_dims, hax, SplitByDims, hne2]

/-- C15 evaluated where it fails: on a node of shape `(4)` and axis 0 the
entries of `split_dims = {2147483647, 2147483647, 2, 4}` sum to `4294967300`,
not to 4, and yet the call returns four `SubscriptRange` nodes, because the
`int` total wraps around to 4 and passes `DXCHECK_THROW(k == total_split_dim)`. -/
theorem Split_dims_total_overflow :
    real_axis [4] 0 = some 0 ∧ dimAt [4] 0 = 4 ∧
    ([2147483647, 2147483647, 2, 4] : List Int).sum = 4294967300 ∧
    Split_dims (fun _ => [4]) (GraphNode.InstanceNode "X" [4] 0) 0
        [2147483647, 2147483647, 2, 4]
      = some [some (GraphNode.SubscriptRange "" (GraphNode.InstanceNode "X" [4] 0) 0
                0 2147483647),
              some (GraphNode.SubscriptRange "" (GraphNode.InstanceNode "X" [4] 0) 0
                2147483647 (-2)),
              some (GraphNode.SubscriptRange "" (GraphNode.InstanceNode "X" [4] 0) 0
                (-2) 0),
              some (GraphNode.SubscriptRange "" (GraphNode.InstanceNode "X" [4] 0) 0
                0 4)] := by
  decide

end graph_module_creator

/-! ## Lemmas on `StackedFullyConnect` -/

namespace graph_module_creator

theorem layerInput_append (X : GraphNode) (layers : List Layer) (l : Layer) (i : Nat)
    (hi : i ≤ layers.length) : layerInput X (layers ++ [l]) i = layerInput X layers i := by
  cases i with
  | zero => rfl
  | succ j =>
    simp only [layerInput]
    rw [List.getElem?_append_left (by omega)]

theorem layerInput_concat (X : GraphNode) (layers : List Layer) (l : Layer) :
    layerInput X (layers ++ [l]) (layers.length + 1) = l.Z := by
  simp [layerInput]

theorem StackedFullyConnectLoop_chain (name : String) (X : GraphNode) (d : List Int)
    (activation : String) (deep_size : Int) (hsize : deep_size = (d.length : Int) - 1) :
    ∀ (fuel i : Nat) (Z : GraphNode) (layers : List Layer),
      d.length ≤ i + fuel + 1 → i + 1 ≤ d.length → layers.length = i →
      ChainUpTo name X d activation layers → Z = layerInput X layers i →
      ((StackedFullyConnectLoop name d activation deep_size fuel i Z layers).2.length + 1
          = d.length ∧
        ChainUpTo name X d activation
          (StackedFullyConnectLoop name d activation deep_size fuel i Z layers).2 ∧
        (StackedFullyConnectLoop name d activation deep_size fuel i Z layers).1
          = layerInput X (StackedFullyConnectLoop name d activation deep_size fuel i Z layers).2
              (StackedFullyConnectLoop name d activation deep_size fuel i Z layers).2.length) := by
  intro fuel
  induction fuel with
  | zero =>
    intro i Z layers hfuel hi hlen hchain hZ
    simp only [StackedFullyConnectLoop]
    exact ⟨by omega, hchain, by rw [hlen]; exact hZ⟩
  | succ fuel ih =>
    intro i Z layers hfuel hi hlen hchain hZ
    simp only [StackedFullyConnectLoop]
    by_cases hlt : (i : Int) < deep_size
    · simp only [hlt, if_true]
      apply ih (i + 1)
      · omega
      · omega
      · simp [hlen]
      · intro j l hj
        by_cases hji : j < layers.length
        · rw [List.getElem?_append_left hji] at hj
          rw [layerInput_append X layers _ j (by omega)]
          exact hchain j l hj
        · have hjeq : j = layers.length := by
            by_contra hne
            rw [List.getElem?_eq_none (by simp; omega)] at hj
            exact absurd hj (by simp)
          subst hjeq
          rw [List.getElem?_concat_length] at hj
          simp only [Option.some.injEq] at hj
          subst hj
          rw [layerInput_append X layers _ layers.length (le_refl _)]
          simp only [hlen, ← hZ, true_and]
          split
          · exact Or.inl rfl
          · exact Or.inr rfl
      · rw [← hlen, layerInput_concat]
    · simp only [hlt, if_false]
      exact ⟨by omega, hchain, by rw [hlen]; exact hZ⟩

theorem stackedDims_eq (r m : Int) (deep_dims : List Int) (hne : deep_dims ≠ []) :
    stackedDims [r, m] deep_dims
      = if deep_dims.head? = some m then deep_dims else m :: deep_dims := by
  cases deep_dims with
  | nil => exact absurd rfl hne
  | cons a rest =>
    by_cases h : a = m
    · simp [stackedDims, h]
    · simp [stackedDims, h]

end graph_module_creator

namespace graph_module_creator

/-- C16, as stated, fails on an activation name other than the three that the
function accepts: with a rank-2 `X` and a non-empty `deep_dims` the call with
the activation `gelu` throws and builds no layer. -/
theorem StackedFullyConnect_activation_counterexample :
    ((fun _ => [8, 4]) (GraphNode.InstanceNode "X" [8, 4] 0) : List Int).length = 2 ∧
    ([4, 2] : List Int) ≠ [] ∧
    StackedFullyConnect (fun _ => [8, 4]) "fc" (GraphNode.InstanceNode "X" [8, 4] 0) [4, 2]
      "gelu" = none := by
  decide

/-- C16 (amended): for every rank-2 `X` with column count `m`, every non-empty
`deep_dims` of fewer than `2^31 - 1` entries and every activation among
`sigmoid`, `tanh` and `relu`, `StackedFullyConnect` returns and has built a
chain of `len(d) - 1` fully connected layers over `d = deep_dims` when
`deep_dims[0] == m` and `d = [m] ++ deep_dims` otherwise: layer `i` has weight
shape `(d[i], d[i+1])` and bias shape `(1, d[i+1])` and takes the output of
the layer before as input, the first layer takes `X`; `d[0] = m`, so the row
count of the first weight is `m` and the row count of every later weight is
the column count of the weight of the layer that feeds it; the returned node
is the output of the last layer; no layer is built exactly when
`deep_dims == [m]`, and then `X` itself is returned. -/
theorem StackedFullyConnect_chain (shape : GraphNode → List Int) (name : String)
    (X : GraphNode) (deep_dims : List Int) (activation : String) (r m : Int)
    (hX : shape X = [r, m]) (hne : deep_dims ≠ [])
    (hact : activation = "sigmoid" ∨ activation = "tanh" ∨ activation = "relu")
    (hlen : (deep_dims.length : Int) < INT_MAX) :
    ∃ Z layers, StackedFullyConnect shape name X deep_dims activation = some (Z, layers) ∧
      IsChain name X (if deep_dims.head? = some m then deep_dims else m :: deep_dims)
        activation layers ∧
      Z = layerInput X layers layers.length ∧
      (if deep_dims.head? = some m then deep_dims else m :: deep_dims).getD 0 0 = m ∧
      (∀ l, layers[0]? = some l →
        ∃ nm c, l.W = GraphNode.GetVariableRandXavier nm [m, c] ∧
          l.H = GraphNode.FullyConnectNode "" X l.W l.b) ∧
      (∀ i l l1, layers[i]? = some l → layers[i + 1]? = some l1 →
        ∃ nm nm1 rows c c1, l.W = GraphNode.GetVariableRandXavier nm [rows, c] ∧
          l1.W = GraphNode.GetVariableRandXavier nm1 [c, c1] ∧
          l1.H = GraphNode.FullyConnectNode "" l.Z l1.W l1.b) ∧
      (layers = [] ↔ deep_dims = [m]) ∧
      (deep_dims = [m] → Z = X ∧ layers = []) := by
  have hd := stackedDims_eq r m deep_dims hne
  have hD0 : (stackedDims [r, m] deep_dims).getD 0 0 = m := by
    rw [hd]
    cases deep_dims with
    | nil => exact absurd rfl hne
    | cons a rest =>
      by_cases h : a = m
      · simp [h]
      · simp [h]
  have hD1 : (stackedDims [r, m] deep_dims).length = 1 ↔ deep_dims = [m] := by
    rw [hd]
    cases deep_dims with
    | nil => exact absurd rfl hne
    | cons a rest =>
      by_cases h : a = m
      · simp [h]
      · simp [h]
  have hdlen : (stackedDims [r, m] deep_dims).length ≤ deep_dims.length + 1 := by
    rw [hd]; split <;> simp
  have hdpos : 1 ≤ (stackedDims [r, m] deep_dims).length := by
    rw [hd]
    cases deep_dims with
    | nil => exact absurd rfl hne
    | cons a rest => split <;> simp
  have hwrap : wrapInt32 (stackedDims [r, m] deep_dims).length
      = (stackedDims [r, m] deep_dims).length := by
    apply wrapInt32_eq
    unfold isInt32 INT_MIN
    unfold INT_MAX at hlen ⊢
    omega
  have hempty : deep_dims.isEmpty = false := by
    cases deep_dims with
    | nil => exact absurd rfl hne
    | cons a rest => rfl
  have hloop := StackedFullyConnectLoop_chain name X (stackedDims [r, m] deep_dims) activation
    ((stackedDims [r, m] deep_dims).length - 1) rfl (stackedDims [r, m] deep_dims).length 0 X []
    (by omega) (by omega) rfl (by intro i l h; simp at h) rfl
  have hcall : StackedFullyConnect shape name X deep_dims activation
      = some (StackedFullyConnectLoop name (stackedDims [r, m] deep_dims) activation
          ((stackedDims [r, m] deep_dims).length - 1)
          (stackedDims [r, m] deep_dims).length 0 X []) := by
    unfold StackedFullyConnect
    simp only [hX, List.length_cons, List.length_nil, ne_eq, not_true_eq_false, if_false,
      hempty, Bool.false_eq_true, hact, hwrap]
  rw [← hd]
  generalize StackedFullyConnectLoop name (stackedDims [r, m] deep_dims) activation
    ((stackedDims [r, m] deep_dims).length - 1)
    (stackedDims [r, m] deep_dims).length 0 X [] = res at hloop hcall
  obtain ⟨Z, layers⟩ := res
  obtain ⟨h1, h2, h3⟩ := hloop
  simp only at h1 h2 h3
  have hnil_iff : layers = [] ↔ deep_dims = [m] := by
    rw [← hD1]
    constructor
    · intro h
      rw [h] at h1
      simpa using h1.symm
    · intro h
      rw [h] at h1
      exact List.eq_nil_of_length_eq_zero (by omega)
  refine ⟨Z, layers, hcall, ⟨h1, h2⟩, h3, hD0, ?_, ?_, hnil_iff, ?_⟩
  · intro l hl
    obtain ⟨hW, -, hH, -⟩ := h2 0 l hl
    rw [hD0] at hW
    exact ⟨_, _, hW, hH⟩
  · intro i l l1 hl hl1
    obtain ⟨hW, -, -, -⟩ := h2 i l hl
    obtain ⟨hW1, -, hH1, -⟩ := h2 (i + 1) l1 hl1
    refine ⟨_, _, _, _, _, hW, hW1, ?_⟩
    rw [hH1]
    simp [layerInput, hl]
  · intro hdm
    have hnil := hnil_iff.mpr hdm
    refine ⟨?_, hnil⟩
    rw [h3, hnil]
    rfl

/-- Witness for C16 (amended): on an `X` of shape `(8, 4)` with
`deep_dims = {16, 1}` and `relu` two layers are built, with weights of shape
`(4, 16)` and `(16, 1)`; the second, ending in dimension 1, has no activation. -/
theorem StackedFullyConnect_chain_witness :
    StackedFullyConnect (fun _ => [8, 4]) "fc" (GraphNode.InstanceNode "X" [8, 4] 0) [16, 1]
        "relu"
      = some
        (GraphNode.FullyConnectNode ""
          (GraphNode.Relu ""
            (GraphNode.FullyConnectNode "" (GraphNode.InstanceNode "X" [8, 4] 0)
              (GraphNode.GetVariableRandXavier "fcW0" [4, 16])
              (GraphNode.GetVariableZeros "fcb0" [1, 16])))
          (GraphNode.GetVariableRandXavier "fcW1" [16, 1])
          (GraphNode.GetVariableZeros "fcb1" [1, 1]),
         [{ W := GraphNode.GetVariableRandXavier "fcW0" [4, 16],
            b := GraphNode.GetVariableZeros "fcb0" [1, 16],
            H := GraphNode.FullyConnectNode "" (GraphNode.InstanceNode "X" [8, 4] 0)
              (GraphNode.GetVariableRandXavier "fcW0" [4, 16])
              (GraphNode.GetVariableZeros "fcb0" [1, 16]),
            Z := GraphNode.Relu ""
              (GraphNode.FullyConnectNode "" (GraphNode.InstanceNode "X" [8, 4] 0)
                (GraphNode.GetVariableRandXavier "fcW0" [4, 16])
                (GraphNode.GetVariableZeros "fcb0" [1, 16])) },
          { W := GraphNode.GetVariableRandXavier "fcW1" [16, 1],
            b := GraphNode.GetVariableZeros "fcb1" [1, 1],
            H := GraphNode.FullyConnectNode ""
              (GraphNode.Relu ""
                (GraphNode.FullyConnectNode "" (GraphNode.InstanceNode "X" [8, 4] 0)
                  (GraphNode.GetVariableRandXavier "fcW0" [4, 16])
                  (GraphNode.GetVariableZeros "fcb0" [1, 16])))
              (GraphNode.GetVariableRandXavier "fcW1" [16, 1])
              (GraphNode.GetVariableZeros "fcb1" [1, 1]),
            Z := GraphNode.FullyConnectNode ""
              (GraphNode.Relu ""
                (GraphNode.FullyConnectNode "" (GraphNode.InstanceNode "X" [8, 4] 0)
                  (GraphNode.GetVariableRandXavier "fcW0" [4, 16])
                  (GraphNode.GetVariableZeros "fcb0" [1, 16])))
              (GraphNode.GetVariableRandXavier "fcW1" [16, 1])
              (GraphNode.GetVariableZeros "fcb1" [1, 1]) }]) ∧
    (∃ Z layers,
      StackedFullyConnect (fun _ => [8, 4]) "fc" (GraphNode.InstanceNode "X" [8, 4] 0) [4]
          "relu" = some (Z, layers) ∧ Z = GraphNode.InstanceNode "X" [8, 4] 0 ∧ layers = []) := by
  refine ⟨by decide, ?_⟩
  obtain ⟨Z, layers, h1, -, -, -, -, -, -, h8⟩ :=
    StackedFullyConnect_chain (fun _ => [8, 4]) "fc" (GraphNode.InstanceNode "X" [8, 4] 0) [4]
      "relu" 8 4 rfl (by simp) (Or.inr (Or.inr rfl)) (by decide)
  exact ⟨Z, layers, h1, (h8 rfl).1, (h8 rfl).2⟩

end graph_module_creator

/-! ## Lemmas on the traversal of `Graph.Compile` -/

theorem Graph.Topo.nodup {F : Type} {g : Graph F} {order : List Nat} (h : g.Topo order) :
    order.Nodup := by
  induction h with
  | nil => exact List.nodup_nil
  | snoc order n _ hn _ ih =>
    rw [List.nodup_append]
    exact ⟨ih, List.nodup_singleton n, by
      intro a ha hb
      rw [List.mem_singleton] at hb
      exact hn (hb ▸ ha)⟩

theorem Graph.Topo.closed {F : Type} {g : Graph F} {order : List Nat} (h : g.Topo order) :
    ∀ n ∈ order, ∀ p ∈ g.inputOf n, p ∈ order := by
  induction h with
  | nil => intro n hn; simp at hn
  | snoc order n _ _ hpre ih =>
    intro m hm p hp
    rw [List.mem_append] at hm ⊢
    rcases hm with hm | hm
    · exact Or.inl (ih m hm p hp)
    · rw [List.mem_singleton] at hm
      subst hm
      exact Or.inl (hpre p hp)

theorem Graph.Topo.reach_mem {F : Type} {g : Graph F} {order : List Nat} (h : g.Topo order)
    (n m : Nat) (hn : n ∈ order) (hreach : g.Reach n m) : m ∈ order := by
  induction hreach with
  | refl => exact hn
  | tail _ hstep ih => exact h.closed _ ih _ hstep

/-- A node of the order is preceded by all of its predecessors. -/
theorem Graph.Topo.before {F : Type} {g : Graph F} {order : List Nat} (h : g.Topo order) :
    ∀ (l1 : List Nat) (n : Nat) (l2 : List Nat), order = l1 ++ n :: l2 →
      ∀ p ∈ g.inputOf n, p ∈ l1 := by
  induction h with
  | nil => intro l1 n l2 h; simp at h
  | snoc order n0 _ _ hpre ih =>
    intro l1 n l2 heq p hp
    rcases List.eq_nil_or_concat l2 with hl2 | ⟨l3, x, hl2⟩
    · subst hl2
      have h1 := List.append_inj' heq (by simp)
      obtain ⟨h2, h3⟩ := h1
      simp only [List.cons.injEq, and_true] at h3
      subst h2 h3
      exact hpre p hp
    · subst hl2
      have heq2 : order ++ [n0] = (l1 ++ n :: l3) ++ [x] := by
        rw [heq]; simp
      have h1 := List.append_inj' heq2 (by simp)
      exact ih l1 n l3 h1.1 p hp

theorem visitEach_spec {F : Type} (g : Graph F)
    (visit1 : Nat → List Nat → Except CompileError (List Nat)) :
    ∀ (ps : List Nat),
      (∀ p ∈ ps, ∀ order, g.Topo order →
        ∃ ext, visit1 p order = Except.ok (order ++ ext) ∧ g.Topo (order ++ ext) ∧
          p ∈ order ++ ext ∧ ∀ m ∈ ext, g.Reach p m) →
      ∀ order, g.Topo order →
        ∃ ext, visitEach visit1 ps order = Except.ok (order ++ ext) ∧
          g.Topo (order ++ ext) ∧ (∀ p ∈ ps, p ∈ order ++ ext) ∧
          ∀ m ∈ ext, ∃ p ∈ ps, g.Reach p m := by
  intro ps
  induction ps with
  | nil =>
    intro _ order htopo
    exact ⟨[], by simp [visitEach], by simpa using htopo, by simp, by simp⟩
  | cons p ps ih =>
    intro hP order htopo
    obtain ⟨ext1, h1, h2, h3, h4⟩ := hP p (List.mem_cons_self _ _) order htopo
    obtain ⟨ext2, k1, k2, k3, k4⟩ :=
      ih (fun q hq => hP q (List.mem_cons_of_mem _ hq)) (order ++ ext1) h2
    refine ⟨ext1 ++ ext2, ?_, ?_, ?_, ?_⟩
    · simp only [visitEach, h1, k1, List.append_assoc]
    · rw [← List.append_assoc]; exact k2
    · intro q hq
      rw [← List.append_assoc]
      rcases List.mem_cons.mp hq with rfl | hq
      · exact List.mem_append_left _ h3
      · exact k3 q hq
    · intro m hm
      rcases List.mem_append.mp hm with hm | hm
      · exact ⟨p, List.mem_cons_self _ _, h4 m hm⟩
      · obtain ⟨q, hq, hr⟩ := k4 m hm
        exact ⟨q, List.mem_cons_of_mem _ hq, hr⟩

theorem Graph.visit_spec {F : Type} (g : Graph F) (rank : Nat → Nat)
    (hrank : ∀ n p, p ∈ g.inputOf n → p < g.nodes.length → rank p < rank n)
    (hac : g.Acyclic) :
    ∀ (depth n : Nat) (order : List Nat), rank n < depth →
      (∀ m, g.Reach n m → m < g.nodes.length) → g.Topo order →
      ∃ ext, g.visit depth n order = Except.ok (order ++ ext) ∧ g.Topo (order ++ ext) ∧
        n ∈ order ++ ext ∧ ∀ m ∈ ext, g.Reach n m := by
  intro depth
  induction depth with
  | zero => intro n order h; omega
  | succ depth ih =>
    intro n order hdepth hreg htopo
    by_cases hmem : n ∈ order
    · have hc : order.contains n = true := by simpa using hmem
      exact ⟨[], by simp only [Graph.visit, hc, if_true, List.append_nil],
        by simpa using htopo, by simpa using hmem, by simp⟩
    · have hc : order.contains n = false := by simpa using hmem
      have hn : ¬ g.nodes.length ≤ n := by
        have := hreg n Relation.ReflTransGen.refl
        omega
      have hP : ∀ p ∈ g.inputOf n, ∀ order1, g.Topo order1 →
          ∃ ext, g.visit depth p order1 = Except.ok (order1 ++ ext) ∧
            g.Topo (order1 ++ ext) ∧ p ∈ order1 ++ ext ∧ ∀ m ∈ ext, g.Reach p m := by
        intro p hp order1 htopo1
        have hstep : g.Reach n p := Relation.ReflTransGen.single hp
        have hplt : p < g.nodes.length := hreg p hstep
        have hr := hrank n p hp hplt
        exact ih p order1 (by omega) (fun m hm => hreg m (hstep.trans hm)) htopo1
      obtain ⟨ext, h1, h2, h3, h4⟩ := visitEach_spec g (g.visit depth) (g.inputOf n) hP order htopo
      have hnot : n ∉ order ++ ext := by
        intro hin
        rcases List.mem_append.mp hin with hin | hin
        · exact hmem hin
        · obtain ⟨p, hp, hr⟩ := h4 n hin
          exact hac n (Relation.TransGen.head' hp hr)
      refine ⟨ext ++ [n], ?_, ?_, ?_, ?_⟩
      · simp only [Graph.visit, hc, Bool.false_eq_true, if_false, hn, h1, List.append_assoc]
      · rw [← List.append_assoc]
        exact Graph.Topo.snoc _ n h2 hnot h3
      · simp
      · intro m hm
        rcases List.mem_append.mp hm with hm | hm
        · obtain ⟨p, hp, hr⟩ := h4 m hm
          exact Relation.ReflTransGen.head hp hr
        · rw [List.mem_singleton] at hm
          rw [hm]
          exact Relation.ReflTransGen.refl

/-- On an acyclic graph the nodes can be ranked below the number of nodes so
that every registered predecessor of a node has a smaller rank than the node:
the rank of a node is the number of registered nodes it depends on. -/
theorem Graph.exists_rank {F : Type} (g : Graph F) (hac : g.Acyclic) :
    ∃ rank : Nat → Nat,
      (∀ n p, p ∈ g.inputOf n → p < g.nodes.length → rank p < rank n) ∧
      (∀ n, n < g.nodes.length → rank n < g.nodes.length) := by
  classical
  refine ⟨fun n => ((Finset.range g.nodes.length).filter
    (fun m => Relation.TransGen (fun a b => b ∈ g.inputOf a) n m)).card, ?_, ?_⟩
  · intro n p hp hplt
    apply Finset.card_lt_card
    rw [Finset.ssubset_iff_of_subset]
    · refine ⟨p, ?_, ?_⟩
      · simp only [Finset.mem_filter, Finset.mem_range]
        exact ⟨hplt, Relation.TransGen.single hp⟩
      · simp only [Finset.mem_filter, Finset.mem_range, not_and]
        intro _
        exact hac p
    · intro m hm
      simp only [Finset.mem_filter, Finset.mem_range] at hm ⊢
      exact ⟨hm.1, Relation.TransGen.head hp hm.2⟩
  · intro n hn
    have hsub : (Finset.range g.nodes.length).filter
        (fun m => Relation.TransGen (fun a b => b ∈ g.inputOf a) n m)
        ⊆ (Finset.range g.nodes.length).erase n := by
      intro m hm
      simp only [Finset.mem_filter, Finset.mem_range] at hm
      simp only [Finset.mem_erase, Finset.mem_range]
      refine ⟨?_, hm.1⟩
      intro hmn
      rw [hmn] at hm
      exact hac n hm.2
    have hcard := Finset.card_le_card hsub
    rw [Finset.card_erase_of_mem (by simpa using hn), Finset.card_range] at hcard
    simp only
    omega

theorem inputsBelowFrom_spec {F : Type} :
    ∀ (nodes : List (GraphNode F)) (i : Nat), inputsBelowFrom i nodes = true →
      ∀ (j : Nat) (node : GraphNode F), nodes[j]? = some node → ∀ p ∈ node.input, p < i + j := by
  intro nodes
  induction nodes with
  | nil => intro i _ j node h; simp at h
  | cons a rest ih =>
    intro i h j node hj p hp
    simp only [inputsBelowFrom, Bool.and_eq_true, List.all_eq_true, decide_eq_true_eq] at h
    cases j with
    | zero =>
      simp only [List.getElem?_cons_zero, Option.some.injEq] at hj
      subst hj
      exact h.1 p hp
    | succ j =>
      simp only [List.getElem?_cons_succ] at hj
      have := ih (i + 1) h.2 j node hj p hp
      omega

theorem Graph.inputOf_lt {F : Type} (g : Graph F) (h : g.inputsBelow = true) (n p : Nat)
    (hp : p ∈ g.inputOf n) : p < n := by
  unfold Graph.inputOf at hp
  cases hn : g.nodes[n]? with
  | none => simp [hn] at hp
  | some node =>
    simp only [hn] at hp
    have := inputsBelowFrom_spec g.nodes 0 h n node hn p hp
    omega

theorem Graph.reach_le {F : Type} (g : Graph F) (h : g.inputsBelow = true) (n m : Nat)
    (hr : g.Reach n m) : m ≤ n := by
  induction hr with
  | refl => exact le_refl _
  | tail _ hstep ih =>
    have := g.inputOf_lt h _ _ hstep
    omega

/-- A graph whose nodes have their predecessors at smaller indices is acyclic. -/
theorem Graph.acyclic_of_inputsBelow {F : Type} (g : Graph F) (h : g.inputsBelow = true) :
    g.Acyclic := by
  intro n hcyc
  have hlt : ∀ a b, Relation.TransGen (fun a b => b ∈ g.inputOf a) a b → b < a := by
    intro a b hab
    induction hab with
    | single hstep => exact g.inputOf_lt h _ _ hstep
    | tail _ hstep ih =>
      have := g.inputOf_lt h _ _ hstep
      omega
  exact absurd (hlt n n hcyc) (lt_irrefl n)

/-- C12, as stated, fails.  A graph of two instance nodes that are both named
`X` is acyclic, and `Graph.Compile` fails on it with the duplicate-name error.
A graph in which `XW` multiplies an `X` of shape `(1)` and a `W` of shape
`(2)` is acyclic, and `Graph.Compile` fails on it with the shape-mismatch
error.  And in the order compiled for the example graph, `X`, `W`, `XW`, `B`,
`Z` (indices 0, 1, 3, 2, 4), the node `B` does not come before `XW`, of which
it is no predecessor. -/
theorem Compile_counterexample :
    (({ nodes := [InstanceNode Int "X" [1], InstanceNode Int "X" [1]] } : Graph Int).Acyclic ∧
      ({ nodes := [InstanceNode Int "X" [1], InstanceNode Int "X" [1]] } : Graph Int).Compile [0]
        = Except.error CompileError.DuplicateNameError) ∧
    (({ nodes := [InstanceNode Int "X" [1], InstanceNode Int "W" [2],
                  MulNode Int "XW" [1] 0 1] } : Graph Int).Acyclic ∧
      ({ nodes := [InstanceNode Int "X" [1], InstanceNode Int "W" [2],
                   MulNode Int "XW" [1] 0 1] } : Graph Int).Compile [2]
        = Except.error CompileError.ShapeMismatchError) ∧
    (example1.graph Int).Compile [4] = Except.ok [0, 1, 3, 2, 4] :=
  ⟨⟨Graph.acyclic_of_inputsBelow _ rfl, rfl⟩, ⟨Graph.acyclic_of_inputsBelow _ rfl, rfl⟩, rfl⟩

/-- C12 (amended): for every acyclic graph with unique node names and every
list of target nodes such that every node the targets depend on is registered
and passes its shape rule, `Graph.Compile` returns a forward execution order
that contains every node reachable from the targets, and no other node,
exactly once, and in which every node comes strictly after all of its
predecessors. -/
theorem Compile_forward_order {F : Type} (g : Graph F) (targets : List Nat)
    (hnames : (g.nodes.map (fun node => node.name)).Nodup) (hac : g.Acyclic)
    (hreg : ∀ t ∈ targets, ∀ m, g.Reach t m → m < g.nodes.length)
    (hshape : ∀ t ∈ targets, ∀ m, g.Reach t m → g.shapeOk m = true) :
    ∃ order, g.Compile targets = Except.ok order ∧ order.Nodup ∧
      (∀ m, m ∈ order ↔ ∃ t ∈ targets, g.Reach t m) ∧
      (∀ (l1 : List Nat) (n : Nat) (l2 : List Nat), order = l1 ++ n :: l2 →
        ∀ p ∈ g.inputOf n, p ∈ l1) := by
  obtain ⟨rank, hrank, hbound⟩ := g.exists_rank hac
  have hP : ∀ t ∈ targets, ∀ order, g.Topo order →
      ∃ ext, g.visit g.nodes.length t order = Except.ok (order ++ ext) ∧
        g.Topo (order ++ ext) ∧ t ∈ order ++ ext ∧ ∀ m ∈ ext, g.Reach t m := by
    intro t ht order htopo
    exact g.visit_spec rank hrank hac g.nodes.length t order
      (hbound t (hreg t ht t Relation.ReflTransGen.refl)) (hreg t ht) htopo
  obtain ⟨order, h1, h2, h3, h4⟩ :=
    visitEach_spec g (g.visit g.nodes.length) targets hP [] Graph.Topo.nil
  simp only [List.nil_append] at h1 h2 h3 h4
  have hmem : ∀ m, m ∈ order ↔ ∃ t ∈ targets, g.Reach t m := by
    intro m
    constructor
    · exact h4 m
    · rintro ⟨t, ht, hr⟩
      exact h2.reach_mem t m (h3 t ht) hr
  have hall : order.all g.shapeOk = true := by
    rw [List.all_eq_true]
    intro m hm
    obtain ⟨t, ht, hr⟩ := (hmem m).mp hm
    exact hshape t ht m hr
  refine ⟨order, ?_, h2.nodup, hmem, h2.before⟩
  unfold Graph.Compile
  simp only [hnames, not_true_eq_false, if_false, h1, hall, if_true]

/-- Witness for C12 (amended): the example graph compiled for the target `Z`
gives the order `X`, `W`, `XW`, `B`, `Z`, in which `X` and `W` come before
`XW`, and `XW` and `B` before `Z`. -/
theorem Compile_forward_order_witness :
    ∃ order, (example1.graph Int).Compile [4] = Except.ok order ∧
      order = [0, 1, 3, 2, 4] ∧ order.Nodup ∧
      (∀ (l1 : List Nat) (n : Nat) (l2 : List Nat), order = l1 ++ n :: l2 →
        ∀ p ∈ (example1.graph Int).inputOf n, p ∈ l1) := by
  have hbelow : (example1.graph Int).inputsBelow = true := rfl
  have hle : ∀ t ∈ [4], ∀ m, (example1.graph Int).Reach t m → m ≤ 4 := by
    intro t ht m hr
    rw [List.mem_singleton] at ht
    subst ht
    exact (example1.graph Int).reach_le hbelow _ m hr
  obtain ⟨order, h1, h2, -, h4⟩ :=
    Compile_forward_order (example1.graph Int) [4] (by decide)
      ((example1.graph Int).acyclic_of_inputsBelow hbelow)
      (fun t ht m hr => Nat.lt_succ_of_le (hle t ht m hr))
      (fun t ht m hr => by
        have := hle t ht m hr
        interval_cases m <;> rfl)
  have heval : (example1.graph Int).Compile [4] = Except.ok [0, 1, 3, 2, 4] := rfl
  have horder : order = [0, 1, 3, 2, 4] := by
    rw [heval] at h1
    injection h1 with h1
    exact h1.symm
  exact ⟨order, h1, horder, h2, h4⟩

/-! ## The example `Z = X * W + B` -/

namespace example1

theorem setup_eq (F : Type) [Mul F] [Add F] [Zero F] :
    setup F = some (contextOf F 0 0 0 0 0) := rfl

theorem compute_eq (F : Type) [Mul F] [Add F] (x0 w0 b0 xw0 z0 x w b : F) :
    compute (contextOf F x0 w0 b0 xw0 z0) x w b
      = some (contextOf F x w b (x * w) (x * w + b), x * w + b) := rfl

theorem computeAll_eq (F : Type) [Mul F] [Add F] :
    ∀ (batches : List (F × F × F)) (x0 w0 b0 xw0 z0 : F),
      ∃ x1 w1 b1 xw1 z1,
        computeAll (contextOf F x0 w0 b0 xw0 z0) batches
          = some (contextOf F x1 w1 b1 xw1 z1,
              batches.map (fun t => t.1 * t.2.1 + t.2.2)) := by
  intro batches
  induction batches with
  | nil => intro x0 w0 b0 xw0 z0; exact ⟨x0, w0, b0, xw0, z0, rfl⟩
  | cons t rest ih =>
    obtain ⟨x, w, b⟩ := t
    intro x0 w0 b0 xw0 z0
    obtain ⟨x1, w1, b1, xw1, z1, h⟩ := ih x w b (x * w) (x * w + b)
    refine ⟨x1, w1, b1, xw1, z1, ?_⟩
    simp only [computeAll, compute_eq, h, List.map_cons]

/-- C11: `Main::main` sets up a context for the graph `Z = X * W + B` compiled
for the target `Z`, and after every sequence of earlier calls of `compute` on
that context the call with the inputs `x`, `w`, `b` returns `x * w + b` and
leaves the one-element tensor `x * w + b` under `Z` in the hidden map; a
sequence of calls prints, call by call, the value for the inputs of that call.
The product and the sum are those of the value type. -/
theorem forward_result (F : Type) [Mul F] [Add F] [Zero F] :
    ∃ ctx0, setup F = some ctx0 ∧
      (∀ (earlier : List (F × F × F)) (x w b : F),
        ∃ ctx1 zs ctx2, computeAll ctx0 earlier = some (ctx1, zs) ∧
          compute ctx1 x w b = some (ctx2, x * w + b) ∧
          TensorMap.get ctx2.hidden "Z" = some [x * w + b]) ∧
      (∀ batches : List (F × F × F),
        ∃ ctx1, computeAll ctx0 batches
          = some (ctx1, batches.map (fun t => t.1 * t.2.1 + t.2.2))) := by
  refine ⟨_, setup_eq F, ?_, ?_⟩
  · intro earlier x w b
    obtain ⟨x1, w1, b1, xw1, z1, h⟩ := computeAll_eq F earlier 0 0 0 0 0
    exact ⟨_, _, _, h, compute_eq F x1 w1 b1 xw1 z1 x w b, rfl⟩
  · intro batches
    obtain ⟨x1, w1, b1, xw1, z1, h⟩ := computeAll_eq F batches 0 0 0 0 0
    exact ⟨_, h⟩

/-- Witness for C11: on integer values the four calls of `Main::main` print
5, 10, 26 and 230. -/
theorem forward_result_witness :
    ∃ ctx0 ctx1, setup Int = some ctx0 ∧
      computeAll ctx0 [(1, 2, 3), (2, 3, 4), (4, 5, 6), (10, 20, 30)]
        = some (ctx1, [5, 10, 26, 230]) := by
  obtain ⟨ctx0, h0, -, h2⟩ := forward_result Int
  obtain ⟨ctx1, h⟩ := h2 [(1, 2, 3), (2, 3, 4), (4, 5, 6), (10, 20, 30)]
  exact ⟨ctx0, ctx1, h0, h⟩

end example1

end deepx_core
